import Mathlib

/-!
Verification of the Graphs-and-Queues repository: a directed unweighted
graph with two shortest-path searches (recursive enumeration and Dijkstra's
algorithm), a cycle check, and the array-backed binary-heap priority queue
that backs Dijkstra (`graph.py`, `priorityQueue.py`).

Embedding conventions:
* Python lists become `List`, dictionaries become association lists.
* Heap entries `(distance, "name")` become `ℕ∞ × String`; `float('inf')`
  is `⊤ : ℕ∞` (all priorities arising in this program are naturals or inf).
* Python's tuple comparison is the lexicographic order `tupLt` below.
* A raised exception (IndexError on `heapList[1]`, TypeError on iterating
  `None`) is modelled as `none` / an error constructor; a Python function
  returning `None` is modelled with `Option`.
* Loops that are not structurally recursive carry a fuel argument; the
  top-level wrappers pass fuel that the theorems prove sufficient.
-/

namespace GQ

/-- Heap entries are the `(priority, name)` tuples of `priorityQueue.py`. -/
abbrev Entry : Type := ℕ∞ × String

/-- The sentinel `(0, "0")` placed at index 0 by `BinaryHeap.__init__`;
also used as the (never observed) default for out-of-range list reads. -/
def dEntry : Entry := ((0 : ℕ∞), "0")

/-- Lexicographic code-point comparison of character lists: exactly
Python's string `<` (written out structurally so the kernel can evaluate
it, which Lean's built-in `String.ltb` does not allow). -/
def charsLt : List Char → List Char → Bool
  | [], [] => false
  | [], _ :: _ => true
  | _ :: _, [] => false
  | a :: as, b :: bs => if a < b then true else if b < a then false else charsLt as bs

/-- Python's `<` on strings. -/
def strLt (a b : String) : Prop := charsLt a.data b.data = true

/-- Python's lexicographic comparison of `(priority, name)` tuples. -/
def tupLt (a b : Entry) : Prop := a.1 < b.1 ∨ (a.1 = b.1 ∧ strLt a.2 b.2)

instance : DecidableRel tupLt := fun a b => by unfold tupLt strLt; infer_instance

/-- `a ≤ b` in the total tuple order, i.e. `¬ b < a`. -/
def tupLe (a b : Entry) : Prop := ¬ tupLt b a

instance : DecidableRel tupLe := fun a b => by unfold tupLe; infer_instance

/-! ### The BinaryHeap of `priorityQueue.py` -/

/-- State of a `BinaryHeap` object: the backing list (sentinel at index 0)
and the `currentSize` counter.  `currentSize` is an integer because Python
decrements it below zero in one corrupted-state corner (`editHeap` hitting
the sentinel on a fresh heap). -/
structure BinaryHeap where
  heapList : List Entry
  currentSize : ℤ
deriving DecidableEq

/-- `BinaryHeap.__init__`. -/
def emptyHeap : BinaryHeap := ⟨[dEntry], 0⟩

/-- In-place swap `l[i], l[j] = l[j], l[i]`.  All call sites have both
indices in range (Python would raise otherwise). -/
def swapAt (l : List Entry) (i j : ℕ) : List Entry :=
  (l.set i (l.getD j dEntry)).set j (l.getD i dEntry)

/-- The `while i // 2 > 0` loop of `percUp`, with a structural fuel so
the kernel can evaluate it; the index at least halves every round, so
the wrapper's fuel `i` is more than the loop can consume. -/
def percUpF : ℕ → List Entry → ℕ → List Entry
  | 0, l, _ => l
  | fuel + 1, l, i =>
    if 0 < i / 2 then
      percUpF fuel
        (if tupLt (l.getD i dEntry) (l.getD (i / 2) dEntry)
          then swapAt l i (i / 2) else l)
        (i / 2)
    else l

/-- `percUp`: sift index `i` up while it is smaller than its parent. -/
def percUp (l : List Entry) (i : ℕ) : List Entry := percUpF i l i

/-- `insert`: append, bump the size, sift up. -/
def BinaryHeap.insert (h : BinaryHeap) (k : Entry) : BinaryHeap :=
  ⟨percUp (h.heapList ++ [k]) (h.currentSize + 1).toNat, h.currentSize + 1⟩

/-- `minChild`: index of the smaller child of `i` (the left child when the
right one lies beyond `currentSize`). -/
def minChild (l : List Entry) (s : ℤ) (i : ℕ) : ℕ :=
  if s < ((i * 2 + 1 : ℕ) : ℤ) then i * 2
  else if tupLt (l.getD (i * 2) dEntry) (l.getD (i * 2 + 1) dEntry) then i * 2
  else i * 2 + 1

/-- The `while i * 2 <= currentSize` loop of `percDown`, with a
structural fuel (the index strictly grows each round, so the wrapper's
fuel `(s + 1).toNat` is more than the loop can consume).  The extra
`1 ≤ i` guard is harmless because every call site passes `i ≥ 1` (with
`i = 0` the Python loop would never terminate). -/
def percDownF : ℕ → List Entry → ℤ → ℕ → List Entry
  | 0, l, _, _ => l
  | fuel + 1, l, s, i =>
    if 1 ≤ i ∧ ((i * 2 : ℕ) : ℤ) ≤ s then
      percDownF fuel
        (if tupLt (l.getD (minChild l s i) dEntry) (l.getD i dEntry)
          then swapAt l i (minChild l s i) else l)
        s (minChild l s i)
    else l

/-- `percDown`: sift index `i` down, swapping with the smaller child. -/
def percDown (l : List Entry) (s : ℤ) (i : ℕ) : List Entry :=
  percDownF (s + 1).toNat l s i

/-- `delMin`: pop the root, move the last element to the root, sift down.
On a heap whose list has no index 1 Python raises IndexError; that branch
is `none`. -/
def BinaryHeap.delMin (h : BinaryHeap) : Option (Entry × BinaryHeap) :=
  if 2 ≤ h.heapList.length then
    some (h.heapList.getD 1 dEntry,
      ⟨percDown
          ((h.heapList.set 1 (h.heapList.getD h.currentSize.toNat dEntry)).dropLast)
          (h.currentSize - 1) 1,
        h.currentSize - 1⟩)
  else none

/-- The loop of `buildHeap`: `percDown` from index `i` down to 1. -/
def buildLoop (s : ℤ) : ℕ → List Entry → List Entry
  | 0, l => l
  | i + 1, l => buildLoop s i (percDown l s (i + 1))

/-- `buildHeap`: fresh sentinel plus the list, then sift down from the
middle. -/
def buildHeap (alist : List Entry) : BinaryHeap :=
  ⟨buildLoop (alist.length : ℤ) (alist.length / 2) (dEntry :: alist),
    (alist.length : ℤ)⟩

/-- `isEmpty`: the backing list is exactly `[(0, "0")]`. -/
def BinaryHeap.isEmpty (h : BinaryHeap) : Bool := decide (h.heapList = [dEntry])

/-- `editHeap`: linear scan (from index 0, sentinel included) for the first
tuple whose name matches; delete it and re-insert the update, or plain
insert when the name is absent. -/
def BinaryHeap.editHeap (h : BinaryHeap) (name : String) (update : Entry) :
    BinaryHeap :=
  match h.heapList.findIdx? (fun e => decide (e.2 = name)) with
  | some i => BinaryHeap.insert ⟨h.heapList.eraseIdx i, h.currentSize - 1⟩ update
  | none => BinaryHeap.insert h update

/-- `display`: first tuple with the given name, if any. -/
def BinaryHeap.display (h : BinaryHeap) (name : String) : Option Entry :=
  h.heapList.find? (fun e => decide (e.2 = name))

/-- `__contains__`: Python's `item in tuple` tests `item` against either
component; a number can only equal the priority and a string only the
name, which the sum type records. -/
def BinaryHeap.memHeap (h : BinaryHeap) (item : ℕ∞ ⊕ String) : Bool :=
  h.heapList.any (fun e =>
    match item with
    | .inl p => decide (p = e.1)
    | .inr s => decide (s = e.2))

/-! ### The Graph of `graph.py` -/

/-- State of a `Graph` object: the vertex list and the adjacency dictionary
(an association list keyed by vertex, in insertion order, as Python dicts
are). -/
structure Graph (V : Type) where
  vertexList : List V
  connections : List (V × List V)
deriving DecidableEq

variable {V : Type} [DecidableEq V]

/-- `Graph.__init__`. -/
def Graph.empty : Graph V := ⟨[], []⟩

/-- `addVertex`: no-op on a present vertex, else append to both
structures. -/
def Graph.addVertex (g : Graph V) (v : V) : Graph V :=
  if v ∈ g.vertexList then g
  else ⟨g.vertexList ++ [v], g.connections ++ [(v, [])]⟩

/-- The dictionary update `connections[v1].append(v2)` guarded by the
`v2 in connections[v1]` check of `addConn`. -/
def updateConns : List (V × List V) → V → V → List (V × List V)
  | [], _, _ => []
  | (k, ns) :: rest, v1, v2 =>
    if k = v1 then (k, if v2 ∈ ns then ns else ns ++ [v2]) :: rest
    else (k, ns) :: updateConns rest v1 v2

/-- `addConn`: ensure both endpoints exist, then append `v2` to `v1`'s
list unless already present. -/
def Graph.addConn (g : Graph V) (v1 v2 : V) : Graph V :=
  let g2 := (g.addVertex v1).addVertex v2
  ⟨g2.vertexList, updateConns g2.connections v1 v2⟩

/-- `hasVert`. -/
def Graph.hasVert (g : Graph V) (v : V) : Bool := decide (v ∈ g.vertexList)

/-- Dictionary lookup `connections[vert]`. -/
def lookupConns : List (V × List V) → V → Option (List V)
  | [], _ => none
  | (k, ns) :: rest, v => if v = k then some ns else lookupConns rest v

/-- `getConns`: `None` when the vertex is missing, else its adjacency
list. -/
def Graph.getConns (g : Graph V) (v : V) : Option (List V) :=
  if g.hasVert v then lookupConns g.connections v else none

/-- `getNodes` (also the object's iteration order). -/
def Graph.getNodes (g : Graph V) : List V := g.vertexList

/-- The invariants every API-built graph satisfies (spec section 3: vertex
labels unique, `adjacency` keyed exactly by the vertices added together
with them, neighbour lists duplicate-free and inside the vertex set). -/
def Graph.WF (g : Graph V) : Prop :=
  g.connections.map Prod.fst = g.vertexList ∧
  g.vertexList.Nodup ∧
  (∀ p ∈ g.connections, (∀ x ∈ p.2, x ∈ g.vertexList) ∧ p.2.Nodup)

instance (g : Graph V) : Decidable g.WF := by unfold Graph.WF; infer_instance

/-- `w` is a direct successor of `u` (an edge `u → w`). -/
def Graph.edgeB (g : Graph V) (u w : V) : Bool :=
  match g.getConns u with
  | some ns => decide (w ∈ ns)
  | none => false

/-- A (possibly single-vertex) list whose consecutive elements are all
edges of `g`. -/
def IsChain (g : Graph V) (c : List V) : Prop :=
  List.Chain' (fun a b => g.edgeB a b = true) c

instance (g : Graph V) (c : List V) : Decidable (IsChain g c) := by
  unfold IsChain; infer_instance

/-- A directed simple path from `s` to `v`: nonempty, consecutive edges,
no repeated vertex. -/
def ChainFT (g : Graph V) (s v : V) (c : List V) : Prop :=
  IsChain g c ∧ c.head? = some s ∧ c.getLast? = some v ∧ c.Nodup

/-- A valid completion of `find_shortest_path`'s running accumulator:
appended to `p0 ++ [s]`, the segment `s :: q` is an edge chain ending at
`v` with no repeats and no vertex of the accumulator `p0`. -/
def Ext (g : Graph V) (s v : V) (p0 q : List V) : Prop :=
  IsChain g (s :: q) ∧ (s :: q).getLast? = some v ∧ (s :: q).Nodup ∧
    ∀ x ∈ s :: q, x ∉ p0

/-! ### `find_shortest_path` -/

/-- The `for node in graph.getConns(start)` loop of `find_shortest_path`:
`f` is the recursive call at the next fuel level, `shortest` the running
best.  `if newpath:` skips both `None` and the (never produced) empty
list; `not shortest` accepts when the running best is `None` or empty. -/
def fspFold (f : V → Option (List V)) (path : List V) :
    List V → Option (List V) → Option (List V)
  | [], shortest => shortest
  | node :: rest, shortest =>
    fspFold f path rest
      (if node ∈ path then shortest
       else
         match f node with
         | none => shortest
         | some newpath =>
           if newpath.length = 0 then shortest
           else
             match shortest with
             | none => some newpath
             | some sp =>
               if sp.length = 0 ∨ newpath.length < sp.length then some newpath
               else some sp)

/-- `find_shortest_path`, with an explicit fuel for the recursion (the
wrapper passes enough that it never runs out: the path accumulator grows
by a fresh graph vertex at every level).  On a malformed graph whose
adjacency dictionary lacks a listed vertex Python would raise; `getD []`
stands in for that unreachable read. -/
def fspAux (fuel : ℕ) (g : Graph V) (start endv : V) (path0 : List V) :
    Option (List V) :=
  match fuel with
  | 0 => none
  | fuel + 1 =>
    let path := path0 ++ [start]
    if start = endv then some path
    else if ¬ g.hasVert start = true ∨ ¬ g.hasVert endv = true then none
    else
      fspFold (fun node => fspAux fuel g node endv path) path
        ((g.getConns start).getD []) none

/-- `find_shortest_path(graph, start, end)` with the default `path=[]`. -/
def find_shortest_path (g : Graph V) (start endv : V) : Option (List V) :=
  fspAux (g.vertexList.length + 1) g start endv []

/-! ### `check_cycles` -/

/-- The `for neighbour in graph.getConns(vertex)` loop of `visit`: `f` is
the recursive `visit` call one fuel level down.  Threads the two mutated
sets; on normal exit removes `vertex` from the path set (Python's
`path.remove`, whose KeyError branch is unreachable since `vertex` was
just inserted). -/
def visitFold (f : V → Finset V → Finset V → Bool × Finset V × Finset V)
    (vertex : V) : List V → Finset V → Finset V → Bool × Finset V × Finset V
  | [], visited, path => (false, visited, path.erase vertex)
  | n :: rest, visited, path =>
    if n ∈ path then (true, visited, path)
    else
      match f n visited path with
      | (true, v', p') => (true, v', p')
      | (false, v', p') => visitFold f vertex rest v' p'

/-- `visit(vertex, visited, path, graph)`: mark `vertex` visited and on
the path, explore the neighbours, and un-mark the path on the way out. -/
def visit (fuel : ℕ) (g : Graph V) (vertex : V) (visited path : Finset V) :
    Bool × Finset V × Finset V :=
  match fuel with
  | 0 => (false, visited, path)
  | fuel + 1 =>
    if vertex ∈ visited then (false, visited, path)
    else
      visitFold (fun n vi pa => visit fuel g n vi pa) vertex
        ((g.getConns vertex).getD [])
        (insert vertex visited) (insert vertex path)

/-- The `any(visit(vert, path, visited, graph) for vert in graph)` loop.
`check_cycles` builds `path` then `visited` but passes them positionally
into `visit(vertex, visited, path, ...)`, so its `path` set is `visit`'s
`visited` parameter and vice versa; both start empty, and the generator
threads the mutated sets and short-circuits on the first `True`. -/
def ccAux (g : Graph V) : List V → Finset V → Finset V → Bool
  | [], _, _ => false
  | v :: rest, s1, s2 =>
    match visit (g.vertexList.length + 1) g v s1 s2 with
    | (true, _, _) => true
    | (false, s1', s2') => ccAux g rest s1' s2'

/-- `check_cycles(graph)`. -/
def check_cycles (g : Graph V) : Bool := ccAux g g.vertexList ∅ ∅

/-- A directed cycle at `u`: an edge chain of at least two entries that
starts and ends at `u`. -/
def CycleAt (g : Graph V) (u : V) : Prop :=
  ∃ c : List V, 2 ≤ c.length ∧ IsChain g c ∧ c.head? = some u ∧
    c.getLast? = some u

/-- The graph contains a directed cycle. -/
def HasCycle (g : Graph V) : Prop := ∃ u : V, CycleAt g u

/-- The invariant `visit` maintains between calls: a vertex that is
visited but no longer on the recursion path has all its successors
visited and off the path, and lies on no directed cycle. -/
def GoodPair (g : Graph V) (vi pa : Finset V) : Prop :=
  (∀ a ∈ vi, a ∉ pa → ∀ b, g.edgeB a b = true → b ∈ vi ∧ b ∉ pa) ∧
  (∀ a ∈ vi, a ∉ pa → ¬ CycleAt g a)

/-! ### `Dijkstra` -/

/-- Lookup in the `dist` dictionary.  Every read the algorithm performs is
of a key present since initialization; `⊤` is the (never observed) default
standing in for Python's KeyError. -/
def lookupD : List (String × ℕ∞) → String → ℕ∞
  | [], _ => ⊤
  | p :: rest, k => if p.1 = k then p.2 else lookupD rest k

/-- Dictionary assignment `dist[k] = x`: replace in place, or append a new
key. -/
def setD : List (String × ℕ∞) → String → ℕ∞ → List (String × ℕ∞)
  | [], k, x => [(k, x)]
  | p :: rest, k, x => if p.1 = k then (k, x) :: rest else p :: setD rest k x

/-- Result of a `Dijkstra` run: the returned dictionary, a raised
exception (`err`), or fuel exhaustion (`out`, which the theorems prove
unreachable for the wrapper's fuel). -/
inductive DRes where
  | ok : List (String × ℕ∞) → DRes
  | err : DRes
  | out : DRes
deriving DecidableEq

/-- The `for next_node in graph.getConns(current[1])` relaxation loop:
`new_dist = current[0] + 1`; on improvement write it to `dist` and
`editHeap` the neighbour's entry (Python re-reads `dist[next_node]`,
which is exactly the value just written). -/
def relaxFold (cur : Entry) :
    List String → List (String × ℕ∞) → BinaryHeap →
      List (String × ℕ∞) × BinaryHeap
  | [], dist, pq => (dist, pq)
  | n :: rest, dist, pq =>
    if cur.1 + 1 < lookupD dist n then
      relaxFold cur rest (setD dist n (cur.1 + 1))
        (pq.editHeap n (cur.1 + 1, n))
    else relaxFold cur rest dist pq

/-- The `while not pq.isEmpty()` loop.  `delMin` on a list with no index 1
raises (`err`), as does iterating `getConns` of a name that is not a
vertex (`None`). -/
def dijkstraLoop (g : Graph String) :
    ℕ → List (String × ℕ∞) → BinaryHeap → DRes
  | 0, _, _ => .out
  | fuel + 1, dist, pq =>
    if pq.isEmpty then .ok dist
    else
      match pq.delMin with
      | none => .err
      | some (current, pq') =>
        match g.getConns current.2 with
        | none => .err
        | some ns =>
          let dp := relaxFold current ns dist pq'
          dijkstraLoop g fuel dp.1 dp.2

/-- The initialization loop of `Dijkstra`: every vertex gets distance `⊤`
(`float('inf')`) except the source's `0`, and is inserted into the
queue. -/
def dijkstraInit (g : Graph String) (source : String) :
    List (String × ℕ∞) × BinaryHeap :=
  g.vertexList.foldl
    (fun st node =>
      let dv : ℕ∞ := if node ≠ source then ⊤ else 0
      (setD st.1 node dv, st.2.insert (dv, node)))
    ([], emptyHeap)

/-- One step of the initialization loop (named so the invariant proofs
can speak about the fold compactly). -/
def initStep (source : String) (st : List (String × ℕ∞) × BinaryHeap)
    (node : String) : List (String × ℕ∞) × BinaryHeap :=
  let dv : ℕ∞ := if node ≠ source then ⊤ else 0
  (setD st.1 node dv, st.2.insert (dv, node))

/-- Fuel sufficient for the main loop (proved below): the loop strictly
decreases `Φ * (n + 1) + |queue|` where `Φ ≤ n²` sums the capped
distances and the queue holds at most `n` entries. -/
def dijkstraFuel (g : Graph String) : ℕ :=
  g.vertexList.length * g.vertexList.length * (g.vertexList.length + 1) +
    g.vertexList.length + 1

/-- `Dijkstra(graph, source)`. -/
def Dijkstra (g : Graph String) (source : String) : DRes :=
  let st := dijkstraInit g source
  dijkstraLoop g (dijkstraFuel g) st.1 st.2


/-! ### Predicates and harnesses used by the theorems -/

/-- The heap-order invariant as the spec states it: each non-root index
`i` (the root is index 1; index 0 holds the sentinel) has priority at
least its parent's. -/
def HeapOrdered (l : List Entry) : Prop :=
  ∀ i : ℕ, i < l.length → 2 ≤ i →
    (l.getD (i / 2) dEntry).1 ≤ (l.getD i dEntry).1

instance (l : List Entry) : Decidable (HeapOrdered l) := by
  unfold HeapOrdered
  infer_instance

/-- Heap order for the full lexicographic tuple comparison the code
actually swaps by; it implies `HeapOrdered`. -/
def IsHeap (l : List Entry) : Prop :=
  ∀ i : ℕ, i < l.length → 2 ≤ i →
    tupLe (l.getD (i / 2) dEntry) (l.getD i dEntry)

instance (l : List Entry) : Decidable (IsHeap l) := by
  unfold IsHeap
  infer_instance

/-- `currentSize` agrees with the backing list (true of every heap the
API builds). -/
def sizeOK (h : BinaryHeap) : Prop :=
  h.currentSize = (h.heapList.length : ℤ) - 1

instance (h : BinaryHeap) : Decidable (sizeOK h) := by
  unfold sizeOK
  infer_instance

/-- A fresh heap loaded by a sequence of `insert` calls. -/
def insertAll (entries : List Entry) : BinaryHeap :=
  entries.foldl BinaryHeap.insert emptyHeap

/-- Repeated `delMin` until `isEmpty`, collecting the returned entries
(the harness for the drain experiment; fuel `heapList.length` always
suffices since `delMin` shortens the list). -/
def drainAux : ℕ → BinaryHeap → List Entry
  | 0, _ => []
  | fuel + 1, h =>
    if h.isEmpty then []
    else
      match h.delMin with
      | none => []
      | some (e, h2) => e :: drainAux fuel h2

/-- Drain a heap by repeated `delMin`. -/
def drain (h : BinaryHeap) : List Entry := drainAux h.heapList.length h

/-- `j` sits in the subtree rooted at `i` of the implicit
halving-parent tree. -/
def Desc (i j : ℕ) : Prop := ∃ k : ℕ, j / 2 ^ k = i

/-- The heap of the `editHeap` counterexample: seven inserts that leave
`(1, "a")` at the root. -/
def cexHeap : BinaryHeap :=
  insertAll [((1 : ℕ∞), "a"), ((10 : ℕ∞), "b"), ((2 : ℕ∞), "c"),
    ((11 : ℕ∞), "d"), ((12 : ℕ∞), "e"), ((3 : ℕ∞), "f"), ((4 : ℕ∞), "g")]

/-- The doctest graph of `graph.py` (edges A→B, A→C, B→C, C→D). -/
def gEx : Graph String :=
  ((((Graph.empty.addVertex "A").addConn "A" "B").addConn "A" "C").addConn
    "B" "C").addConn "C" "D"

/-- A graph with a vertex literally named "0" reachable from the source:
the input on which `Dijkstra` destroys the heap sentinel and crashes. -/
def gZero : Graph String := Graph.empty.addConn "A" "0"

/-- The two cycle-check doctest graphs. -/
def gCyc : Graph String := (Graph.empty.addConn "A" "B").addConn "B" "A"

def gNoCyc : Graph String := (Graph.empty.addConn "A" "B").addConn "A" "C"

/-- The property Python's `item in tuple` tests inside `__contains__`:
`item` equals the component of matching type. -/
def matchesItem (item : ℕ∞ ⊕ String) (e : Entry) : Prop :=
  match item with
  | .inl p => p = e.1
  | .inr s => s = e.2


/-- Cap an extended-natural distance at `n` (for the termination
measure). -/
def capD (d : ℕ∞) (n : ℕ) : ℕ := min (WithTop.untop' n d) n

/-- Termination potential: the sum of all capped distances. -/
def Phi (g : Graph String) (dist : List (String × ℕ∞)) : ℕ :=
  (g.vertexList.map (fun v => capD (lookupD dist v) g.vertexList.length)).sum

/-- Termination measure of the main Dijkstra loop: every iteration pops
one entry, and every queue growth is paid for by a strict drop of a
capped distance. -/
def Mq (g : Graph String) (dist : List (String × ℕ∞)) (pq : BinaryHeap) :
    ℕ :=
  Phi g dist * (g.vertexList.length + 1) + pq.heapList.tail.length

/-- Every vertex of `c` carries a distance label at most its position. -/
def PrefixLabeled (dist : List (String × ℕ∞)) (c : List String) : Prop :=
  ∀ i, i < c.length → lookupD dist (c.getD i "") ≤ (i : ℕ∞)

/-- The loop invariant of `Dijkstra` apart from relaxedness: the heap is
structurally sound with the sentinel in place, queue entries carry
pairwise-distinct vertex names synchronized with `dist`, the dictionary
is keyed exactly by the vertex list with the source at distance `0`, and
every finite distance is realized by a simple path whose every prefix is
labeled at most its length. -/
def DInv (g : Graph String) (s : String) (dist : List (String × ℕ∞))
    (pq : BinaryHeap) : Prop :=
  sizeOK pq ∧ pq.heapList[0]? = some dEntry ∧
  (pq.heapList.tail.map Prod.snd).Nodup ∧
  (∀ e ∈ pq.heapList.tail, e.2 ∈ g.vertexList) ∧
  (∀ e ∈ pq.heapList.tail, e.1 = lookupD dist e.2) ∧
  dist.map Prod.fst = g.vertexList ∧
  lookupD dist s = 0 ∧
  (∀ v, lookupD dist v ≠ ⊤ →
    ∃ c, ChainFT g s v c ∧ (c.length : ℕ∞) = lookupD dist v + 1 ∧
      PrefixLabeled dist c)

/-- Every edge out of `u` is relaxed in `dist`. -/
def Relaxed (g : Graph String) (dist : List (String × ℕ∞)) (u : String) :
    Prop :=
  ∀ w, g.edgeB u w = true → lookupD dist w ≤ lookupD dist u + 1

/-- Every vertex no longer in the queue is fully relaxed. -/
def StabOut (g : Graph String) (dist : List (String × ℕ∞))
    (pq : BinaryHeap) : Prop :=
  ∀ a ∈ g.vertexList, a ∉ pq.heapList.tail.map Prod.snd →
    Relaxed g dist a

/-! ## Theorems -/

/-! ### The tuple order -/

theorem charsLt_irrefl : ∀ l : List Char, charsLt l l = false
  | [] => rfl
  | a :: as => by simp [charsLt, charsLt_irrefl as]

theorem charsLt_trans : ∀ as bs cs : List Char, charsLt as bs = true →
    charsLt bs cs = true → charsLt as cs = true := by
  intro as
  induction as with
  | nil =>
    intro bs cs h1 h2
    cases bs with
    | nil => simp [charsLt] at h1
    | cons b bs =>
      cases cs with
      | nil => simp [charsLt] at h2
      | cons c cs => rfl
  | cons a as ih =>
    intro bs cs h1 h2
    cases bs with
    | nil => simp [charsLt] at h1
    | cons b bs =>
      cases cs with
      | nil => simp [charsLt] at h2
      | cons c cs =>
        simp only [charsLt] at h1 h2 ⊢
        by_cases hab : a < b
        · by_cases hbc : b < c
          · simp [lt_trans hab hbc]
          · simp only [hbc, if_false] at h2
            by_cases hcb : c < b
            · simp [hcb] at h2
            · have hbeq : b = c := le_antisymm (not_lt.mp hcb) (not_lt.mp hbc)
              simp [← hbeq, hab]
        · simp only [hab, if_false] at h1
          by_cases hba : b < a
          · simp [hba] at h1
          · simp only [hba, if_false] at h1
            have haeq : a = b := le_antisymm (not_lt.mp hba) (not_lt.mp hab)
            subst haeq
            by_cases hac : a < c
            · simp [hac]
            · simp only [hac, if_false] at h2 ⊢
              by_cases hca : c < a
              · simp [hca] at h2
              · simp only [hca, if_false] at h2 ⊢
                exact ih bs cs h1 h2

theorem charsLt_trichotomy : ∀ as bs : List Char,
    charsLt as bs = true ∨ as = bs ∨ charsLt bs as = true
  | [], [] => Or.inr (Or.inl rfl)
  | [], _ :: _ => Or.inl rfl
  | _ :: _, [] => Or.inr (Or.inr rfl)
  | a :: as, b :: bs => by
    rcases lt_trichotomy a b with h | h | h
    · exact Or.inl (by simp [charsLt, h])
    · rcases charsLt_trichotomy as bs with h2 | h2 | h2
      · refine Or.inl ?_
        subst h
        simp [charsLt, h2]
      · exact Or.inr (Or.inl (by rw [h, h2]))
      · refine Or.inr (Or.inr ?_)
        subst h
        simp [charsLt, h2]
    · exact Or.inr (Or.inr (by simp [charsLt, h]))

theorem strings_eq_of_data_eq {a b : String} (h : a.data = b.data) : a = b := by
  cases a
  cases b
  exact congrArg String.mk h

theorem tupLt_irrefl (a : Entry) : ¬ tupLt a a := by
  simp [tupLt, strLt, charsLt_irrefl]

theorem tupLt_trans {a b c : Entry} (hab : tupLt a b) (hbc : tupLt b c) :
    tupLt a c := by
  rcases hab with h | ⟨h1, h2⟩ <;> rcases hbc with h' | ⟨h1', h2'⟩
  · exact Or.inl (lt_trans h h')
  · exact Or.inl (h1' ▸ h)
  · exact Or.inl (h1 ▸ h')
  · exact Or.inr ⟨h1.trans h1', charsLt_trans _ _ _ h2 h2'⟩

theorem tupLe_total (a b : Entry) : tupLe a b ∨ tupLe b a := by
  by_cases h : tupLt b a
  · exact Or.inr fun hab => tupLt_irrefl a (tupLt_trans hab h)
  · exact Or.inl h

theorem tupLe_of_tupLt {a b : Entry} (h : tupLt a b) : tupLe a b :=
  fun hba => tupLt_irrefl a (tupLt_trans h hba)

theorem tupLe_refl (a : Entry) : tupLe a a := tupLt_irrefl a

theorem tupLt_trichotomy (a b : Entry) : tupLt a b ∨ a = b ∨ tupLt b a := by
  rcases lt_trichotomy a.1 b.1 with h | h | h
  · exact Or.inl (Or.inl h)
  · rcases charsLt_trichotomy a.2.data b.2.data with h2 | h2 | h2
    · exact Or.inl (Or.inr ⟨h, h2⟩)
    · exact Or.inr (Or.inl (Prod.ext h (strings_eq_of_data_eq h2)))
    · exact Or.inr (Or.inr (Or.inr ⟨h.symm, h2⟩))
  · exact Or.inr (Or.inr (Or.inl h))

theorem tupLe_trans {a b c : Entry} (hab : tupLe a b) (hbc : tupLe b c) :
    tupLe a c := by
  intro hca
  rcases tupLt_trichotomy a b with h | h | h
  · exact hbc (tupLt_trans hca h)
  · exact hbc (h ▸ hca)
  · exact hab h

theorem minChild_choice (l : List Entry) (s : ℤ) (i : ℕ) :
    minChild l s i = i * 2 ∨ minChild l s i = i * 2 + 1 := by
  unfold minChild
  split
  · exact Or.inl rfl
  · split
    · exact Or.inl rfl
    · exact Or.inr rfl


/-! ### Structural facts about the heap operations -/

theorem getD_eq_getElem (l : List Entry) {n : ℕ} (h : n < l.length) :
    l.getD n dEntry = l[n] := by
  rw [List.getD_eq_getElem?_getD, List.getElem?_eq_getElem h]
  rfl

theorem swapAt_length (l : List Entry) (i j : ℕ) :
    (swapAt l i j).length = l.length := by
  simp [swapAt]

theorem cons_middle_swap (b c : Entry) (A B : List Entry) :
    List.Perm (b :: (A ++ c :: B)) (c :: (A ++ b :: B)) :=
  ((List.Perm.cons b List.perm_middle).trans (List.Perm.swap c b _)).trans
    (List.Perm.cons c List.perm_middle.symm)

theorem set_getD_self (l : List Entry) {i : ℕ} (h : i < l.length) :
    l.set i (l.getD i dEntry) = l := by
  rw [getD_eq_getElem l h, List.set_eq_take_append_cons_drop, if_pos h,
    ← List.drop_eq_getElem_cons h, List.take_append_drop]

theorem set_set_perm (l : List Entry) {p q : ℕ} (hpq : p < q)
    (hq : q < l.length) :
    List.Perm ((l.set p (l.getD q dEntry)).set q (l.getD p dEntry)) l := by
  have hp : p < l.length := lt_trans hpq hq
  have hkD : q - (p + 1) < (l.drop (p + 1)).length := by
    rw [List.length_drop]
    omega
  have h1 : l.set p (l.getD q dEntry) =
      l.take p ++ l.getD q dEntry :: l.drop (p + 1) := by
    rw [List.set_eq_take_append_cons_drop, if_pos hp]
  have hlenTake : (l.take p).length = p := by
    rw [List.length_take]
    omega
  have h2 : (l.take p ++ l.getD q dEntry :: l.drop (p + 1)).set q
        (l.getD p dEntry) =
      l.take p ++ l.getD q dEntry ::
        (l.drop (p + 1)).set (q - (p + 1)) (l.getD p dEntry) := by
    rw [List.set_append, if_neg (by omega), hlenTake]
    have hqp : q - p = (q - (p + 1)) + 1 := by omega
    rw [hqp]
    rfl
  have h3 : (l.drop (p + 1)).set (q - (p + 1)) (l.getD p dEntry) =
      (l.drop (p + 1)).take (q - (p + 1)) ++
        l.getD p dEntry :: (l.drop (p + 1)).drop (q - (p + 1) + 1) := by
    rw [List.set_eq_take_append_cons_drop, if_pos hkD]
  have h4 : l = l.take p ++ l.getD p dEntry :: l.drop (p + 1) := by
    conv_lhs => rw [← List.take_append_drop p l, List.drop_eq_getElem_cons hp]
    rw [getD_eq_getElem l hp]
  have hidx : p + 1 + (q - (p + 1)) = q := by omega
  have hDk : (List.drop (p + 1) l)[q - (p + 1)] = l.getD q dEntry := by
    rw [List.getElem_drop, getD_eq_getElem l hq]
    simp only [hidx]
  have h5 : l.drop (p + 1) =
      (l.drop (p + 1)).take (q - (p + 1)) ++
        l.getD q dEntry :: (l.drop (p + 1)).drop (q - (p + 1) + 1) := by
    conv_lhs =>
      rw [← List.take_append_drop (q - (p + 1)) (l.drop (p + 1)),
        List.drop_eq_getElem_cons hkD]
    rw [hDk]
  rw [h1, h2, h3]
  conv_rhs => rw [h4, h5]
  exact List.Perm.append_left _ (cons_middle_swap _ _ _ _)

theorem swapAt_perm (l : List Entry) (i j : ℕ) (hi : i < l.length)
    (hj : j < l.length) : List.Perm (swapAt l i j) l := by
  unfold swapAt
  rcases lt_trichotomy i j with h | rfl | h
  · exact set_set_perm l h hj
  · rw [List.set_set, set_getD_self l hi]
  · rw [List.set_comm _ _ _ (by omega : i ≠ j)]
    exact set_set_perm l h hi

theorem swapAt_getElem_zero (l : List Entry) (i j : ℕ) (hi : 1 ≤ i)
    (hj : 1 ≤ j) : (swapAt l i j)[0]? = l[0]? := by
  unfold swapAt
  rw [List.getElem?_set_ne (by omega), List.getElem?_set_ne (by omega)]

theorem percUpF_length : ∀ (fuel : ℕ) (l : List Entry) (i : ℕ),
    (percUpF fuel l i).length = l.length
  | 0, _, _ => rfl
  | fuel + 1, l, i => by
    simp only [percUpF]
    split
    · rw [percUpF_length fuel]
      split
      · exact swapAt_length l i (i / 2)
      · rfl
    · rfl

theorem percUpF_getElem_zero : ∀ (fuel : ℕ) (l : List Entry) (i : ℕ),
    (percUpF fuel l i)[0]? = l[0]?
  | 0, _, _ => rfl
  | fuel + 1, l, i => by
    simp only [percUpF]
    split
    · rw [percUpF_getElem_zero fuel]
      split
      · exact swapAt_getElem_zero l i (i / 2) (by omega) (by omega)
      · rfl
    · rfl

theorem percUpF_perm : ∀ (fuel : ℕ) (l : List Entry) (i : ℕ),
    i < l.length → List.Perm (percUpF fuel l i) l
  | 0, _, _, _ => List.Perm.refl _
  | fuel + 1, l, i, hi => by
    simp only [percUpF]
    split
    · have hhalf : i / 2 < l.length := by omega
      split
      · refine (percUpF_perm fuel _ _ ?_).trans (swapAt_perm l i (i / 2) hi hhalf)
        rw [swapAt_length]
        omega
      · exact percUpF_perm fuel l (i / 2) (by omega)
    · exact List.Perm.refl _

theorem minChild_le_s (l : List Entry) (s : ℤ) (i : ℕ)
    (h : ((i * 2 : ℕ) : ℤ) ≤ s) : ((minChild l s i : ℕ) : ℤ) ≤ s := by
  unfold minChild
  split
  · exact_mod_cast h
  · split <;> push_cast <;> omega

theorem percDownF_length : ∀ (fuel : ℕ) (l : List Entry) (s : ℤ) (i : ℕ),
    (percDownF fuel l s i).length = l.length
  | 0, _, _, _ => rfl
  | fuel + 1, l, s, i => by
    simp only [percDownF]
    split
    · rw [percDownF_length fuel]
      split
      · exact swapAt_length _ _ _
      · rfl
    · rfl

theorem percDownF_getElem_zero : ∀ (fuel : ℕ) (l : List Entry) (s : ℤ)
    (i : ℕ), (percDownF fuel l s i)[0]? = l[0]?
  | 0, _, _, _ => rfl
  | fuel + 1, l, s, i => by
    simp only [percDownF]
    split
    · rw [percDownF_getElem_zero fuel]
      rename_i hg
      have hmc : 1 ≤ minChild l s i := by
        unfold minChild
        split
        · omega
        · split <;> omega
      split
      · exact swapAt_getElem_zero _ _ _ (by omega) hmc
      · rfl
    · rfl

theorem percDownF_perm : ∀ (fuel : ℕ) (l : List Entry) (s : ℤ) (i : ℕ),
    s ≤ (l.length : ℤ) - 1 → List.Perm (percDownF fuel l s i) l
  | 0, _, _, _, _ => List.Perm.refl _
  | fuel + 1, l, s, i, hs => by
    simp only [percDownF]
    split
    · rename_i hg
      have hi : i < l.length := by omega
      have hmc : (minChild l s i : ℤ) ≤ s := minChild_le_s l s i hg.2
      have hmcl : minChild l s i < l.length := by omega
      split
      · refine (percDownF_perm fuel _ s _ ?_).trans
          (swapAt_perm l i (minChild l s i) hi hmcl)
        rw [swapAt_length]
        exact hs
      · exact percDownF_perm fuel l s _ hs
    · exact List.Perm.refl _

/-! ### Shape lemmas for the heap API operations -/

theorem perm_tail_of_perm_head {l1 l2 : List Entry}
    (hperm : List.Perm l1 l2) (hhead : l1[0]? = l2[0]?) :
    List.Perm l1.tail l2.tail := by
  rcases l1 with _ | ⟨a, t1⟩
  · have h2 : l2 = [] := hperm.symm.eq_nil
    subst h2
    exact List.Perm.refl _
  · rcases l2 with _ | ⟨b, t2⟩
    · exact absurd hperm.eq_nil (by simp)
    · simp only [List.getElem?_cons_zero, Option.some.injEq] at hhead
      subst hhead
      exact hperm.cons_inv

theorem perm_cons_eraseIdx :
    ∀ (l : List Entry) (j : ℕ), j < l.length →
      List.Perm l (l.getD j dEntry :: l.eraseIdx j)
  | [], j, h => absurd h (by simp)
  | a :: t, 0, _ => by
    simp only [List.getD_cons_zero, List.eraseIdx_cons_zero]
    exact List.Perm.refl _
  | a :: t, j + 1, h => by
    have ht : j < t.length := by
      simp only [List.length_cons] at h
      omega
    rw [List.eraseIdx_cons_succ, List.getD_cons_succ]
    exact (List.Perm.cons a (perm_cons_eraseIdx t j ht)).trans
      (List.Perm.swap _ _ _)

theorem findIdx?_some_spec {α : Type} (p : α → Bool) :
    ∀ (l : List α) (i : ℕ), l.findIdx? p = some i →
      ∃ e, l[i]? = some e ∧ p e = true := by
  intro l
  induction l with
  | nil => intro i h; simp [List.findIdx?] at h
  | cons a t ih =>
    intro i h
    rw [List.findIdx?_cons] at h
    split at h
    · cases h
      exact ⟨a, by simp, by assumption⟩
    · rw [List.findIdx?_succ] at h
      rcases hfi : t.findIdx? p with _ | j
      · rw [hfi] at h
        exact absurd h (by simp)
      · rw [hfi] at h
        have h2 : j + 1 = i := by simpa using h
        rcases ih j hfi with ⟨e, he, hpe⟩
        exact ⟨e, by rw [← h2, List.getElem?_cons_succ]; exact he, hpe⟩

theorem insert_shape (h : BinaryHeap) (k : Entry) (hs : sizeOK h)
    (hne : h.heapList ≠ []) :
    sizeOK (h.insert k) ∧
    (h.insert k).heapList.length = h.heapList.length + 1 ∧
    (h.insert k).heapList[0]? = h.heapList[0]? ∧
    List.Perm (h.insert k).heapList.tail (k :: h.heapList.tail) := by
  have hlen : 1 ≤ h.heapList.length := List.length_pos.mpr hne
  have hidx : (h.currentSize + 1).toNat = h.heapList.length := by
    rw [sizeOK] at hs
    omega
  have hL : (h.insert k).heapList =
      percUpF (h.currentSize + 1).toNat (h.heapList ++ [k])
        (h.currentSize + 1).toNat := rfl
  have hC : (h.insert k).currentSize = h.currentSize + 1 := rfl
  have hlenL : (h.insert k).heapList.length = h.heapList.length + 1 := by
    rw [hL, percUpF_length, List.length_append]
    rfl
  have hhead : (h.insert k).heapList[0]? = h.heapList[0]? := by
    rw [hL, percUpF_getElem_zero]
    exact List.getElem?_append_left (by omega)
  refine ⟨?_, hlenL, hhead, ?_⟩
  · rw [sizeOK, hC, hlenL]
    rw [sizeOK] at hs
    push_cast
    omega
  · have hperm : List.Perm (h.insert k).heapList (h.heapList ++ [k]) := by
      rw [hL]
      refine percUpF_perm _ _ _ ?_
      rw [List.length_append, hidx]
      simp
    have hhead2 : (h.insert k).heapList[0]? = (h.heapList ++ [k])[0]? := by
      rw [hhead, List.getElem?_append_left (by omega)]
    have htail := perm_tail_of_perm_head hperm hhead2
    have ht2 : (h.heapList ++ [k]).tail = h.heapList.tail ++ [k] := by
      rcases hl : h.heapList with _ | ⟨x, t⟩
      · exact absurd hl hne
      · rfl
    rw [ht2] at htail
    exact htail.trans (List.perm_append_singleton _ _)

theorem tail_perm_surgery (L : List Entry) (hlen : 2 ≤ L.length) :
    List.Perm L.tail
      (L.getD 1 dEntry ::
        ((L.set 1 (L.getD (L.length - 1) dEntry)).dropLast).tail) := by
  rcases L with _ | ⟨x0, t0⟩
  · simp at hlen
  rcases t0 with _ | ⟨x1, rest⟩
  · simp at hlen
  rcases List.eq_nil_or_concat rest with hrest | ⟨mid, z0, hrest⟩
  · subst hrest
    exact List.Perm.refl _
  · subst hrest
    have hgd1 : (x0 :: x1 :: mid.concat z0).getD 1 dEntry = x1 := rfl
    have hcat : x0 :: x1 :: mid.concat z0 = (x0 :: x1 :: mid) ++ [z0] := by
      simp
    have hlenc : (x0 :: x1 :: mid.concat z0).length - 1 =
        (x0 :: x1 :: mid).length := by
      simp
    have hgdlast : (x0 :: x1 :: mid.concat z0).getD
        ((x0 :: x1 :: mid.concat z0).length - 1) dEntry = z0 := by
      rw [hlenc, List.getD_eq_getElem?_getD, hcat,
        List.getElem?_concat_length]
      rfl
    rw [hgd1, hgdlast]
    have hset : (x0 :: x1 :: mid.concat z0).set 1 z0 =
        (x0 :: z0 :: mid) ++ [z0] := by
      simp
    rw [hset, List.dropLast_concat]
    simp only [List.tail_cons]
    exact List.Perm.cons x1
      (by rw [List.concat_eq_append]; exact List.perm_append_singleton z0 mid)

theorem delMin_shape (h : BinaryHeap) (e : Entry) (h2 : BinaryHeap)
    (hs : sizeOK h) (hd : h.delMin = some (e, h2)) :
    sizeOK h2 ∧ h2.heapList.length + 1 = h.heapList.length ∧
    h2.heapList[0]? = h.heapList[0]? ∧ e = h.heapList.getD 1 dEntry ∧
    List.Perm h.heapList.tail (e :: h2.heapList.tail) := by
  rw [BinaryHeap.delMin] at hd
  by_cases hlen : 2 ≤ h.heapList.length
  case neg =>
    rw [if_neg hlen] at hd
    cases hd
  rw [if_pos hlen] at hd
  obtain ⟨he, hh2⟩ : h.heapList.getD 1 dEntry = e ∧
      (⟨percDown
          ((h.heapList.set 1
            (h.heapList.getD h.currentSize.toNat dEntry)).dropLast)
          (h.currentSize - 1) 1,
        h.currentSize - 1⟩ : BinaryHeap) = h2 := by
    simpa using hd
  subst hh2
  have hszn : h.currentSize.toNat = h.heapList.length - 1 := by
    rw [sizeOK] at hs
    omega
  have hLslen :
      ((h.heapList.set 1
        (h.heapList.getD h.currentSize.toNat dEntry)).dropLast).length =
      h.heapList.length - 1 := by
    rw [List.length_dropLast, List.length_set]
  have hslen : h.currentSize - 1 ≤
      ((((h.heapList.set 1
        (h.heapList.getD h.currentSize.toNat dEntry)).dropLast).length : ℤ))
        - 1 := by
    rw [hLslen]
    rw [sizeOK] at hs
    push_cast
    omega
  have hperm := percDownF_perm (h.currentSize - 1 + 1).toNat
    ((h.heapList.set 1
      (h.heapList.getD h.currentSize.toNat dEntry)).dropLast)
    (h.currentSize - 1) 1 hslen
  have hzero := percDownF_getElem_zero (h.currentSize - 1 + 1).toNat
    ((h.heapList.set 1
      (h.heapList.getD h.currentSize.toNat dEntry)).dropLast)
    (h.currentSize - 1) 1
  have hLszero :
      ((h.heapList.set 1
        (h.heapList.getD h.currentSize.toNat dEntry)).dropLast)[0]? =
      h.heapList[0]? := by
    rw [List.getElem?_dropLast, List.length_set,
      if_pos (by omega), List.getElem?_set_ne (by omega)]
  refine ⟨?_, ?_, ?_, he.symm, ?_⟩
  · show h.currentSize - 1 = _
    show h.currentSize - 1 = ((percDown _ _ _).length : ℤ) - 1
    rw [percDown, percDownF_length, hLslen]
    rw [sizeOK] at hs
    push_cast
    omega
  · show (percDown _ _ _).length + 1 = _
    rw [percDown, percDownF_length, hLslen]
    omega
  · exact hzero.trans hLszero
  · have htails2 := perm_tail_of_perm_head hperm hzero
    refine ((tail_perm_surgery h.heapList hlen).trans ?_)
    rw [← he, ← hszn]
    exact List.Perm.cons _ htails2.symm

theorem editHeap_shape (h : BinaryHeap) (name : String) (k : Entry)
    (hs : sizeOK h) (hhead : h.heapList[0]? = some dEntry)
    (hname : name ≠ "0") :
    sizeOK (h.editHeap name k) ∧
    (h.editHeap name k).heapList[0]? = some dEntry ∧
    ((∀ x ∈ h.heapList.tail, x.2 ≠ name) ∧
        List.Perm (h.editHeap name k).heapList.tail (k :: h.heapList.tail) ∨
      ∃ e rest, e.2 = name ∧ e ∈ h.heapList.tail ∧
        List.Perm h.heapList.tail (e :: rest) ∧
        List.Perm (h.editHeap name k).heapList.tail (k :: rest)) := by
  have hne : h.heapList ≠ [] := by
    intro hnil
    rw [hnil] at hhead
    cases hhead
  obtain ⟨t, hl⟩ : ∃ t, h.heapList = dEntry :: t := by
    rcases hl0 : h.heapList with _ | ⟨a0, t0⟩
    · exact absurd hl0 hne
    · rw [hl0] at hhead
      simp only [List.getElem?_cons_zero, Option.some.injEq] at hhead
      exact ⟨t0, by rw [hhead]⟩
  rcases hfi : h.heapList.findIdx? (fun x => decide (x.2 = name)) with _ | i
  · -- name nowhere in the list: plain insert
    have hE : h.editHeap name k = h.insert k := by
      rw [BinaryHeap.editHeap, hfi]
    have hnotin : ∀ x ∈ h.heapList.tail, x.2 ≠ name := by
      intro x hx
      have := List.findIdx?_eq_none_iff.mp hfi x (List.mem_of_mem_tail hx)
      simpa using this
    obtain ⟨hs2, _, hh2, ht2⟩ := insert_shape h k hs hne
    refine ⟨hE ▸ hs2, ?_, Or.inl ⟨hnotin, hE ▸ ht2⟩⟩
    rw [hE, hh2, hhead]
  · -- found at index i: delete it there and re-insert
    have hE : h.editHeap name k =
        BinaryHeap.insert ⟨h.heapList.eraseIdx i, h.currentSize - 1⟩ k := by
      rw [BinaryHeap.editHeap, hfi]
    obtain ⟨e0, he0, hpe0⟩ := findIdx?_some_spec _ h.heapList i hfi
    have hilen : i < h.heapList.length := by
      by_contra hge
      rw [List.getElem?_eq_none (by omega)] at he0
      cases he0
    have hiz : i ≠ 0 := by
      intro h0
      subst h0
      rw [hl] at he0
      simp only [List.getElem?_cons_zero, Option.some.injEq] at he0
      rw [← he0] at hpe0
      simp only [decide_eq_true_eq] at hpe0
      exact hname (by rw [← hpe0]; rfl)
    obtain ⟨j, rfl⟩ : ∃ j, i = j + 1 := ⟨i - 1, by omega⟩
    have hjt : j < t.length := by
      rw [hl] at hilen
      simp only [List.length_cons] at hilen
      omega
    have herase : h.heapList.eraseIdx (j + 1) = dEntry :: t.eraseIdx j := by
      rw [hl, List.eraseIdx_cons_succ]
    have hmid : sizeOK (⟨h.heapList.eraseIdx (j + 1), h.currentSize - 1⟩ :
        BinaryHeap) := by
      rw [sizeOK] at hs ⊢
      show h.currentSize - 1 = _
      show h.currentSize - 1 = ((h.heapList.eraseIdx (j + 1)).length : ℤ) - 1
      rw [List.length_eraseIdx, if_pos hilen]
      rw [hl] at hs ⊢
      simp only [List.length_cons] at hs ⊢
      push_cast
      omega
    have hmidne : (⟨h.heapList.eraseIdx (j + 1), h.currentSize - 1⟩ :
        BinaryHeap).heapList ≠ [] := by
      show h.heapList.eraseIdx (j + 1) ≠ []
      rw [herase]
      simp
    obtain ⟨hs2, _, hh2, ht2⟩ := insert_shape
      (⟨h.heapList.eraseIdx (j + 1), h.currentSize - 1⟩ : BinaryHeap) k
      hmid hmidne
    have he0t : t[j]? = some e0 := by
      rw [hl, List.getElem?_cons_succ] at he0
      exact he0
    have he0gd : t.getD j dEntry = e0 := by
      rw [List.getD_eq_getElem?_getD, he0t]
      rfl
    refine ⟨hE ▸ hs2, ?_, Or.inr ⟨e0, t.eraseIdx j, ?_, ?_, ?_, ?_⟩⟩
    · rw [hE, hh2]
      show (h.heapList.eraseIdx (j + 1))[0]? = _
      rw [herase]
      simp
    · simpa using hpe0
    · rw [hl]
      simp only [List.tail_cons]
      exact List.mem_iff_getElem?.mpr ⟨j, he0t⟩
    · rw [hl]
      simp only [List.tail_cons]
      exact he0gd ▸ perm_cons_eraseIdx t j hjt
    · rw [hE]
      refine ht2.trans ?_
      show List.Perm (k :: (h.heapList.eraseIdx (j + 1)).tail) _
      rw [herase]
      exact List.Perm.refl _

/-! ### The halving-parent tree: subtree arithmetic -/

theorem desc_refl (i : ℕ) : Desc i i := ⟨0, by simp⟩

theorem desc_child {i c : ℕ} (h : c / 2 = i) : Desc i c := ⟨1, by simpa using h⟩

theorem desc_trans {i j m : ℕ} (hij : Desc i j) (hjm : Desc j m) :
    Desc i m := by
  obtain ⟨a, ha⟩ := hjm
  obtain ⟨b, hb⟩ := hij
  exact ⟨a + b, by rw [pow_add, ← Nat.div_div_eq_div_mul, ha, hb]⟩

theorem desc_ge {i j : ℕ} (h : Desc i j) : i ≤ j := by
  obtain ⟨k, hk⟩ := h
  calc i = j / 2 ^ k := hk.symm
    _ ≤ j := Nat.div_le_self _ _

theorem desc_parent {i j : ℕ} (h : Desc i j) (hne : j ≠ i) :
    Desc i (j / 2) ∧ 2 * i ≤ j := by
  obtain ⟨k, hk⟩ := h
  rcases k with _ | k
  · simp at hk
    exact absurd hk hne
  · constructor
    · refine ⟨k, ?_⟩
      rw [← hk, pow_succ, mul_comm (2 ^ k) 2, ← Nat.div_div_eq_div_mul]
    · have h1 : i * 2 ^ (k + 1) ≤ j := by
        rw [← hk]
        exact Nat.div_mul_le_self j _
      have h2 : 2 ≤ 2 ^ (k + 1) := by
        have := Nat.one_le_two_pow (n := k)
        calc 2 = 2 * 1 := by ring
          _ ≤ 2 * 2 ^ k := by omega
          _ = 2 ^ (k + 1) := by ring
      nlinarith

theorem desc_one {m : ℕ} (h : 1 ≤ m) : Desc 1 m := by
  induction m using Nat.strong_induction_on with
  | _ m ih =>
    rcases Nat.lt_or_ge m 2 with h2 | h2
    · interval_cases m
      exact desc_refl 1
    · have hm2 : 1 ≤ m / 2 := by omega
      have hlt : m / 2 < m := by omega
      exact desc_trans (ih (m / 2) hlt hm2) (desc_child rfl)

theorem desc_split {i m : ℕ} (h : Desc i m) (hne : m ≠ i) :
    Desc (i * 2) m ∨ Desc (i * 2 + 1) m := by
  obtain ⟨k, hk⟩ := h
  rcases k with _ | k
  · simp at hk
    exact absurd hk hne
  · have hp : (m / 2 ^ k) / 2 = i := by
      rw [Nat.div_div_eq_div_mul, ← pow_succ, hk]
    have hdp : Desc (m / 2 ^ k) m := ⟨k, rfl⟩
    have hsum : m / 2 ^ k = i * 2 ∨ m / 2 ^ k = i * 2 + 1 := by omega
    rcases hsum with h2 | h2
    · exact Or.inl (h2 ▸ hdp)
    · exact Or.inr (h2 ▸ hdp)

theorem desc_sibling_disjoint {i m : ℕ} (hi : 1 ≤ i)
    (h1 : Desc (i * 2) m) (h2 : Desc (i * 2 + 1) m) : False := by
  obtain ⟨a, ha⟩ := h1
  obtain ⟨b, hb⟩ := h2
  rcases Nat.lt_trichotomy a b with hab | rfl | hab
  · have hba : a + (b - a) = b := by omega
    have hstep : (i * 2) / 2 ^ (b - a) = i * 2 + 1 := by
      conv_lhs => rw [← ha]
      rw [Nat.div_div_eq_div_mul, ← pow_add, hba]
      exact hb
    have hle : (i * 2) / 2 ^ (b - a) ≤ (i * 2) / 2 := by
      refine Nat.div_le_div_left ?_ (by omega)
      have h21 : 2 = 2 ^ 1 := rfl
      rw [h21]
      exact Nat.pow_le_pow_right (by omega) (by omega)
    omega
  · omega
  · have hba : b + (a - b) = a := by omega
    have hstep : (i * 2 + 1) / 2 ^ (a - b) = i * 2 := by
      conv_lhs => rw [← hb]
      rw [Nat.div_div_eq_div_mul, ← pow_add, hba]
      exact ha
    have hle : (i * 2 + 1) / 2 ^ (a - b) ≤ (i * 2 + 1) / 2 := by
      refine Nat.div_le_div_left ?_ (by omega)
      have h21 : 2 = 2 ^ 1 := rfl
      rw [h21]
      exact Nat.pow_le_pow_right (by omega) (by omega)
    omega

/-! ### Pointwise reads after a swap -/

theorem getD_set_self (l : List Entry) (i : ℕ) (a : Entry)
    (h : i < l.length) : (l.set i a).getD i dEntry = a := by
  rw [List.getD_eq_getElem?_getD, List.getElem?_set_self',
    List.getElem?_eq_getElem h]
  rfl

theorem getD_set_ne (l : List Entry) (i : ℕ) (a : Entry) (m : ℕ)
    (h : i ≠ m) : (l.set i a).getD m dEntry = l.getD m dEntry := by
  rw [List.getD_eq_getElem?_getD, List.getElem?_set_ne h,
    ← List.getD_eq_getElem?_getD]

theorem getD_append_left (l l2 : List Entry) (m : ℕ) (h : m < l.length) :
    (l ++ l2).getD m dEntry = l.getD m dEntry := by
  rw [List.getD_eq_getElem?_getD, List.getElem?_append_left h,
    ← List.getD_eq_getElem?_getD]

theorem swapAt_getD (l : List Entry) (i j : ℕ) (hi : i < l.length)
    (hj : j < l.length) (m : ℕ) :
    (swapAt l i j).getD m dEntry =
      if m = i then l.getD j dEntry
      else if m = j then l.getD i dEntry
      else l.getD m dEntry := by
  unfold swapAt
  rcases eq_or_ne m i with rfl | hmi
  · rw [if_pos rfl]
    rcases eq_or_ne m j with rfl | hmj
    · rw [getD_set_self _ _ _ (by rw [List.length_set]; exact hj)]
    · rw [getD_set_ne _ _ _ _ (fun hh => hmj hh.symm),
        getD_set_self _ _ _ hi]
  · rw [if_neg hmi]
    rcases eq_or_ne m j with rfl | hmj
    · rw [if_pos rfl, getD_set_self _ _ _ (by rw [List.length_set]; exact hj)]
    · rw [if_neg hmj, getD_set_ne _ _ _ _ (fun hh => hmj hh.symm),
        getD_set_ne _ _ _ _ (fun hh => hmi hh.symm)]

theorem minChild_min (l : List Entry) (s : ℤ) (i : ℕ) (c : ℕ)
    (hc : c = i * 2 ∨ c = i * 2 + 1) (hcs : (c : ℤ) ≤ s) :
    tupLe (l.getD (minChild l s i) dEntry) (l.getD c dEntry) := by
  unfold minChild
  split
  case isTrue hout =>
    rcases hc with rfl | rfl
    · exact tupLe_refl _
    · exact absurd hcs (by push_cast at hout ⊢; omega)
  case isFalse hin =>
    split
    case isTrue hlt =>
      rcases hc with rfl | rfl
      · exact tupLe_refl _
      · exact tupLe_of_tupLt hlt
    case isFalse hge =>
      rcases hc with rfl | rfl
      · exact hge
      · exact tupLe_refl _

/-! ### `percUp` restores heap order after an append -/

theorem percUpF_isHeap : ∀ (fuel : ℕ) (l : List Entry) (i : ℕ),
    i ≤ fuel → i < l.length →
    (∀ j, 2 ≤ j → j < l.length → j ≠ i →
      tupLe (l.getD (j / 2) dEntry) (l.getD j dEntry)) →
    (∀ c, c < l.length → c / 2 = i → 2 ≤ i →
      tupLe (l.getD (i / 2) dEntry) (l.getD c dEntry)) →
    IsHeap (percUpF fuel l i)
  | 0, l, i, hif, hil, inv1, _ => by
    have hiz : i = 0 := by omega
    intro j hjlen hj2
    exact inv1 j hj2 hjlen (by omega)
  | fuel + 1, l, i, hif, hil, inv1, inv2 => by
    simp only [percUpF]
    by_cases hguard : 0 < i / 2
    · rw [if_pos hguard]
      have hi2 : 2 ≤ i := by omega
      have hhl : i / 2 < l.length := by omega
      have hne1 : i / 2 ≠ i := by omega
      have hne2 : (i / 2) / 2 ≠ i := by omega
      have hne3 : (i / 2) / 2 ≠ i / 2 := by omega
      by_cases hswap : tupLt (l.getD i dEntry) (l.getD (i / 2) dEntry)
      · rw [if_pos hswap]
        refine percUpF_isHeap fuel _ (i / 2) (by omega)
          (by rw [swapAt_length]; exact hhl) ?_ ?_
        · intro j hj2 hjlen hjne
          rw [swapAt_length] at hjlen
          rw [swapAt_getD l i (i / 2) hil hhl j,
            swapAt_getD l i (i / 2) hil hhl (j / 2)]
          by_cases hji : j = i
          · subst hji
            rw [if_pos rfl, if_neg hne1, if_pos rfl]
            exact tupLe_of_tupLt hswap
          · rw [if_neg hji, if_neg hjne]
            by_cases hjp : j / 2 = i
            · rw [if_pos hjp]
              exact inv2 j hjlen hjp hi2
            · rw [if_neg hjp]
              by_cases hjp2 : j / 2 = i / 2
              · rw [if_pos hjp2]
                exact tupLe_trans (tupLe_of_tupLt hswap)
                  (hjp2 ▸ inv1 j hj2 hjlen hji)
              · rw [if_neg hjp2]
                exact inv1 j hj2 hjlen hji
        · intro c hclen hcp hmid
          rw [swapAt_length] at hclen
          rw [swapAt_getD l i (i / 2) hil hhl c,
            swapAt_getD l i (i / 2) hil hhl ((i / 2) / 2),
            if_neg hne2, if_neg hne3]
          by_cases hci : c = i
          · rw [if_pos hci]
            exact inv1 (i / 2) hmid hhl hne1
          · have hci2 : c ≠ i / 2 := by omega
            rw [if_neg hci, if_neg hci2]
            refine tupLe_trans (inv1 (i / 2) hmid hhl hne1) ?_
            have hc4 : 2 ≤ c := by omega
            exact hcp ▸ inv1 c hc4 hclen hci
      · rw [if_neg hswap]
        refine percUpF_isHeap fuel l (i / 2) (by omega) hhl ?_ ?_
        · intro j hj2 hjlen hjne
          by_cases hji : j = i
          · subst hji
            exact hswap
          · exact inv1 j hj2 hjlen hji
        · intro c hclen hcp hmid
          by_cases hci : c = i
          · rw [hci]
            exact tupLe_trans (inv1 (i / 2) hmid hhl hne1) hswap
          · have hc4 : 2 ≤ c := by omega
            refine tupLe_trans (inv1 (i / 2) hmid hhl hne1) ?_
            exact hcp ▸ inv1 c hc4 hclen hci
    · rw [if_neg hguard]
      intro j hjlen hj2
      exact inv1 j hj2 hjlen (by omega)

/-! ### `percDown` restores heap order inside a subtree -/

theorem subtree_min (l : List Entry) (r : ℕ) (hr : 1 ≤ r)
    (hord : ∀ c, 2 ≤ c → c < l.length → Desc r (c / 2) →
      tupLe (l.getD (c / 2) dEntry) (l.getD c dEntry)) :
    ∀ j, j < l.length → Desc r j →
      tupLe (l.getD r dEntry) (l.getD j dEntry) := by
  intro j
  induction j using Nat.strong_induction_on with
  | _ j ih =>
    intro hjl hdesc
    by_cases hjr : j = r
    · rw [hjr]
      exact tupLe_refl _
    · obtain ⟨hdp, h2i⟩ := desc_parent hdesc hjr
      have hj2 : 2 ≤ j := by omega
      have hj2lt : j / 2 < j := by omega
      refine tupLe_trans (ih (j / 2) hj2lt (by omega) hdp) ?_
      exact hord j hj2 hjl hdp

theorem percDownF_correct : ∀ (fuel : ℕ) (l : List Entry) (s : ℤ) (i : ℕ),
    (s + 1).toNat ≤ fuel + i → 1 ≤ i → s = (l.length : ℤ) - 1 →
    (∀ c, 2 ≤ c → c < l.length → Desc i (c / 2) → c / 2 ≠ i →
      tupLe (l.getD (c / 2) dEntry) (l.getD c dEntry)) →
    (∀ c, 2 ≤ c → c < (percDownF fuel l s i).length → Desc i (c / 2) →
      tupLe ((percDownF fuel l s i).getD (c / 2) dEntry)
        ((percDownF fuel l s i).getD c dEntry)) ∧
    (∀ m, ¬ Desc i m →
      (percDownF fuel l s i).getD m dEntry = l.getD m dEntry) ∧
    (∀ b : Entry,
      (∀ j, j < l.length → Desc i j → tupLe b (l.getD j dEntry)) →
      ∀ j, j < (percDownF fuel l s i).length → Desc i j →
        tupLe b ((percDownF fuel l s i).getD j dEntry)) := by
  intro fuel
  induction fuel with
  | zero =>
    intro l s i hfl hi hs inv
    refine ⟨?_, fun m _ => rfl, fun b hb j hj hd => hb j hj hd⟩
    intro c hc2 hclen hdesc
    have hge : i ≤ c / 2 := desc_ge hdesc
    exfalso
    simp only [percDownF, List.length_nil] at hclen
    omega
  | succ fuel ih =>
    intro l s i hfl hi hs inv
    simp only [percDownF]
    by_cases hguard : 1 ≤ i ∧ ((i * 2 : ℕ) : ℤ) ≤ s
    case neg =>
      rw [if_neg hguard]
      refine ⟨?_, fun m _ => rfl, fun b hb j hj hd => hb j hj hd⟩
      intro c hc2 hclen hdesc
      have hge : i ≤ c / 2 := desc_ge hdesc
      exfalso
      have h2s : ¬ ((i * 2 : ℕ) : ℤ) ≤ s := fun hcon => hguard ⟨hi, hcon⟩
      push_cast at h2s
      omega
    case pos =>
      rw [if_pos hguard]
      have hmcc := minChild_choice l s i
      have hmcs : ((minChild l s i : ℕ) : ℤ) ≤ s := minChild_le_s l s i hguard.2
      have hil : i < l.length := by
        have := hguard.2
        push_cast at this
        omega
      have hmcl : minChild l s i < l.length := by omega
      have hmci : i < minChild l s i := by omega
      have hdmc : Desc i (minChild l s i) := desc_child (by omega)
      have hnotdesc_i : ¬ Desc (minChild l s i) i := fun hcon => by
        have := desc_ge hcon
        omega
      have hsib_min : ∀ c, 2 ≤ c → c < l.length → c / 2 = i →
          tupLe (l.getD (minChild l s i) dEntry) (l.getD c dEntry) := by
        intro c hc2 hclen hcp
        refine minChild_min l s i c (by omega) ?_
        push_cast
        omega
      have hnot_mc_sib : ∀ c, c / 2 = i → c ≠ minChild l s i →
          ¬ Desc (minChild l s i) c := by
        intro c hcp hcne hcon
        have hge := desc_ge hcon
        obtain ⟨_, h2⟩ := desc_parent hcon (by omega)
        omega
      by_cases hswap : tupLt (l.getD (minChild l s i) dEntry)
        (l.getD i dEntry)
      case pos =>
        rw [if_pos hswap]
        have hlen2 : (swapAt l i (minChild l s i)).length = l.length :=
          swapAt_length _ _ _
        have hreads := swapAt_getD l i (minChild l s i) hil hmcl
        have hinv2 : ∀ c, 2 ≤ c → c < (swapAt l i (minChild l s i)).length →
            Desc (minChild l s i) (c / 2) → c / 2 ≠ minChild l s i →
            tupLe ((swapAt l i (minChild l s i)).getD (c / 2) dEntry)
              ((swapAt l i (minChild l s i)).getD c dEntry) := by
          intro c hc2 hclen hdp hcne
          rw [hlen2] at hclen
          have hcp_gt : minChild l s i ≤ c / 2 := desc_ge hdp
          have hc_in : Desc (minChild l s i) c :=
            desc_trans hdp (desc_child rfl)
          have hc_gt : minChild l s i ≤ c := desc_ge hc_in
          have hcne2 : c ≠ minChild l s i := by
            intro hcon
            rw [hcon] at hdp
            have := desc_ge hdp
            omega
          rw [hreads c, hreads (c / 2), if_neg (by omega), if_neg (by omega),
            if_neg (by omega), if_neg (by omega)]
          refine inv c hc2 hclen (desc_trans hdmc hdp) (by omega)
        obtain ⟨post1, post2, post3⟩ := ih (swapAt l i (minChild l s i)) s
          (minChild l s i) (by omega) (by omega) (by rw [hlen2]; exact hs)
          hinv2
        have hlen3 : (percDownF fuel (swapAt l i (minChild l s i)) s
            (minChild l s i)).length = l.length := by
          rw [percDownF_length, hlen2]
        have hrd_i : (percDownF fuel (swapAt l i (minChild l s i)) s
            (minChild l s i)).getD i dEntry = l.getD (minChild l s i) dEntry := by
          rw [post2 i hnotdesc_i, hreads i, if_pos rfl]
        have hbelow_mc : ∀ j, j < (swapAt l i (minChild l s i)).length →
            Desc (minChild l s i) j →
            tupLe (l.getD (minChild l s i) dEntry)
              ((swapAt l i (minChild l s i)).getD j dEntry) := by
          intro j hjlen hdj
          rw [hlen2] at hjlen
          by_cases hjmc : j = minChild l s i
          · rw [hjmc, hreads _, if_neg (by omega), if_pos rfl]
            exact tupLe_of_tupLt hswap
          · have hgej := desc_ge hdj
            rw [hreads j, if_neg (by omega), if_neg hjmc]
            refine subtree_min l (minChild l s i) (by omega) ?_ j hjlen hdj
            intro c hc2 hclen hdp
            by_cases hdpe : c / 2 = minChild l s i
            · refine inv c hc2 hclen (hdpe ▸ hdmc) (by omega)
            · have := desc_ge hdp
              refine inv c hc2 hclen (desc_trans hdmc hdp) (by omega)
        refine ⟨?_, ?_, ?_⟩
        · intro c hc2 hclen hdesc
          rw [hlen3] at hclen
          by_cases hcpi : c / 2 = i
          · by_cases hcmc : c = minChild l s i
            · have hgoal2 : tupLe (l.getD (minChild l s i) dEntry)
                  ((percDownF fuel (swapAt l i (minChild l s i)) s
                    (minChild l s i)).getD (minChild l s i) dEntry) :=
                post3 _ hbelow_mc (minChild l s i) (by omega) (desc_refl _)
              rw [hcpi, hrd_i, hcmc]
              exact hgoal2
            · have hnd : ¬ Desc (minChild l s i) c :=
                hnot_mc_sib c hcpi hcmc
              rw [hcpi, hrd_i, post2 c hnd, hreads c,
                if_neg (by omega), if_neg hcmc]
              exact hsib_min c hc2 hclen hcpi
          · by_cases hcd : Desc (minChild l s i) (c / 2)
            · exact post1 c hc2 (by omega) hcd
            · have hcsplit := desc_split hdesc hcpi
              have hdcc : Desc (c / 2) c := desc_child rfl
              have hndc : ¬ Desc (minChild l s i) c := by
                intro hcon
                have hcne : c ≠ minChild l s i := by
                  intro hceq
                  rw [hceq] at hcpi
                  omega
                obtain ⟨hpar, _⟩ := desc_parent hcon hcne
                exact hcd hpar
              have hc2i : c / 2 ≠ i := hcpi
              have hcne_i : c ≠ i := by
                intro hceq
                have := desc_ge hdesc
                omega
              have hc2ne_mc : c / 2 ≠ minChild l s i := by
                intro hceq
                exact hcd (hceq ▸ desc_refl _)
              have hcne_mc : c ≠ minChild l s i := by
                intro hceq
                exact hndc (hceq ▸ desc_refl _)
              rw [post2 c hndc, post2 (c / 2) hcd, hreads c, hreads (c / 2),
                if_neg hcne_i, if_neg hcne_mc, if_neg hc2i, if_neg hc2ne_mc]
              exact inv c hc2 hclen hdesc hcpi
        · intro m hnd
          have hnd2 : ¬ Desc (minChild l s i) m := fun hcon =>
            hnd (desc_trans hdmc hcon)
          have hmne_i : m ≠ i := fun hcon => hnd (hcon ▸ desc_refl _)
          have hmne_mc : m ≠ minChild l s i := fun hcon => hnd (hcon ▸ hdmc)
          rw [post2 m hnd2, hreads m, if_neg hmne_i, if_neg hmne_mc]
        · intro b hb j hjlen hdij
          rw [hlen3] at hjlen
          have hb2 : ∀ j2, j2 < (swapAt l i (minChild l s i)).length →
              Desc i j2 →
              tupLe b ((swapAt l i (minChild l s i)).getD j2 dEntry) := by
            intro j2 hj2len hdj2
            rw [hlen2] at hj2len
            rw [hreads j2]
            by_cases hj2i : j2 = i
            · rw [if_pos hj2i]
              exact hb (minChild l s i) hmcl hdmc
            · rw [if_neg hj2i]
              by_cases hj2mc : j2 = minChild l s i
              · rw [if_pos hj2mc]
                exact hb i hil (desc_refl _)
              · rw [if_neg hj2mc]
                exact hb j2 hj2len hdj2
          by_cases hdj : Desc (minChild l s i) j
          · refine post3 b ?_ j (by omega) hdj
            intro j2 hj2len hdj2
            exact hb2 j2 hj2len (desc_trans hdmc hdj2)
          · rw [post2 j hdj]
            exact hb2 j (by omega) hdij
      case neg =>
        rw [if_neg hswap]
        have hinv2 : ∀ c, 2 ≤ c → c < l.length →
            Desc (minChild l s i) (c / 2) → c / 2 ≠ minChild l s i →
            tupLe (l.getD (c / 2) dEntry) (l.getD c dEntry) := by
          intro c hc2 hclen hdp hcne
          have hcp_gt : minChild l s i ≤ c / 2 := desc_ge hdp
          exact inv c hc2 hclen (desc_trans hdmc hdp) (by omega)
        obtain ⟨post1, post2, post3⟩ := ih l s (minChild l s i)
          (by omega) (by omega) hs hinv2
        have hlen3 : (percDownF fuel l s (minChild l s i)).length =
            l.length := percDownF_length _ _ _ _
        have hns : tupLe (l.getD i dEntry) (l.getD (minChild l s i) dEntry) :=
          hswap
        have hbelow_mc : ∀ j, j < l.length → Desc (minChild l s i) j →
            tupLe (l.getD i dEntry) (l.getD j dEntry) := by
          intro j hjlen hdj
          refine tupLe_trans hns ?_
          refine subtree_min l (minChild l s i) (by omega) ?_ j hjlen hdj
          intro c hc2 hclen hdp
          by_cases hdpe : c / 2 = minChild l s i
          · exact inv c hc2 hclen (hdpe ▸ hdmc) (by omega)
          · have := desc_ge hdp
            exact inv c hc2 hclen (desc_trans hdmc hdp) (by omega)
        have hrd_i : (percDownF fuel l s (minChild l s i)).getD i dEntry =
            l.getD i dEntry := post2 i hnotdesc_i
        refine ⟨?_, ?_, ?_⟩
        · intro c hc2 hclen hdesc
          rw [hlen3] at hclen
          by_cases hcpi : c / 2 = i
          · by_cases hcmc : c = minChild l s i
            · rw [hcpi, hrd_i, hcmc]
              exact post3 _ hbelow_mc (minChild l s i) (by omega)
                (desc_refl _)
            · have hnd : ¬ Desc (minChild l s i) c :=
                hnot_mc_sib c hcpi hcmc
              rw [hcpi, hrd_i, post2 c hnd]
              exact tupLe_trans hns (hsib_min c hc2 hclen hcpi)
          · by_cases hcd : Desc (minChild l s i) (c / 2)
            · exact post1 c hc2 (by omega) hcd
            · have hndc : ¬ Desc (minChild l s i) c := by
                intro hcon
                have hcne : c ≠ minChild l s i := by
                  intro hceq
                  rw [hceq] at hcpi
                  omega
                obtain ⟨hpar, _⟩ := desc_parent hcon hcne
                exact hcd hpar
              rw [post2 c hndc, post2 (c / 2) hcd]
              exact inv c hc2 hclen hdesc hcpi
        · intro m hnd
          exact post2 m (fun hcon => hnd (desc_trans hdmc hcon))
        · intro b hb j hjlen hdij
          rw [hlen3] at hjlen
          by_cases hdj : Desc (minChild l s i) j
          · refine post3 b ?_ j (by omega) hdj
            intro j2 hj2len hdj2
            exact hb j2 hj2len (desc_trans hdmc hdj2)
          · rw [post2 j hdj]
            exact hb j (by omega) hdij

/-! ### Heap order across the API operations -/

theorem insert_isHeap (h : BinaryHeap) (k : Entry) (hs : sizeOK h)
    (hheap : IsHeap h.heapList) : IsHeap (h.insert k).heapList := by
  by_cases hne : h.heapList = []
  · have hz : (h.currentSize + 1).toNat = 0 := by
      rw [sizeOK, hne] at hs
      simp at hs
      omega
    show IsHeap (percUpF _ _ _)
    rw [hz]
    intro j hjlen hj2
    rw [hne] at hjlen
    simp only [percUpF, List.nil_append, List.length_cons,
      List.length_nil] at hjlen
    omega
  · have hlen : 1 ≤ h.heapList.length := List.length_pos.mpr hne
    have hidx : (h.currentSize + 1).toNat = h.heapList.length := by
      rw [sizeOK] at hs
      omega
    show IsHeap (percUpF _ _ _)
    refine percUpF_isHeap _ _ _ le_rfl ?_ ?_ ?_
    · rw [hidx, List.length_append]
      simp
    · intro j hj2 hjlen hjne
      rw [List.length_append] at hjlen
      rw [hidx] at hjne
      have hjlt : j < h.heapList.length := by
        simp at hjlen
        omega
      rw [getD_append_left _ _ _ hjlt, getD_append_left _ _ _ (by omega)]
      exact hheap j hjlt hj2
    · intro c hclen hcp hc2
      rw [hidx] at hcp
      rw [List.length_append] at hclen
      simp at hclen
      omega

theorem delMin_isHeap (h : BinaryHeap) (e : Entry) (h2 : BinaryHeap)
    (hs : sizeOK h) (hheap : IsHeap h.heapList)
    (hd : h.delMin = some (e, h2)) : IsHeap h2.heapList := by
  rw [BinaryHeap.delMin] at hd
  by_cases hlen : 2 ≤ h.heapList.length
  case neg =>
    rw [if_neg hlen] at hd
    cases hd
  rw [if_pos hlen] at hd
  obtain ⟨_, hh2⟩ : h.heapList.getD 1 dEntry = e ∧
      (⟨percDown
          ((h.heapList.set 1
            (h.heapList.getD h.currentSize.toNat dEntry)).dropLast)
          (h.currentSize - 1) 1,
        h.currentSize - 1⟩ : BinaryHeap) = h2 := by
    simpa using hd
  subst hh2
  show IsHeap (percDown _ _ _)
  have hLslen :
      ((h.heapList.set 1
        (h.heapList.getD h.currentSize.toNat dEntry)).dropLast).length =
      h.heapList.length - 1 := by
    rw [List.length_dropLast, List.length_set]
  have hLget : ∀ m, m ≠ 1 → m < h.heapList.length - 1 →
      ((h.heapList.set 1
        (h.heapList.getD h.currentSize.toNat dEntry)).dropLast).getD m dEntry
        = h.heapList.getD m dEntry := by
    intro m hm1 hmlen
    rw [List.getD_eq_getElem?_getD, List.getElem?_dropLast, List.length_set,
      if_pos hmlen, List.getElem?_set_ne (fun hcon => hm1 hcon.symm),
      ← List.getD_eq_getElem?_getD]
  have hinv : ∀ c, 2 ≤ c →
      c < ((h.heapList.set 1
        (h.heapList.getD h.currentSize.toNat dEntry)).dropLast).length →
      Desc 1 (c / 2) → c / 2 ≠ 1 →
      tupLe (((h.heapList.set 1
          (h.heapList.getD h.currentSize.toNat dEntry)).dropLast).getD
          (c / 2) dEntry)
        (((h.heapList.set 1
          (h.heapList.getD h.currentSize.toNat dEntry)).dropLast).getD
          c dEntry) := by
    intro c hc2 hclen hdesc hcne
    rw [hLslen] at hclen
    have hcp2 : 1 ≤ c / 2 := by
      have := desc_ge hdesc
      omega
    rw [hLget c (by omega) hclen, hLget (c / 2) (by omega) (by omega)]
    exact hheap c (by omega) hc2
  obtain ⟨post1, _, _⟩ := percDownF_correct (h.currentSize - 1 + 1).toNat
    ((h.heapList.set 1
      (h.heapList.getD h.currentSize.toNat dEntry)).dropLast)
    (h.currentSize - 1) 1 (by omega) (by omega)
    (by rw [hLslen, sizeOK] at *; push_cast; omega) hinv
  intro c hclen hc2
  exact post1 c hc2 hclen (desc_one (by omega))

theorem buildLoop_correct : ∀ (i : ℕ) (l : List Entry) (s : ℤ),
    s = (l.length : ℤ) - 1 →
    (∀ c, 2 ≤ c → c < l.length → i < c / 2 →
      tupLe (l.getD (c / 2) dEntry) (l.getD c dEntry)) →
    IsHeap (buildLoop s i l)
  | 0, l, s, _, hq => by
    intro c hclen hc2
    exact hq c hc2 hclen (by omega)
  | i + 1, l, s, hs, hq => by
    show IsHeap (buildLoop s i (percDown l s (i + 1)))
    have hinv : ∀ c, 2 ≤ c → c < l.length → Desc (i + 1) (c / 2) →
        c / 2 ≠ i + 1 →
        tupLe (l.getD (c / 2) dEntry) (l.getD c dEntry) := by
      intro c hc2 hclen hdesc hcne
      obtain ⟨_, h2i⟩ := desc_parent hdesc hcne
      exact hq c hc2 hclen (by omega)
    obtain ⟨post1, post2, _⟩ := percDownF_correct (s + 1).toNat l s (i + 1)
      (by omega) (by omega) hs hinv
    refine buildLoop_correct i (percDown l s (i + 1)) s ?_ ?_
    · show s = ((percDownF _ _ _ _).length : ℤ) - 1
      rw [percDownF_length]
      exact hs
    · intro c hc2 hclen hcrel
      have hclen2 : c < l.length := by
        show c < l.length
        have : (percDown l s (i + 1)).length = l.length :=
          percDownF_length _ _ _ _
        omega
      by_cases hcd : Desc (i + 1) (c / 2)
      · exact post1 c hc2 hclen hcd
      · have hcne1 : c / 2 ≠ i + 1 := fun hcon => hcd (hcon ▸ desc_refl _)
        have hcnec : c ≠ i + 1 := by
          intro hcon
          omega
        have hndc : ¬ Desc (i + 1) c := by
          intro hcon
          obtain ⟨hpar, _⟩ := desc_parent hcon hcnec
          exact hcd hpar
        show tupLe ((percDown l s (i + 1)).getD (c / 2) dEntry)
          ((percDown l s (i + 1)).getD c dEntry)
        rw [show (percDown l s (i + 1)) = percDownF (s + 1).toNat l s (i + 1)
            from rfl,
          post2 c hndc, post2 (c / 2) hcd]
        exact hq c hc2 hclen2 (by omega)

theorem buildHeap_isHeap (alist : List Entry) :
    IsHeap (buildHeap alist).heapList := by
  show IsHeap (buildLoop (alist.length : ℤ) (alist.length / 2)
    (dEntry :: alist))
  refine buildLoop_correct _ _ _ ?_ ?_
  · simp
  · intro c hc2 hclen hcrel
    simp only [List.length_cons] at hclen
    omega

theorem isHeap_heapOrdered {l : List Entry} (h : IsHeap l) :
    HeapOrdered l := by
  intro i hil hi2
  have := h i hil hi2
  rw [tupLe, tupLt] at this
  push_neg at this
  exact this.1

theorem isHeap_root_min {l : List Entry} (h : IsHeap l) :
    ∀ j, 1 ≤ j → j < l.length →
      tupLe (l.getD 1 dEntry) (l.getD j dEntry) := by
  intro j hj1 hjl
  refine subtree_min l 1 le_rfl ?_ j hjl (desc_one hj1)
  intro c hc2 hclen _
  exact h c hclen hc2

/-! ### Claim C7: `find_shortest_path(G, u, u) = [u]` -/

/-- Claim C7: for any graph `G` and any vertex `u` — whether or not `u`
is in `G` — `find_shortest_path(G, u, u)` returns the one-element path
`[u]`: the accumulator gains `u` and the `start == end` base case fires
before any membership check. -/
theorem fsp_self_returns_singleton (g : Graph V) (u : V) :
    find_shortest_path g u u = some [u] := by
  simp [find_shortest_path, fspAux]

/-! ### Claim C9: `delMin` on an empty heap fails loudly -/

/-- Claim C9: `delMin` on an empty `BinaryHeap` fails with an exception —
`heapList[1]` raises IndexError, modelled by the `none` result — never
returning an ordinary value, and the error branch is unreachable whenever
the heap is non-empty (sentinel at the head and `isEmpty` false force a
real entry at index 1). -/
theorem delMin_empty_fails (hp : BinaryHeap) (hlen : hp.heapList.length ≤ 1)
    (hq : BinaryHeap) (hhead : hq.heapList.head? = some dEntry)
    (hne : hq.isEmpty = false) :
    hp.delMin = none ∧ ∃ e hq2, hq.delMin = some (e, hq2) := by
  constructor
  · unfold BinaryHeap.delMin
    rw [if_neg]
    omega
  · have h2 : 2 ≤ hq.heapList.length := by
      rcases hl : hq.heapList with _ | ⟨a, t⟩
      · rw [hl] at hhead; simp at hhead
      · rcases t with _ | ⟨b, t2⟩
        · rw [hl] at hhead
          simp only [List.head?_cons, Option.some.injEq] at hhead
          rw [BinaryHeap.isEmpty, hl, hhead] at hne
          simp at hne
        · simp [hl]
    unfold BinaryHeap.delMin
    rw [if_pos h2]
    exact ⟨_, _, rfl⟩

/-- Witness for C9: the fresh heap errors, a one-entry heap succeeds. -/
theorem delMin_empty_fails_witness :
    emptyHeap.heapList.length ≤ 1 ∧
    (emptyHeap.insert ((2 : ℕ∞), "a")).heapList.head? = some dEntry ∧
    (emptyHeap.insert ((2 : ℕ∞), "a")).isEmpty = false ∧
    (emptyHeap.delMin = none ∧
      ∃ e hq2, (emptyHeap.insert ((2 : ℕ∞), "a")).delMin = some (e, hq2)) :=
  ⟨by decide, by decide, by decide,
    delMin_empty_fails emptyHeap (by decide) _ (by decide) (by decide)⟩

/-! ### Claim C10: `__contains__` matches either tuple component -/

/-- Claim C10: membership matches either component of a stored pair,
sentinel included: `x in h` is true iff `x` equals the priority (when a
number) or the name (when a string) of some tuple of the backing list;
in particular `2 in h` holds after inserting `(2, 'a')`, and `0 in h`
and `'0' in h` hold on a fresh heap. -/
theorem memHeap_matches_either_component :
    (∀ (h : BinaryHeap) (item : ℕ∞ ⊕ String),
      h.memHeap item = true ↔ ∃ e ∈ h.heapList, matchesItem item e) ∧
    (emptyHeap.insert ((2 : ℕ∞), "a")).memHeap (Sum.inl 2) = true ∧
    emptyHeap.memHeap (Sum.inl 0) = true ∧
    emptyHeap.memHeap (Sum.inr "0") = true := by
  refine ⟨fun h item => ?_, by decide, by decide, by decide⟩
  cases item <;>
    simp [BinaryHeap.memHeap, matchesItem, List.any_eq_true]

/-! ### Claim C6: how the operations treat the sentinel -/

/-- Counterexample to claim C6: the sentinel is not ignored by the
key-scanning operations — `'0' in h` is true on a fresh heap that never
saw an insert of the key `'0'` (the claim says false), and `editHeap`
with key `'0'` removes the sentinel itself, leaving only the update. -/
theorem sentinel_scanned_cex :
    emptyHeap.memHeap (Sum.inr "0") = true ∧
    (emptyHeap.editHeap "0" ((5 : ℕ∞), "z")).heapList = [((5 : ℕ∞), "z")] := by
  decide

/-- Claim C6 as amended: the sentinel is invisible to `isEmpty` (a heap
is empty exactly when its list is the sentinel alone), but the scanning
operations do treat it as an entry: `__contains__` reports both `0` and
`'0'` as members of any heap whose list carries the sentinel, and
`editHeap` with key `'0'` deletes the sentinel at index 0 and re-inserts
the update over the remaining entries. -/
theorem sentinel_behavior (h0 : BinaryHeap)
    (hmem : dEntry ∈ h0.heapList) (h1 : BinaryHeap) (u : Entry)
    (hhead : h1.heapList.head? = some dEntry) :
    (∀ h : BinaryHeap, h.isEmpty = true ↔ h.heapList = [dEntry]) ∧
    (h0.memHeap (Sum.inr "0") = true ∧ h0.memHeap (Sum.inl 0) = true) ∧
    h1.editHeap "0" u =
      BinaryHeap.insert ⟨h1.heapList.tail, h1.currentSize - 1⟩ u := by
  refine ⟨fun h => by simp [BinaryHeap.isEmpty], ⟨?_, ?_⟩, ?_⟩
  · rw [BinaryHeap.memHeap, List.any_eq_true]
    exact ⟨dEntry, hmem, by decide⟩
  · rw [BinaryHeap.memHeap, List.any_eq_true]
    exact ⟨dEntry, hmem, by decide⟩
  · rcases hl : h1.heapList with _ | ⟨a, t⟩
    · rw [hl] at hhead; simp at hhead
    · rw [hl] at hhead
      simp only [List.head?_cons, Option.some.injEq] at hhead
      unfold BinaryHeap.editHeap
      rw [hl, hhead]
      simp [List.findIdx?_cons, dEntry]

/-- Witness for the amended C6 at the fresh heap. -/
theorem sentinel_behavior_witness :
    dEntry ∈ emptyHeap.heapList ∧
    emptyHeap.heapList.head? = some dEntry ∧
    ((∀ h : BinaryHeap, h.isEmpty = true ↔ h.heapList = [dEntry]) ∧
      (emptyHeap.memHeap (Sum.inr "0") = true ∧
        emptyHeap.memHeap (Sum.inl 0) = true) ∧
      emptyHeap.editHeap "0" ((7 : ℕ∞), "q") =
        BinaryHeap.insert ⟨emptyHeap.heapList.tail, emptyHeap.currentSize - 1⟩
          ((7 : ℕ∞), "q")) :=
  ⟨by decide, by decide,
    sentinel_behavior emptyHeap (by decide) emptyHeap ((7 : ℕ∞), "q") (by decide)⟩


/-! ### Claim C2: the heap-order invariant across the operations -/

/-- Claim C2 (counterexample): `editHeap` does not restore heap order.
On the seven-entry heap `cexHeap` (root entry `(1, "a")`),
`editHeap "a" (100, "z")` finds `(1, "a")` at list index 1 and removes it
with `del heapList[i]`, which shifts every later entry one slot up and
moves entries across subtrees; the re-insert then sifts only the new
entry.  In the result index 1 holds priority 10 while its child at index
2 holds priority 2, violating the invariant. -/
theorem editHeap_breaks_heapOrder :
    ¬ HeapOrdered ((cexHeap.editHeap "a" ((100 : ℕ∞), "z")).heapList) := by
  decide

/-- Claim C2 (amended): the heap-order invariant does hold after `insert`,
`delMin` and `buildHeap`.  `insert` and `delMin` preserve the full
lexicographic heap order `IsHeap` (hence the priority-only invariant
`HeapOrdered`) on any heap whose `currentSize` matches its list, and
`buildHeap` establishes it from an arbitrary list; `editHeap` is excluded
by the counterexample above. -/
theorem heap_order_after_ops (h : BinaryHeap) (k e : Entry)
    (h2 : BinaryHeap) (alist : List Entry) (hs : sizeOK h)
    (hheap : IsHeap h.heapList) (hd : h.delMin = some (e, h2)) :
    (IsHeap (h.insert k).heapList ∧ HeapOrdered (h.insert k).heapList) ∧
    (IsHeap h2.heapList ∧ HeapOrdered h2.heapList) ∧
    (IsHeap (buildHeap alist).heapList ∧
      HeapOrdered (buildHeap alist).heapList) :=
  ⟨⟨insert_isHeap h k hs hheap,
    isHeap_heapOrdered (insert_isHeap h k hs hheap)⟩,
   ⟨delMin_isHeap h e h2 hs hheap hd,
    isHeap_heapOrdered (delMin_isHeap h e h2 hs hheap hd)⟩,
   ⟨buildHeap_isHeap alist,
    isHeap_heapOrdered (buildHeap_isHeap alist)⟩⟩

theorem heap_order_after_ops_witness :
    (sizeOK cexHeap ∧ IsHeap cexHeap.heapList ∧
      cexHeap.delMin = some (((1 : ℕ∞), "a"),
        ⟨[dEntry, ((2 : ℕ∞), "c"), ((10 : ℕ∞), "b"), ((3 : ℕ∞), "f"),
          ((11 : ℕ∞), "d"), ((12 : ℕ∞), "e"), ((4 : ℕ∞), "g")], 6⟩)) ∧
    ((IsHeap (cexHeap.insert ((5 : ℕ∞), "h")).heapList ∧
        HeapOrdered (cexHeap.insert ((5 : ℕ∞), "h")).heapList) ∧
      (IsHeap ([dEntry, ((2 : ℕ∞), "c"), ((10 : ℕ∞), "b"), ((3 : ℕ∞), "f"),
          ((11 : ℕ∞), "d"), ((12 : ℕ∞), "e"),
          ((4 : ℕ∞), "g")] : List Entry) ∧
        HeapOrdered ([dEntry, ((2 : ℕ∞), "c"), ((10 : ℕ∞), "b"),
          ((3 : ℕ∞), "f"), ((11 : ℕ∞), "d"), ((12 : ℕ∞), "e"),
          ((4 : ℕ∞), "g")] : List Entry)) ∧
      (IsHeap (buildHeap [((9 : ℕ∞), "x"), ((8 : ℕ∞), "y"),
          ((7 : ℕ∞), "z")]).heapList ∧
        HeapOrdered (buildHeap [((9 : ℕ∞), "x"), ((8 : ℕ∞), "y"),
          ((7 : ℕ∞), "z")]).heapList)) :=
  ⟨⟨by decide, by decide, by decide⟩,
   heap_order_after_ops cexHeap ((5 : ℕ∞), "h") ((1 : ℕ∞), "a")
     ⟨[dEntry, ((2 : ℕ∞), "c"), ((10 : ℕ∞), "b"), ((3 : ℕ∞), "f"),
       ((11 : ℕ∞), "d"), ((12 : ℕ∞), "e"), ((4 : ℕ∞), "g")], 6⟩
     [((9 : ℕ∞), "x"), ((8 : ℕ∞), "y"), ((7 : ℕ∞), "z")]
     (by decide) (by decide) (by decide)⟩

/-! ### Claim C8: draining an insert-built heap is sorted -/

theorem tupLe_fst {a b : Entry} (h : tupLe a b) : a.1 ≤ b.1 := by
  rw [tupLe, tupLt] at h
  push_neg at h
  exact h.1

theorem mem_tail_getD {l : List Entry} {x : Entry} (h : x ∈ l.tail) :
    ∃ j : ℕ, 1 ≤ j ∧ j < l.length ∧ l.getD j dEntry = x := by
  cases l with
  | nil => cases h
  | cons a t =>
    have h2 : x ∈ t := h
    obtain ⟨m, hm, hx⟩ := List.getElem_of_mem h2
    refine ⟨m + 1, by omega, by simpa using Nat.succ_lt_succ hm, ?_⟩
    have hgd : (a :: t).getD (m + 1) dEntry = t.getD m dEntry := rfl
    rw [hgd, getD_eq_getElem t hm]
    exact hx

theorem getD_tail_mem {l : List Entry} {j : ℕ} (h1 : 1 ≤ j)
    (h2 : j < l.length) : l.getD j dEntry ∈ l.tail := by
  cases l with
  | nil => simp at h2
  | cons a t =>
    obtain ⟨m, rfl⟩ : ∃ m, j = m + 1 := ⟨j - 1, by omega⟩
    have hm : m < t.length := by simpa using h2
    have : (a :: t).getD (m + 1) dEntry = t.getD m dEntry := rfl
    rw [this, getD_eq_getElem t hm]
    show t[m] ∈ t
    exact List.getElem_mem hm

theorem delMin_two_le {h : BinaryHeap} {e : Entry} {h2 : BinaryHeap}
    (hd : h.delMin = some (e, h2)) : 2 ≤ h.heapList.length := by
  rw [BinaryHeap.delMin] at hd
  by_cases hlen : 2 ≤ h.heapList.length
  · exact hlen
  · rw [if_neg hlen] at hd
    cases hd

theorem drainAux_sorted : ∀ (fuel : ℕ) (h : BinaryHeap), sizeOK h →
    IsHeap h.heapList →
    List.Chain' (fun a b : Entry => a.1 ≤ b.1) (drainAux fuel h) ∧
    ∀ x ∈ drainAux fuel h, x ∈ h.heapList.tail := by
  intro fuel
  induction fuel with
  | zero => intro h _ _; exact ⟨List.chain'_nil, by simp [drainAux]⟩
  | succ fuel ih =>
    intro h hs hheap
    by_cases hemp : h.isEmpty
    · rw [drainAux, if_pos hemp]
      exact ⟨List.chain'_nil, by simp⟩
    · rw [drainAux, if_neg hemp]
      cases hd : h.delMin with
      | none => exact ⟨List.chain'_nil, by simp⟩
      | some p =>
        obtain ⟨e, h2⟩ := p
        obtain ⟨hs2, hlen2, _, he1, hperm⟩ := delMin_shape h e h2 hs hd
        have hheap2 := delMin_isHeap h e h2 hs hheap hd
        obtain ⟨ihc, ihm⟩ := ih h2 hs2 hheap2
        have hlen := delMin_two_le hd
        have hmem2 : ∀ x ∈ drainAux fuel h2, x ∈ h.heapList.tail := by
          intro x hx
          exact hperm.symm.subset (List.mem_cons_of_mem e (ihm x hx))
        have hle : ∀ x ∈ h.heapList.tail, e.1 ≤ x.1 := by
          intro x hx
          obtain ⟨j, hj1, hjl, hjx⟩ := mem_tail_getD hx
          have := isHeap_root_min hheap j hj1 hjl
          rw [hjx, ← he1] at this
          exact tupLe_fst this
        refine ⟨?_, ?_⟩
        · refine List.chain'_cons'.mpr ⟨?_, ihc⟩
          intro y hy
          exact hle y (hmem2 y (List.mem_of_mem_head? hy))
        · intro x hx
          rcases List.mem_cons.mp hx with rfl | hx2
          · rw [he1]
            exact getD_tail_mem le_rfl (by omega)
          · exact hmem2 x hx2

theorem insertAll_inv (entries : List Entry) :
    sizeOK (insertAll entries) ∧ IsHeap (insertAll entries).heapList ∧
    (insertAll entries).heapList ≠ [] := by
  suffices hgen : ∀ h : BinaryHeap,
      sizeOK h → IsHeap h.heapList → h.heapList ≠ [] →
      sizeOK (entries.foldl BinaryHeap.insert h) ∧
      IsHeap (entries.foldl BinaryHeap.insert h).heapList ∧
      (entries.foldl BinaryHeap.insert h).heapList ≠ [] by
    exact hgen emptyHeap (by decide) (by decide) (by decide)
  induction entries with
  | nil => intro h hs hh hne; exact ⟨hs, hh, hne⟩
  | cons k rest ihr =>
    intro h hs hh hne
    obtain ⟨hs', hlen', _, _⟩ := insert_shape h k hs hne
    refine ihr (h.insert k) hs' (insert_isHeap h k hs hh) ?_
    have : 0 < (h.insert k).heapList.length := by
      rw [hlen']
      omega
    exact List.length_pos.mp this

/-- Claim C8: load a fresh heap by any sequence of `insert` calls, then
repeatedly `delMin` until `isEmpty`; the priorities of the returned
entries come out in non-decreasing order (each popped root is a minimum
of the remaining entries). -/
theorem drain_priorities_nondecreasing (entries : List Entry) :
    List.Chain' (fun a b : Entry => a.1 ≤ b.1) (drain (insertAll entries)) := by
  obtain ⟨hs, hh, -⟩ := insertAll_inv entries
  exact (drainAux_sorted _ _ hs hh).1

/-! ### Claim C5: the shape of every returned path -/

theorem fspFold_some : ∀ (f : V → Option (List V)) (path ns : List V)
    (sh : Option (List V)) (r : List V),
    fspFold f path ns sh = some r →
    sh = some r ∨ ∃ node ∈ ns, node ∉ path ∧ f node = some r := by
  intro f path ns
  induction ns with
  | nil =>
    intro sh r h
    exact Or.inl h
  | cons node rest ih =>
    intro sh r h
    simp only [fspFold] at h
    rcases ih _ r h with hsh | ⟨n2, hn2, hp2, hf2⟩
    · by_cases hmem : node ∈ path
      · rw [if_pos hmem] at hsh
        exact Or.inl hsh
      · rw [if_neg hmem] at hsh
        cases hfn : f node with
        | none =>
          rw [hfn] at hsh
          have hsh2 : sh = some r := hsh
          exact Or.inl hsh2
        | some np =>
          rw [hfn] at hsh
          cases sh with
          | none =>
            have hsh2 : (if np.length = 0 then (none : Option (List V))
                else some np) = some r := hsh
            by_cases hz : np.length = 0
            · rw [if_pos hz] at hsh2
              cases hsh2
            · rw [if_neg hz] at hsh2
              refine Or.inr ⟨node, List.mem_cons_self node rest, hmem, ?_⟩
              rw [hfn]
              exact hsh2
          | some sp =>
            have hsh2 : (if np.length = 0 then some sp
                else if sp.length = 0 ∨ np.length < sp.length then some np
                else some sp) = some r := hsh
            by_cases hz : np.length = 0
            · rw [if_pos hz] at hsh2
              exact Or.inl hsh2
            · rw [if_neg hz] at hsh2
              by_cases hcond : sp.length = 0 ∨ np.length < sp.length
              · rw [if_pos hcond] at hsh2
                refine Or.inr ⟨node, List.mem_cons_self node rest, hmem, ?_⟩
                rw [hfn]
                exact hsh2
              · rw [if_neg hcond] at hsh2
                exact Or.inl hsh2
    · exact Or.inr ⟨n2, List.mem_cons_of_mem _ hn2, hp2, hf2⟩

theorem fspAux_some_spec : ∀ (fuel : ℕ) (g : Graph V) (s e : V)
    (p0 r : List V), s ∉ p0 → fspAux fuel g s e p0 = some r →
    ∃ q : List V, r = p0 ++ s :: q ∧ Ext g s e p0 q := by
  intro fuel
  induction fuel with
  | zero =>
    intro g s e p0 r _ h
    simp [fspAux] at h
  | succ fuel ih =>
    intro g s e p0 r hs h
    rw [fspAux] at h
    by_cases hse : s = e
    · rw [if_pos hse] at h
      obtain rfl : p0 ++ [s] = r := by simpa using h
      refine ⟨[], rfl, List.chain'_singleton s, by simp [hse], by simp, ?_⟩
      intro x hx
      obtain rfl : x = s := by simpa using hx
      exact hs
    · rw [if_neg hse] at h
      by_cases hvert : ¬ g.hasVert s = true ∨ ¬ g.hasVert e = true
      · rw [if_pos hvert] at h
        cases h
      · rw [if_neg hvert] at h
        rcases fspFold_some _ _ _ _ _ h with hnone | ⟨node, hns, hnp, hfn⟩
        · cases hnone
        · obtain ⟨q1, rfl, hext⟩ := ih g node e (p0 ++ [s]) _ hnp hfn
          obtain ⟨hch, hlast, hnd, hnin⟩ :
              IsChain g (node :: q1) ∧ (node :: q1).getLast? = some e ∧
              (node :: q1).Nodup ∧ ∀ x ∈ node :: q1, x ∉ p0 ++ [s] := hext
          refine ⟨node :: q1, by simp, ?_, ?_, ?_, ?_⟩
          · refine List.chain'_cons.mpr ⟨?_, hch⟩
            have hmem : node ∈ (g.getConns s).getD [] := hns
            cases hg : g.getConns s with
            | none =>
              rw [hg] at hmem
              cases hmem
            | some ns2 =>
              rw [hg] at hmem
              have hmem2 : node ∈ ns2 := hmem
              simp [Graph.edgeB, hg, hmem2]
          · rw [List.getLast?_cons_cons]
            exact hlast
          · refine List.nodup_cons.mpr ⟨?_, hnd⟩
            intro hmem
            exact (hnin s hmem) (by simp)
          · intro x hx
            rcases List.mem_cons.mp hx with rfl | hx2
            · exact hs
            · intro hxp0
              exact hnin x hx2 (List.mem_append_left _ hxp0)

/-- Claim C5: whenever `find_shortest_path(G, u, v)` returns a path `r`
(for any graph state and any vertices), `r` starts at `u`, ends at `v`,
its consecutive pairs are directed edges of `G`, and it repeats no
vertex. -/
theorem fsp_path_well_formed (g : Graph V) (u v : V) (r : List V)
    (h : find_shortest_path g u v = some r) :
    r.head? = some u ∧ r.getLast? = some v ∧ IsChain g r ∧ r.Nodup := by
  obtain ⟨q, rfl, hext⟩ := fspAux_some_spec _ g u v [] r (by simp) h
  obtain ⟨hch, hlast, hnd, -⟩ :
      IsChain g (u :: q) ∧ (u :: q).getLast? = some v ∧
      (u :: q).Nodup ∧ ∀ x ∈ u :: q, x ∉ ([] : List V) := hext
  exact ⟨by simp, by simpa using hlast, by simpa [IsChain] using hch,
    by simpa using hnd⟩

theorem fsp_path_well_formed_witness :
    find_shortest_path gEx "A" "D" = some ["A", "C", "D"] ∧
    ((["A", "C", "D"] : List String).head? = some "A" ∧
      (["A", "C", "D"] : List String).getLast? = some "D" ∧
      IsChain gEx ["A", "C", "D"] ∧ (["A", "C", "D"] : List String).Nodup) :=
  ⟨by decide, fsp_path_well_formed gEx "A" "D" ["A", "C", "D"] (by decide)⟩

/-! ### Claim C3: minimality and the absent-result conditions -/

theorem lookupConns_mem : ∀ (conns : List (V × List V)) (v : V)
    (ns : List V), lookupConns conns v = some ns → (v, ns) ∈ conns := by
  intro conns
  induction conns with
  | nil =>
    intro v ns h
    cases h
  | cons p rest ih =>
    obtain ⟨k, ns0⟩ := p
    intro v ns h
    simp only [lookupConns] at h
    by_cases hv : v = k
    · rw [if_pos hv] at h
      obtain rfl : ns0 = ns := by simpa using h
      subst hv
      exact List.mem_cons_self _ _
    · rw [if_neg hv] at h
      exact List.mem_cons_of_mem _ (ih v ns h)

theorem edgeB_iff (g : Graph V) (s node : V) :
    g.edgeB s node = true ↔ node ∈ (g.getConns s).getD [] := by
  rw [Graph.edgeB]
  cases hg : g.getConns s with
  | none => simp
  | some ns => simp

theorem mem_getConns_target (g : Graph V) (hwf : g.WF) {a b : V}
    (h : b ∈ (g.getConns a).getD []) : b ∈ g.vertexList := by
  obtain ⟨-, -, hconn⟩ :
      g.connections.map Prod.fst = g.vertexList ∧ g.vertexList.Nodup ∧
      ∀ p ∈ g.connections, (∀ x ∈ p.2, x ∈ g.vertexList) ∧ p.2.Nodup := hwf
  cases hg : g.getConns a with
  | none =>
    rw [hg] at h
    have h2 : b ∈ ([] : List V) := h
    cases h2
  | some ns =>
    rw [hg] at h
    have h2 : b ∈ ns := h
    have hlk : lookupConns g.connections a = some ns := by
      rw [Graph.getConns] at hg
      by_cases hv : g.hasVert a = true
      · rw [if_pos hv] at hg
        exact hg
      · rw [if_neg hv] at hg
        cases hg
    exact (hconn (a, ns) (lookupConns_mem g.connections a ns hlk)).1 b h2

theorem countP_lt_of_mem {l : List V} {p q : V → Bool}
    (hpq : ∀ x ∈ l, q x = true → p x = true) {a : V} (ha : a ∈ l)
    (hpa : p a = true) (hqa : q a = false) :
    l.countP q < l.countP p := by
  obtain ⟨l1, l2, rfl⟩ := List.append_of_mem ha
  have h1 : l1.countP q ≤ l1.countP p := by
    apply List.countP_mono_left
    intro x hx
    exact hpq x (by simp [hx])
  have h2 : l2.countP q ≤ l2.countP p := by
    apply List.countP_mono_left
    intro x hx
    exact hpq x (by simp [hx])
  rw [List.countP_append, List.countP_append, List.countP_cons,
    List.countP_cons, hpa, hqa]
  simp
  omega

theorem head_eq_cons {c : List V} {u : V} (h : c.head? = some u) :
    ∃ t, c = u :: t := by
  cases c with
  | nil => cases h
  | cons a t =>
    obtain rfl : a = u := by simpa using h
    exact ⟨t, rfl⟩

theorem ext_exists_cons {g : Graph V} {s v : V} {p0 q : List V}
    (hsv : s ≠ v) (hq : Ext g s v p0 q) : ∃ node q2, q = node :: q2 := by
  cases q with
  | nil =>
    exfalso
    obtain ⟨-, hlast, -, -⟩ :
        IsChain g [s] ∧ ([s] : List V).getLast? = some v ∧
        ([s] : List V).Nodup ∧ ∀ x ∈ [s], x ∉ p0 := hq
    exact hsv (by simpa using hlast)
  | cons n q2 => exact ⟨n, q2, rfl⟩

theorem ext_cons_iff (g : Graph V) (s v : V) (p0 : List V) (node : V)
    (q : List V) (hs : s ∉ p0) :
    Ext g s v p0 (node :: q) ↔
      g.edgeB s node = true ∧ Ext g node v (p0 ++ [s]) q := by
  constructor
  · intro hx
    obtain ⟨hch, hlast, hnd, hin⟩ :
        IsChain g (s :: node :: q) ∧ (s :: node :: q).getLast? = some v ∧
        (s :: node :: q).Nodup ∧ ∀ x ∈ s :: node :: q, x ∉ p0 := hx
    obtain ⟨hedge, hch2⟩ := List.chain'_cons.mp hch
    obtain ⟨hsnot, hnd2⟩ := List.nodup_cons.mp hnd
    refine ⟨hedge, hch2, ?_, hnd2, ?_⟩
    · rw [List.getLast?_cons_cons] at hlast
      exact hlast
    · intro x hx2
      simp only [List.mem_append, List.mem_singleton]
      push_neg
      refine ⟨hin x (List.mem_cons_of_mem _ hx2), ?_⟩
      intro hxs
      exact hsnot (hxs ▸ hx2)
  · intro hx
    obtain ⟨hedge, hx2⟩ := hx
    obtain ⟨hch2, hlast2, hnd2, hin2⟩ :
        IsChain g (node :: q) ∧ (node :: q).getLast? = some v ∧
        (node :: q).Nodup ∧ ∀ x ∈ node :: q, x ∉ p0 ++ [s] := hx2
    refine ⟨List.chain'_cons.mpr ⟨hedge, hch2⟩, ?_, ?_, ?_⟩
    · rw [List.getLast?_cons_cons]
      exact hlast2
    · refine List.nodup_cons.mpr ⟨?_, hnd2⟩
      intro hmem
      exact hin2 s hmem (by simp)
    · intro x hx3
      rcases List.mem_cons.mp hx3 with rfl | hx4
      · exact hs
      · intro hxp
        exact hin2 x hx4 (List.mem_append_left _ hxp)

theorem exists_chainFT_iff_ext (g : Graph V) (u v : V) :
    (∃ c, ChainFT g u v c) ↔ ∃ q, Ext g u v [] q := by
  constructor
  · intro hc
    obtain ⟨c, hc⟩ := hc
    obtain ⟨hch, hhead, hlast, hnd⟩ :
        IsChain g c ∧ c.head? = some u ∧ c.getLast? = some v ∧ c.Nodup := hc
    obtain ⟨q, rfl⟩ := head_eq_cons hhead
    exact ⟨q, hch, hlast, hnd, by simp⟩
  · intro hq
    obtain ⟨q, hq⟩ := hq
    obtain ⟨hch, hlast, hnd, -⟩ :
        IsChain g (u :: q) ∧ (u :: q).getLast? = some v ∧
        (u :: q).Nodup ∧ ∀ x ∈ u :: q, x ∉ ([] : List V) := hq
    exact ⟨u :: q, hch, rfl, hlast, hnd⟩

theorem chain_last_edge (g : Graph V) :
    ∀ (l : List V) (a v : V),
    List.Chain' (fun x y => g.edgeB x y = true) (a :: l) →
    (a :: l).getLast? = some v →
    a = v ∨ ∃ y, g.edgeB y v = true := by
  intro l
  induction l with
  | nil =>
    intro a v _ hlast
    exact Or.inl (by simpa using hlast)
  | cons b l2 ih =>
    intro a v hch hlast
    obtain ⟨hedge, hch2⟩ := List.chain'_cons.mp hch
    rw [List.getLast?_cons_cons] at hlast
    rcases ih b v hch2 hlast with rfl | hy
    · exact Or.inr ⟨a, hedge⟩
    · exact Or.inr hy

theorem no_chainFT_of_absent (g : Graph V) (hwf : g.WF) (u v : V)
    (huv : u ≠ v) (habs : g.hasVert u = false ∨ g.hasVert v = false) :
    ¬ ∃ c, ChainFT g u v c := by
  intro hc
  obtain ⟨c, hc⟩ := hc
  obtain ⟨hch, hhead, hlast, hnd⟩ :
      IsChain g c ∧ c.head? = some u ∧ c.getLast? = some v ∧ c.Nodup := hc
  obtain ⟨c1, rfl⟩ := head_eq_cons hhead
  cases c1 with
  | nil => exact huv (by simpa using hlast)
  | cons b c2 =>
    rcases habs with hau | hav
    · have hedge : g.edgeB u b = true := (List.chain'_cons.mp hch).1
      have hgc : g.getConns u = none := by
        rw [Graph.getConns]
        rw [if_neg (by simp [hau] : ¬ g.hasVert u = true)]
      rw [Graph.edgeB, hgc] at hedge
      simp at hedge
    · rcases chain_last_edge g (b :: c2) u v hch hlast with rfl | ⟨y, hy⟩
      · exact huv rfl
      · have hv2 : v ∈ g.vertexList :=
          mem_getConns_target g hwf ((edgeB_iff g y v).mp hy)
        have : g.hasVert v = true := by simp [Graph.hasVert, hv2]
        rw [hav] at this
        cases this

theorem fspFold_step_mem (f : V → Option (List V)) (path : List V)
    {node : V} (rest : List V) (sh : Option (List V)) (hmem : node ∈ path) :
    fspFold f path (node :: rest) sh = fspFold f path rest sh := by
  simp only [fspFold]
  rw [if_pos hmem]

theorem fspFold_step_none (f : V → Option (List V)) (path : List V)
    {node : V} (rest : List V) (sh : Option (List V)) (hmem : node ∉ path)
    (hfn : f node = none) :
    fspFold f path (node :: rest) sh = fspFold f path rest sh := by
  simp only [fspFold]
  rw [if_neg hmem, hfn]

theorem fspFold_step_new (f : V → Option (List V)) (path : List V)
    {node : V} (rest : List V) {np : List V} (hmem : node ∉ path)
    (hfn : f node = some np) (hz : ¬ np.length = 0) :
    fspFold f path (node :: rest) none = fspFold f path rest (some np) := by
  simp only [fspFold]
  rw [if_neg hmem, hfn]
  show fspFold f path rest (if np.length = 0 then none else some np) = _
  rw [if_neg hz]

theorem fspFold_step_better (f : V → Option (List V)) (path : List V)
    {node : V} (rest : List V) {np sp : List V} (hmem : node ∉ path)
    (hfn : f node = some np) (hz : ¬ np.length = 0)
    (hlt : sp.length = 0 ∨ np.length < sp.length) :
    fspFold f path (node :: rest) (some sp) =
      fspFold f path rest (some np) := by
  simp only [fspFold]
  rw [if_neg hmem, hfn]
  show fspFold f path rest
    (if np.length = 0 then some sp
     else if sp.length = 0 ∨ np.length < sp.length then some np
     else some sp) = _
  rw [if_neg hz, if_pos hlt]

theorem fspFold_step_keep (f : V → Option (List V)) (path : List V)
    {node : V} (rest : List V) {np sp : List V} (hmem : node ∉ path)
    (hfn : f node = some np)
    (hcond : ¬ (sp.length = 0 ∨ np.length < sp.length)) :
    fspFold f path (node :: rest) (some sp) =
      fspFold f path rest (some sp) := by
  simp only [fspFold]
  rw [if_neg hmem, hfn]
  show fspFold f path rest
    (if np.length = 0 then some sp
     else if sp.length = 0 ∨ np.length < sp.length then some np
     else some sp) = _
  by_cases hz : np.length = 0
  · rw [if_pos hz]
  · rw [if_neg hz, if_neg hcond]

theorem fspFold_spec (g : Graph V) (v : V) (path : List V)
    (f : V → Option (List V)) (ns0 : List V)
    (hf : ∀ node ∈ ns0, node ∉ path →
      (f node = none → ¬ ∃ q, Ext g node v path q) ∧
      (∀ r, f node = some r → ∃ q, r = path ++ node :: q ∧
        Ext g node v path q ∧
        ∀ q2, Ext g node v path q2 → q.length ≤ q2.length)) :
    ∀ (rest : List V), (∀ x ∈ rest, x ∈ ns0) → ∀ (done : List V)
    (sh : Option (List V)),
    (sh = none → ∀ node ∈ done, node ∉ path → ¬ ∃ q, Ext g node v path q) →
    (∀ r0, sh = some r0 →
      (∃ node ∈ done, node ∉ path ∧ ∃ q, r0 = path ++ node :: q ∧
        Ext g node v path q) ∧
      ∀ node ∈ done, node ∉ path → ∀ q2, Ext g node v path q2 →
        r0.length ≤ path.length + 1 + q2.length) →
    (fspFold f path rest sh = none →
      ∀ node ∈ done ++ rest, node ∉ path → ¬ ∃ q, Ext g node v path q) ∧
    (∀ r, fspFold f path rest sh = some r →
      (∃ node ∈ done ++ rest, node ∉ path ∧ ∃ q, r = path ++ node :: q ∧
        Ext g node v path q) ∧
      ∀ node ∈ done ++ rest, node ∉ path → ∀ q2, Ext g node v path q2 →
        r.length ≤ path.length + 1 + q2.length) := by
  intro rest
  induction rest with
  | nil =>
    intro _ done sh hnone hsome
    constructor
    · intro h0
      simp only [List.append_nil]
      exact hnone h0
    · intro r hr
      simp only [List.append_nil]
      exact hsome r hr
  | cons node rest ih =>
    intro hsub done sh hnone hsome
    have hnode0 : node ∈ ns0 := hsub node (List.mem_cons_self _ _)
    have hsub2 : ∀ x ∈ rest, x ∈ ns0 :=
      fun x hx => hsub x (List.mem_cons_of_mem _ hx)
    have hconv : (done ++ [node]) ++ rest = done ++ node :: rest := by simp
    by_cases hmem : node ∈ path
    · have hnone2 : sh = none → ∀ n2 ∈ done ++ [node], n2 ∉ path →
          ¬ ∃ q, Ext g n2 v path q := by
        intro h0 n2 hn2 hn2p
        rcases List.mem_append.mp hn2 with hin | hin
        · exact hnone h0 n2 hin hn2p
        · obtain rfl : n2 = node := by simpa using hin
          exact absurd hmem hn2p
      have hsome2 : ∀ r0, sh = some r0 →
          (∃ n2 ∈ done ++ [node], n2 ∉ path ∧ ∃ q, r0 = path ++ n2 :: q ∧
            Ext g n2 v path q) ∧
          ∀ n2 ∈ done ++ [node], n2 ∉ path → ∀ q2, Ext g n2 v path q2 →
            r0.length ≤ path.length + 1 + q2.length := by
        intro r0 h0
        obtain ⟨⟨n1, hn1, hn1p, hq1⟩, hb⟩ := hsome r0 h0
        refine ⟨⟨n1, List.mem_append_left _ hn1, hn1p, hq1⟩, ?_⟩
        intro n2 hn2 hn2p q2 hq2
        rcases List.mem_append.mp hn2 with hin | hin
        · exact hb n2 hin hn2p q2 hq2
        · obtain rfl : n2 = node := by simpa using hin
          exact absurd hmem hn2p
      have hres := ih hsub2 (done ++ [node]) sh hnone2 hsome2
      rw [fspFold_step_mem f path rest sh hmem, ← hconv]
      exact hres
    · cases hfn : f node with
      | none =>
        have hno : ¬ ∃ q, Ext g node v path q := (hf node hnode0 hmem).1 hfn
        have hnone2 : sh = none → ∀ n2 ∈ done ++ [node], n2 ∉ path →
            ¬ ∃ q, Ext g n2 v path q := by
          intro h0 n2 hn2 hn2p
          rcases List.mem_append.mp hn2 with hin | hin
          · exact hnone h0 n2 hin hn2p
          · obtain rfl : n2 = node := by simpa using hin
            exact hno
        have hsome2 : ∀ r0, sh = some r0 →
            (∃ n2 ∈ done ++ [node], n2 ∉ path ∧ ∃ q, r0 = path ++ n2 :: q ∧
              Ext g n2 v path q) ∧
            ∀ n2 ∈ done ++ [node], n2 ∉ path → ∀ q2, Ext g n2 v path q2 →
              r0.length ≤ path.length + 1 + q2.length := by
          intro r0 h0
          obtain ⟨⟨n1, hn1, hn1p, hq1⟩, hb⟩ := hsome r0 h0
          refine ⟨⟨n1, List.mem_append_left _ hn1, hn1p, hq1⟩, ?_⟩
          intro n2 hn2 hn2p q2 hq2
          rcases List.mem_append.mp hn2 with hin | hin
          · exact hb n2 hin hn2p q2 hq2
          · obtain rfl : n2 = node := by simpa using hin
            exact absurd ⟨q2, hq2⟩ hno
        have hres := ih hsub2 (done ++ [node]) sh hnone2 hsome2
        rw [fspFold_step_none f path rest sh hmem hfn, ← hconv]
        exact hres
      | some np =>
        obtain ⟨qn, hnp_eq, hqn_ext, hqn_min⟩ := (hf node hnode0 hmem).2 np hfn
        have hlen_np : np.length = path.length + 1 + qn.length := by
          rw [hnp_eq]
          simp only [List.length_append, List.length_cons]
          omega
        have hz : ¬ np.length = 0 := by omega
        cases sh with
        | none =>
          have hprev : ∀ n2 ∈ done, n2 ∉ path → ¬ ∃ q, Ext g n2 v path q :=
            hnone rfl
          have hsome2 : ∀ r0, (some np : Option (List V)) = some r0 →
              (∃ n2 ∈ done ++ [node], n2 ∉ path ∧ ∃ q, r0 = path ++ n2 :: q ∧
                Ext g n2 v path q) ∧
              ∀ n2 ∈ done ++ [node], n2 ∉ path → ∀ q2, Ext g n2 v path q2 →
                r0.length ≤ path.length + 1 + q2.length := by
            intro r0 h0
            obtain rfl : np = r0 := by simpa using h0
            refine ⟨⟨node, List.mem_append_right _ (List.mem_cons_self _ _),
              hmem, qn, hnp_eq, hqn_ext⟩, ?_⟩
            intro n2 hn2 hn2p q2 hq2
            rcases List.mem_append.mp hn2 with hin | hin
            · exact absurd ⟨q2, hq2⟩ (hprev n2 hin hn2p)
            · obtain rfl : n2 = node := by simpa using hin
              have := hqn_min q2 hq2
              omega
          have hres := ih hsub2 (done ++ [node]) (some np)
            (fun h0 => Option.noConfusion h0) hsome2
          rw [fspFold_step_new f path rest hmem hfn hz, ← hconv]
          exact hres
        | some sp =>
          obtain ⟨⟨n0, hn0, hn0p, q0, hsp_eq, hsp_ext⟩, hsp_bound⟩ :=
            hsome sp rfl
          have hlen_sp : sp.length = path.length + 1 + q0.length := by
            rw [hsp_eq]
            simp only [List.length_append, List.length_cons]
            omega
          by_cases hlt : np.length < sp.length
          · have hsome2 : ∀ r0, (some np : Option (List V)) = some r0 →
                (∃ n2 ∈ done ++ [node], n2 ∉ path ∧ ∃ q,
                  r0 = path ++ n2 :: q ∧ Ext g n2 v path q) ∧
                ∀ n2 ∈ done ++ [node], n2 ∉ path → ∀ q2, Ext g n2 v path q2 →
                  r0.length ≤ path.length + 1 + q2.length := by
              intro r0 h0
              obtain rfl : np = r0 := by simpa using h0
              refine ⟨⟨node, List.mem_append_right _ (List.mem_cons_self _ _),
                hmem, qn, hnp_eq, hqn_ext⟩, ?_⟩
              intro n2 hn2 hn2p q2 hq2
              rcases List.mem_append.mp hn2 with hin | hin
              · have := hsp_bound n2 hin hn2p q2 hq2
                omega
              · obtain rfl : n2 = node := by simpa using hin
                have := hqn_min q2 hq2
                omega
            have hres := ih hsub2 (done ++ [node]) (some np)
              (fun h0 => Option.noConfusion h0) hsome2
            rw [fspFold_step_better f path rest hmem hfn hz (Or.inr hlt),
              ← hconv]
            exact hres
          · have hcond : ¬ (sp.length = 0 ∨ np.length < sp.length) := by
              push_neg
              constructor
              · omega
              · omega
            have hsome2 : ∀ r0, (some sp : Option (List V)) = some r0 →
                (∃ n2 ∈ done ++ [node], n2 ∉ path ∧ ∃ q,
                  r0 = path ++ n2 :: q ∧ Ext g n2 v path q) ∧
                ∀ n2 ∈ done ++ [node], n2 ∉ path → ∀ q2, Ext g n2 v path q2 →
                  r0.length ≤ path.length + 1 + q2.length := by
              intro r0 h0
              obtain rfl : sp = r0 := by simpa using h0
              refine ⟨⟨n0, List.mem_append_left _ hn0, hn0p, q0, hsp_eq,
                hsp_ext⟩, ?_⟩
              intro n2 hn2 hn2p q2 hq2
              rcases List.mem_append.mp hn2 with hin | hin
              · exact hsp_bound n2 hin hn2p q2 hq2
              · obtain rfl : n2 = node := by simpa using hin
                have := hqn_min q2 hq2
                omega
            have hres := ih hsub2 (done ++ [node]) (some sp)
              (fun h0 => Option.noConfusion h0) hsome2
            rw [fspFold_step_keep f path rest hmem hfn hcond, ← hconv]
            exact hres

theorem fspAux_spec : ∀ (fuel : ℕ) (g : Graph V) (v s : V) (p0 : List V),
    g.WF → g.hasVert v = true → s ∈ g.vertexList → s ∉ p0 →
    g.vertexList.countP (fun x => decide (x ∉ p0 ++ [s])) + 1 ≤ fuel →
    ((fspAux fuel g s v p0 = none ↔ ¬ ∃ q, Ext g s v p0 q) ∧
      ∀ r, fspAux fuel g s v p0 = some r →
        ∃ q, r = p0 ++ s :: q ∧ Ext g s v p0 q ∧
          ∀ q2, Ext g s v p0 q2 → q.length ≤ q2.length) := by
  intro fuel
  induction fuel with
  | zero =>
    intro g v s p0 _ _ _ _ hmeas
    omega
  | succ fuel ih =>
    intro g v s p0 hwf hv hs hsp hmeas
    by_cases hse : s = v
    · subst hse
      have heq : fspAux (fuel + 1) g s s p0 = some (p0 ++ [s]) := by
        simp [fspAux]
      constructor
      · rw [heq]
        constructor
        · intro h0
          exact Option.noConfusion h0
        · intro hno
          exfalso
          apply hno
          refine ⟨[], List.chain'_singleton s, by simp, by simp, ?_⟩
          intro x hx
          obtain rfl : x = s := by simpa using hx
          exact hsp
      · intro r hr
        rw [heq] at hr
        obtain rfl : p0 ++ [s] = r := by simpa using hr
        refine ⟨[], rfl, ⟨List.chain'_singleton s, by simp, by simp, ?_⟩, ?_⟩
        · intro x hx
          obtain rfl : x = s := by simpa using hx
          exact hsp
        · intro q2 _
          simp
    · have hvs : g.hasVert s = true := by simp [Graph.hasVert, hs]
      have hguard : ¬ (¬ g.hasVert s = true ∨ ¬ g.hasVert v = true) := by
        push_neg
        exact ⟨hvs, hv⟩
      have heq : fspAux (fuel + 1) g s v p0 =
          fspFold (fun node => fspAux fuel g node v (p0 ++ [s]))
            (p0 ++ [s]) ((g.getConns s).getD []) none := by
        simp only [fspAux]
        rw [if_neg hse, if_neg hguard]
      have hf : ∀ node ∈ (g.getConns s).getD [], node ∉ p0 ++ [s] →
          ((fun node => fspAux fuel g node v (p0 ++ [s])) node = none →
            ¬ ∃ q, Ext g node v (p0 ++ [s]) q) ∧
          (∀ r, (fun node => fspAux fuel g node v (p0 ++ [s])) node =
              some r →
            ∃ q, r = (p0 ++ [s]) ++ node :: q ∧ Ext g node v (p0 ++ [s]) q ∧
              ∀ q2, Ext g node v (p0 ++ [s]) q2 → q.length ≤ q2.length) := by
        intro node hns hnp
        have hnv : node ∈ g.vertexList := mem_getConns_target g hwf hns
        have hdec : g.vertexList.countP
            (fun x => decide (x ∉ (p0 ++ [s]) ++ [node])) <
            g.vertexList.countP (fun x => decide (x ∉ p0 ++ [s])) := by
          refine countP_lt_of_mem ?_ hnv ?_ ?_
          · intro x _ hq
            simp only [decide_eq_true_eq] at hq ⊢
            intro hx
            exact hq (List.mem_append_left _ hx)
          · simp only [decide_eq_true_eq]
            exact hnp
          · simp [List.mem_append]
        obtain ⟨hiff, hsome⟩ := ih g v node (p0 ++ [s]) hwf hv hnv hnp
          (by omega)
        exact ⟨fun h0 => hiff.mp h0, hsome⟩
      obtain ⟨hN, hS⟩ := fspFold_spec g v (p0 ++ [s])
        (fun node => fspAux fuel g node v (p0 ++ [s]))
        ((g.getConns s).getD []) hf ((g.getConns s).getD [])
        (fun x hx => hx) [] none
        (fun _ n2 hn2 _ => absurd hn2 (List.not_mem_nil n2))
        (fun r0 h0 => Option.noConfusion h0)
      constructor
      · rw [heq]
        constructor
        · intro h0 hex
          obtain ⟨q, hq⟩ := hex
          obtain ⟨node, q2, rfl⟩ := ext_exists_cons hse hq
          rw [ext_cons_iff g s v p0 node q2 hsp] at hq
          obtain ⟨hedge, hext2⟩ := hq
          have hns : node ∈ (g.getConns s).getD [] :=
            (edgeB_iff g s node).mp hedge
          have hnp : node ∉ p0 ++ [s] := by
            obtain ⟨-, -, -, hin⟩ :
                IsChain g (node :: q2) ∧ (node :: q2).getLast? = some v ∧
                (node :: q2).Nodup ∧ ∀ x ∈ node :: q2, x ∉ p0 ++ [s] := hext2
            exact hin node (List.mem_cons_self _ _)
          exact hN h0 node hns hnp ⟨q2, hext2⟩
        · intro hno
          cases hval : fspFold (fun node => fspAux fuel g node v (p0 ++ [s]))
              (p0 ++ [s]) ((g.getConns s).getD []) none with
          | none => rfl
          | some r =>
            exfalso
            obtain ⟨⟨node, hns, hnp, q2, hr_eq, hext2⟩, -⟩ := hS r hval
            refine hno ⟨node :: q2, ?_⟩
            rw [ext_cons_iff g s v p0 node q2 hsp]
            exact ⟨(edgeB_iff g s node).mpr hns, hext2⟩
      · intro r hr
        rw [heq] at hr
        obtain ⟨⟨node, hns, hnp, q2, rfl, hext2⟩, hbound⟩ := hS r hr
        refine ⟨node :: q2, by simp, ?_, ?_⟩
        · rw [ext_cons_iff g s v p0 node q2 hsp]
          exact ⟨(edgeB_iff g s node).mpr hns, hext2⟩
        · intro q3 hq3
          obtain ⟨node3, q4, rfl⟩ := ext_exists_cons hse hq3
          rw [ext_cons_iff g s v p0 node3 q4 hsp] at hq3
          obtain ⟨hedge3, hext3⟩ := hq3
          have hns3 : node3 ∈ (g.getConns s).getD [] :=
            (edgeB_iff g s node3).mp hedge3
          have hnp3 : node3 ∉ p0 ++ [s] := by
            obtain ⟨-, -, -, hin⟩ :
                IsChain g (node3 :: q4) ∧ (node3 :: q4).getLast? = some v ∧
                (node3 :: q4).Nodup ∧ ∀ x ∈ node3 :: q4, x ∉ p0 ++ [s] :=
              hext3
            exact hin node3 (List.mem_cons_self _ _)
          have hb := hbound node3 hns3 hnp3 q4 hext3
          simp only [List.length_append, List.length_cons, List.length_nil]
            at hb
          simp only [List.length_cons]
          omega

theorem fsp_absent_case (g : Graph V) (u v : V) (hwf : g.WF) (huv : u ≠ v)
    (habs : g.hasVert u = false ∨ g.hasVert v = false) :
    (find_shortest_path g u v = none ↔ ¬ ∃ c, ChainFT g u v c) ∧
    ∀ r, find_shortest_path g u v = some r →
      ChainFT g u v r ∧ ∀ c, ChainFT g u v c → r.length ≤ c.length := by
  have hguard : ¬ g.hasVert u = true ∨ ¬ g.hasVert v = true := by
    rcases habs with h | h
    · exact Or.inl (by simp [h])
    · exact Or.inr (by simp [h])
  have hres : find_shortest_path g u v = none := by
    show fspAux (g.vertexList.length + 1) g u v [] = none
    simp only [fspAux]
    rw [if_neg huv, if_pos hguard]
  refine ⟨iff_of_true hres (no_chainFT_of_absent g hwf u v huv habs), ?_⟩
  intro r hr
  rw [hres] at hr
  exact Option.noConfusion hr

/-- Claim C3 (counterexample): the absent-result condition fails for
`start == end` with that vertex missing.  `"K"` is not a vertex of the
doctest graph, yet `find_shortest_path(gEx, "K", "K")` returns `["K"]`
rather than `None`: the accumulator gains `"K"` and the `start == end`
base case fires before any membership check. -/
theorem fsp_absent_selfloop_cex :
    gEx.hasVert "K" = false ∧
    find_shortest_path gEx "K" "K" = some ["K"] := by
  constructor
  · decide
  · decide

/-- Claim C3 (amended): on a well-formed graph, `find_shortest_path`
returns `[u]` whenever `start = end = u`, even if `u` is absent; and for
`u ≠ v` it returns `None` exactly when no directed simple path from `u`
to `v` exists (which covers a missing endpoint), and otherwise returns a
path of minimum vertex count among all directed simple paths from `u` to
`v`. -/
theorem fsp_minimality (g : Graph V) (u v : V) (hwf : g.WF) :
    (u = v → find_shortest_path g u v = some [u]) ∧
    (u ≠ v →
      (find_shortest_path g u v = none ↔ ¬ ∃ c, ChainFT g u v c) ∧
      ∀ r, find_shortest_path g u v = some r →
        ChainFT g u v r ∧ ∀ c, ChainFT g u v c → r.length ≤ c.length) := by
  constructor
  · intro huv
    subst huv
    simp [find_shortest_path, fspAux]
  · intro huv
    by_cases hu : g.hasVert u = true
    · by_cases hv : g.hasVert v = true
      · have hu2 : u ∈ g.vertexList := by simpa [Graph.hasVert] using hu
        obtain ⟨hiff, hsome⟩ := fspAux_spec (g.vertexList.length + 1) g v u
          [] hwf hv hu2 (by simp)
          (by
            have := List.countP_le_length
              (fun x => decide (x ∉ ([] : List V) ++ [u]))
              (l := g.vertexList)
            omega)
        have hfs : find_shortest_path g u v =
            fspAux (g.vertexList.length + 1) g u v [] := rfl
        constructor
        · rw [hfs, hiff]
          exact not_congr (exists_chainFT_iff_ext g u v).symm
        · intro r hr
          rw [hfs] at hr
          obtain ⟨q, rfl, hext, hmin⟩ := hsome r hr
          obtain ⟨hch, hlast, hnd, -⟩ :
              IsChain g (u :: q) ∧ (u :: q).getLast? = some v ∧
              (u :: q).Nodup ∧ ∀ x ∈ u :: q, x ∉ ([] : List V) := hext
          constructor
          · exact ⟨by simpa using hch, by simp, by simpa using hlast,
              by simpa using hnd⟩
          · intro c hc
            obtain ⟨hch2, hhead2, hlast2, hnd2⟩ :
                IsChain g c ∧ c.head? = some u ∧ c.getLast? = some v ∧
                c.Nodup := hc
            obtain ⟨q2, rfl⟩ := head_eq_cons hhead2
            have hext2 : Ext g u v [] q2 := ⟨hch2, hlast2, hnd2, by simp⟩
            have := hmin q2 hext2
            simp only [List.length_append, List.length_cons, List.length_nil]
            omega
      · exact fsp_absent_case g u v hwf huv (Or.inr (by simpa using hv))
    · exact fsp_absent_case g u v hwf huv (Or.inl (by simpa using hu))

theorem fsp_minimality_witness :
    gEx.WF ∧
    ((("A" : String) = "D" →
        find_shortest_path gEx "A" "D" = some ["A"]) ∧
      (("A" : String) ≠ "D" →
        (find_shortest_path gEx "A" "D" = none ↔
          ¬ ∃ c, ChainFT gEx "A" "D" c) ∧
        ∀ r, find_shortest_path gEx "A" "D" = some r →
          ChainFT gEx "A" "D" r ∧
            ∀ c, ChainFT gEx "A" "D" c → r.length ≤ c.length)) :=
  ⟨by decide, fsp_minimality gEx "A" "D" (by decide)⟩

/-! ### Claim C4: `check_cycles` detects exactly the cyclic graphs -/

theorem getLast?_append_cons : ∀ (l1 : List V) (x : V) (l2 : List V),
    (l1 ++ x :: l2).getLast? = (x :: l2).getLast? := by
  intro l1
  induction l1 with
  | nil =>
    intro x l2
    rfl
  | cons a l1 ih =>
    intro x l2
    rw [List.cons_append]
    obtain ⟨b, t, hbt⟩ : ∃ b t, l1 ++ x :: l2 = b :: t := by
      cases l1 with
      | nil => exact ⟨x, l2, rfl⟩
      | cons c l3 => exact ⟨c, l3 ++ x :: l2, rfl⟩
    rw [hbt, List.getLast?_cons_cons, ← hbt, ih]

theorem cycle_of_revisit (g : Graph V) (l : List V) (t n : V)
    (hch : IsChain g l) (hlast : l.getLast? = some t)
    (hedge : g.edgeB t n = true) (hmem : n ∈ l) : CycleAt g n := by
  obtain ⟨l1, l2, rfl⟩ := List.append_of_mem hmem
  have hch2 : IsChain g (n :: l2) := (List.chain'_append.mp hch).2.1
  have hlast2 : (n :: l2).getLast? = some t := by
    rw [← getLast?_append_cons l1 n l2]
    exact hlast
  refine ⟨(n :: l2) ++ [n], by simp, ?_, by simp, ?_⟩
  · refine List.chain'_append.mpr ⟨hch2, List.chain'_singleton n, ?_⟩
    intro x hx y hy
    rw [hlast2] at hx
    obtain rfl : t = x := by simpa using hx
    obtain rfl : n = y := by simpa using hy
    exact hedge
  · rw [getLast?_append_cons (n :: l2) n []]
    rfl

theorem chain_closed_last (g : Graph V) (P : V → Prop)
    (hP : ∀ a, P a → ∀ b, g.edgeB a b = true → P b) :
    ∀ (l : List V) (a t : V), IsChain g (a :: l) → P a →
    (a :: l).getLast? = some t → P t := by
  intro l
  induction l with
  | nil =>
    intro a t _ hpa hlast
    obtain rfl : a = t := by simpa using hlast
    exact hpa
  | cons b l2 ih =>
    intro a t hch hpa hlast
    obtain ⟨hedge, hch2⟩ := List.chain'_cons.mp hch
    rw [List.getLast?_cons_cons] at hlast
    exact ih b t hch2 (hP a hpa b hedge) hlast

theorem visitFold_false_post
    (f : V → Finset V → Finset V → Bool × Finset V × Finset V) (x : V)
    (hf : ∀ n vi2 pa2 v3 p3, f n vi2 pa2 = (false, v3, p3) → n ∉ pa2 →
      p3 = pa2 ∧ vi2 ⊆ v3) :
    ∀ (rest : List V) (vi2 pa2 v2 p2 : Finset V),
    visitFold f x rest vi2 pa2 = (false, v2, p2) →
    p2 = pa2.erase x ∧ vi2 ⊆ v2 := by
  intro rest
  induction rest with
  | nil =>
    intro vi2 pa2 v2 p2 h
    simp only [visitFold, Prod.mk.injEq, true_and] at h
    obtain ⟨h1, h2⟩ := h
    subst h1
    exact ⟨h2.symm, subset_refl _⟩
  | cons n rest ih =>
    intro vi2 pa2 v2 p2 h
    simp only [visitFold] at h
    by_cases hn : n ∈ pa2
    · rw [if_pos hn] at h
      simp at h
    · rw [if_neg hn] at h
      rcases hfn : f n vi2 pa2 with ⟨b, v3, p3⟩
      rw [hfn] at h
      cases b with
      | true =>
        have h2 : ((true, v3, p3) : Bool × Finset V × Finset V) =
            (false, v2, p2) := h
        simp at h2
      | false =>
        have h2 : visitFold f x rest v3 p3 = (false, v2, p2) := h
        obtain ⟨hp3, hsub⟩ := hf n vi2 pa2 v3 p3 hfn hn
        rw [hp3] at h2
        obtain ⟨hperase, hsub2⟩ := ih v3 pa2 v2 p2 h2
        exact ⟨hperase, hsub.trans hsub2⟩

theorem visit_false_post : ∀ (fuel : ℕ) (g : Graph V) (x : V)
    (vi pa v2 p2 : Finset V), visit fuel g x vi pa = (false, v2, p2) →
    x ∉ pa → p2 = pa ∧ vi ⊆ v2 := by
  intro fuel
  induction fuel with
  | zero =>
    intro g x vi pa v2 p2 h _
    simp only [visit, Prod.mk.injEq, true_and] at h
    obtain ⟨h1, h2⟩ := h
    subst h1
    exact ⟨h2.symm, subset_refl _⟩
  | succ fuel ih =>
    intro g x vi pa v2 p2 h hx
    rw [visit] at h
    by_cases hv : x ∈ vi
    · rw [if_pos hv] at h
      simp only [Prod.mk.injEq, true_and] at h
      obtain ⟨h1, h2⟩ := h
      subst h1
      exact ⟨h2.symm, subset_refl _⟩
    · rw [if_neg hv] at h
      obtain ⟨hp, hsub⟩ := visitFold_false_post
        (fun n vi3 pa3 => visit fuel g n vi3 pa3) x
        (fun n vi3 pa3 v3 p3 hfn hn => ih g n vi3 pa3 v3 p3 hfn hn)
        _ _ _ _ _ h
      refine ⟨?_, (Finset.subset_insert x vi).trans hsub⟩
      rw [hp, Finset.erase_insert hx]

theorem visit_true_hasCycle : ∀ (fuel : ℕ) (g : Graph V) (vertex : V)
    (vi pa : Finset V) (st : List V),
    (visit fuel g vertex vi pa).1 = true →
    (∀ y, y ∈ pa ↔ y ∈ st) → IsChain g (st ++ [vertex]) →
    HasCycle g := by
  intro fuel
  induction fuel with
  | zero =>
    intro g vertex vi pa st hres _ _
    simp [visit] at hres
  | succ fuel ih =>
    intro g vertex vi pa st hres hpa hch
    rw [visit] at hres
    by_cases hv : vertex ∈ vi
    · rw [if_pos hv] at hres
      simp at hres
    · rw [if_neg hv] at hres
      have hlast : (st ++ [vertex]).getLast? = some vertex := by
        rw [getLast?_append_cons st vertex []]
        rfl
      have hfold : ∀ (rest : List V),
          (∀ nb ∈ rest, g.edgeB vertex nb = true) →
          ∀ (vi2 pa2 : Finset V), (∀ y, y ∈ pa2 ↔ y ∈ st ++ [vertex]) →
          (visitFold (fun n vi3 pa3 => visit fuel g n vi3 pa3) vertex rest
            vi2 pa2).1 = true →
          HasCycle g := by
        intro rest
        induction rest with
        | nil =>
          intro _ vi2 pa2 _ hres2
          simp [visitFold] at hres2
        | cons nb rest ih2 =>
          intro hedges vi2 pa2 hpa2 hres2
          simp only [visitFold] at hres2
          by_cases hnb : nb ∈ pa2
          · have hmem : nb ∈ st ++ [vertex] := (hpa2 nb).mp hnb
            exact ⟨nb, cycle_of_revisit g (st ++ [vertex]) vertex nb hch
              hlast (hedges nb (List.mem_cons_self _ _)) hmem⟩
          · rw [if_neg hnb] at hres2
            rcases hfn : visit fuel g nb vi2 pa2 with ⟨b, v3, p3⟩
            rw [hfn] at hres2
            cases b with
            | true =>
              have hchain3 : IsChain g ((st ++ [vertex]) ++ [nb]) := by
                refine List.chain'_append.mpr
                  ⟨hch, List.chain'_singleton nb, ?_⟩
                intro x hx y hy
                rw [hlast] at hx
                obtain rfl : vertex = x := by simpa using hx
                obtain rfl : nb = y := by simpa using hy
                exact hedges nb (List.mem_cons_self _ _)
              refine ih g nb vi2 pa2 (st ++ [vertex]) ?_ hpa2 hchain3
              rw [hfn]
            | false =>
              have hres3 : (visitFold
                  (fun n vi3 pa3 => visit fuel g n vi3 pa3) vertex rest
                  v3 p3).1 = true := hres2
              obtain ⟨hp3, -⟩ :=
                visit_false_post fuel g nb vi2 pa2 v3 p3 hfn hnb
              rw [hp3] at hres3
              exact ih2 (fun nb2 h2 =>
                hedges nb2 (List.mem_cons_of_mem _ h2)) v3 pa2 hpa2 hres3
      refine hfold ((g.getConns vertex).getD [])
        (fun nb hnb => (edgeB_iff g vertex nb).mpr hnb)
        (insert vertex vi) (insert vertex pa) ?_ hres
      intro y
      simp only [Finset.mem_insert, List.mem_append, List.mem_singleton,
        hpa y]
      tauto

theorem ccAux_true_hasCycle : ∀ (l : List V) (g : Graph V) (s1 : Finset V),
    ccAux g l s1 ∅ = true → HasCycle g := by
  intro l
  induction l with
  | nil =>
    intro g s1 h
    simp [ccAux] at h
  | cons v rest ih =>
    intro g s1 h
    simp only [ccAux] at h
    rcases hv : visit (g.vertexList.length + 1) g v s1 ∅ with ⟨b, s1', s2'⟩
    rw [hv] at h
    cases b with
    | true =>
      refine visit_true_hasCycle (g.vertexList.length + 1) g v s1 ∅ [] ?_
        (by simp) ?_
      · rw [hv]
      · show IsChain g ([] ++ [v])
        simp only [List.nil_append]
        exact List.chain'_singleton v
    | false =>
      have h2 : ccAux g rest s1' s2' = true := h
      obtain ⟨hp, -⟩ := visit_false_post (g.vertexList.length + 1) g v s1 ∅
        s1' s2' hv (Finset.not_mem_empty v)
      rw [hp] at h2
      exact ih g s1' h2

theorem visit_false_good : ∀ (fuel : ℕ) (g : Graph V) (x : V)
    (vi pa v2 p2 : Finset V), g.WF → x ∈ g.vertexList →
    g.vertexList.countP (fun y => decide (y ∉ vi)) + 1 ≤ fuel →
    visit fuel g x vi pa = (false, v2, p2) → x ∉ pa →
    GoodPair g vi pa → GoodPair g v2 p2 ∧ x ∈ v2 := by
  intro fuel
  induction fuel with
  | zero =>
    intro g x vi pa v2 p2 _ _ hmeas _ _ _
    omega
  | succ fuel ih =>
    intro g x vi pa v2 p2 hwf hxv hmeas h hx hgood
    rw [visit] at h
    by_cases hv : x ∈ vi
    · rw [if_pos hv] at h
      simp only [Prod.mk.injEq, true_and] at h
      obtain ⟨h1, h2⟩ := h
      subst h1
      subst h2
      exact ⟨hgood, hv⟩
    · rw [if_neg hv] at h
      obtain ⟨hG1, hG2⟩ :
          (∀ a ∈ vi, a ∉ pa → ∀ b, g.edgeB a b = true →
            b ∈ vi ∧ b ∉ pa) ∧
          (∀ a ∈ vi, a ∉ pa → ¬ CycleAt g a) := hgood
      have hgood2 : GoodPair g (insert x vi) (insert x pa) := by
        refine ⟨?_, ?_⟩
        · intro a ha hap b hedge
          have hax : a ≠ x :=
            fun heq => hap (heq ▸ Finset.mem_insert_self x pa)
          have ha2 : a ∈ vi := by
            rcases Finset.mem_insert.mp ha with heq | h2
            · exact absurd heq hax
            · exact h2
          have hap2 : a ∉ pa := fun h2 => hap (Finset.mem_insert_of_mem h2)
          obtain ⟨hb1, hb2⟩ := hG1 a ha2 hap2 b hedge
          have hbx : b ≠ x := fun heq => hv (heq ▸ hb1)
          refine ⟨Finset.mem_insert_of_mem hb1, ?_⟩
          intro hbmem
          rcases Finset.mem_insert.mp hbmem with heq | h2
          · exact hbx heq
          · exact hb2 h2
        · intro a ha hap
          have hax : a ≠ x :=
            fun heq => hap (heq ▸ Finset.mem_insert_self x pa)
          have ha2 : a ∈ vi := by
            rcases Finset.mem_insert.mp ha with heq | h2
            · exact absurd heq hax
            · exact h2
          exact hG2 a ha2 (fun h2 => hap (Finset.mem_insert_of_mem h2))
      have hmeas2 : g.vertexList.countP
          (fun y => decide (y ∉ insert x vi)) <
          g.vertexList.countP (fun y => decide (y ∉ vi)) := by
        refine countP_lt_of_mem ?_ hxv ?_ ?_
        · intro y _ hq
          simp only [decide_eq_true_eq] at hq ⊢
          intro hy
          exact hq (Finset.mem_insert_of_mem hy)
        · simp only [decide_eq_true_eq]
          exact hv
        · simp
      have hfold : ∀ (rest : List V), (∀ nb ∈ rest, nb ∈ g.vertexList) →
          (∀ nb ∈ rest, g.edgeB x nb = true) →
          ∀ (vik v3 p3 : Finset V), insert x vi ⊆ vik →
          GoodPair g vik (insert x pa) →
          visitFold (fun n vi4 pa4 => visit fuel g n vi4 pa4) x rest vik
            (insert x pa) = (false, v3, p3) →
          GoodPair g v3 (insert x pa) ∧ vik ⊆ v3 ∧
            p3 = (insert x pa).erase x ∧
            ∀ nb ∈ rest, nb ∈ v3 ∧ nb ∉ insert x pa := by
        intro rest
        induction rest with
        | nil =>
          intro _ _ vik v3 p3 _ hgd h0
          simp only [visitFold, Prod.mk.injEq, true_and] at h0
          obtain ⟨h1, h2⟩ := h0
          subst h1
          refine ⟨hgd, subset_refl _, h2.symm, ?_⟩
          intro nb hnb
          exact absurd hnb (List.not_mem_nil nb)
        | cons nb rest ih2 =>
          intro hvl hedges vik v3 p3 hsub hgd h0
          simp only [visitFold] at h0
          by_cases hnb : nb ∈ insert x pa
          · rw [if_pos hnb] at h0
            simp at h0
          · rw [if_neg hnb] at h0
            rcases hfn : visit fuel g nb vik (insert x pa) with ⟨b, v4, p4⟩
            rw [hfn] at h0
            cases b with
            | true =>
              have h1 : ((true, v4, p4) : Bool × Finset V × Finset V) =
                  (false, v3, p3) := h0
              simp at h1
            | false =>
              have h1 : visitFold
                  (fun n vi4 pa4 => visit fuel g n vi4 pa4) x rest v4 p4 =
                  (false, v3, p3) := h0
              have hmono : g.vertexList.countP
                  (fun y => decide (y ∉ vik)) ≤
                  g.vertexList.countP
                    (fun y => decide (y ∉ insert x vi)) := by
                apply List.countP_mono_left
                intro y _ hq
                simp only [decide_eq_true_eq] at hq ⊢
                intro hy
                exact hq (hsub hy)
              obtain ⟨hgd4, hnb4⟩ := ih g nb vik (insert x pa) v4 p4 hwf
                (hvl nb (List.mem_cons_self _ _)) (by omega) hfn hnb hgd
              obtain ⟨hp4, hsub4⟩ := visit_false_post fuel g nb vik
                (insert x pa) v4 p4 hfn hnb
              rw [hp4] at h1 hgd4
              obtain ⟨hgd3, hsub3, hp3, hrest⟩ := ih2
                (fun y hy => hvl y (List.mem_cons_of_mem _ hy))
                (fun y hy => hedges y (List.mem_cons_of_mem _ hy))
                v4 v3 p3 (hsub.trans hsub4) hgd4 h1
              refine ⟨hgd3, hsub4.trans hsub3, hp3, ?_⟩
              intro nb2 hnb2
              rcases List.mem_cons.mp hnb2 with rfl | h2
              · exact ⟨hsub3 hnb4, hnb⟩
              · exact hrest nb2 h2
      obtain ⟨hgd3, hsub3, hp3, hns⟩ := hfold ((g.getConns x).getD [])
        (fun nb hnb => mem_getConns_target g hwf hnb)
        (fun nb hnb => (edgeB_iff g x nb).mpr hnb)
        (insert x vi) v2 p2 (subset_refl _) hgood2 h
      obtain ⟨hC1, hC2⟩ :
          (∀ a ∈ v2, a ∉ insert x pa → ∀ b, g.edgeB a b = true →
            b ∈ v2 ∧ b ∉ insert x pa) ∧
          (∀ a ∈ v2, a ∉ insert x pa → ¬ CycleAt g a) := hgd3
      have hp2 : p2 = pa := by rw [hp3, Finset.erase_insert hx]
      rw [hp2]
      have hxv2 : x ∈ v2 := hsub3 (Finset.mem_insert_self x vi)
      refine ⟨⟨?_, ?_⟩, hxv2⟩
      · intro a ha hap b hedge
        by_cases hax : a = x
        · subst hax
          have hbns : b ∈ (g.getConns a).getD [] :=
            (edgeB_iff g a b).mp hedge
          obtain ⟨hb1, hb2⟩ := hns b hbns
          exact ⟨hb1, fun h2 => hb2 (Finset.mem_insert_of_mem h2)⟩
        · have hap2 : a ∉ insert x pa := by
            intro h2
            rcases Finset.mem_insert.mp h2 with heq | h3
            · exact hax heq
            · exact hap h3
          obtain ⟨hb1, hb2⟩ := hC1 a ha hap2 b hedge
          exact ⟨hb1, fun h2 => hb2 (Finset.mem_insert_of_mem h2)⟩
      · intro a ha hap
        by_cases hax : a = x
        · subst hax
          intro hcyc
          obtain ⟨c, hlen, hchc, hheadc, hlastc⟩ := hcyc
          obtain ⟨rest0, rfl⟩ := head_eq_cons hheadc
          cases rest0 with
          | nil => simp at hlen
          | cons n1 c2 =>
            obtain ⟨hedge1, hch2⟩ := List.chain'_cons.mp hchc
            rw [List.getLast?_cons_cons] at hlastc
            have hn1ns : n1 ∈ (g.getConns a).getD [] :=
              (edgeB_iff g a n1).mp hedge1
            obtain ⟨hn1v, hn1p⟩ := hns n1 hn1ns
            have hclosed : ∀ y, (y ∈ v2 ∧ y ∉ insert a pa) →
                ∀ b, g.edgeB y b = true → b ∈ v2 ∧ b ∉ insert a pa :=
              fun y hy b hedge => hC1 y hy.1 hy.2 b hedge
            have hPlast := chain_closed_last g
              (fun y => y ∈ v2 ∧ y ∉ insert a pa) hclosed c2 n1 a hch2
              ⟨hn1v, hn1p⟩ hlastc
            exact hPlast.2 (Finset.mem_insert_self a pa)
        · have hap2 : a ∉ insert x pa := by
            intro h2
            rcases Finset.mem_insert.mp h2 with heq | h3
            · exact hax heq
            · exact hap h3
          exact hC2 a ha hap2

theorem ccAux_false : ∀ (l : List V) (g : Graph V) (s1 : Finset V),
    g.WF → (∀ v ∈ l, v ∈ g.vertexList) → GoodPair g s1 ∅ →
    ccAux g l s1 ∅ = false → ∀ v ∈ l, ¬ CycleAt g v := by
  intro l
  induction l with
  | nil =>
    intro g s1 _ _ _ _ v hv
    exact absurd hv (List.not_mem_nil v)
  | cons v rest ih =>
    intro g s1 hwf hvl hgood h
    simp only [ccAux] at h
    rcases hv : visit (g.vertexList.length + 1) g v s1 ∅ with ⟨b, s1', s2'⟩
    rw [hv] at h
    cases b with
    | true =>
      have h1 : (true : Bool) = false := h
      exact Bool.noConfusion h1
    | false =>
      have h1 : ccAux g rest s1' s2' = false := h
      have hmeas : g.vertexList.countP (fun y => decide (y ∉ s1)) + 1 ≤
          g.vertexList.length + 1 := by
        have := List.countP_le_length (fun y => decide (y ∉ s1))
          (l := g.vertexList)
        omega
      obtain ⟨hgood2, hvin⟩ := visit_false_good
        (g.vertexList.length + 1) g v s1 ∅ s1' s2' hwf
        (hvl v (List.mem_cons_self _ _)) hmeas hv
        (Finset.not_mem_empty v) hgood
      obtain ⟨hp, -⟩ := visit_false_post (g.vertexList.length + 1) g v s1
        ∅ s1' s2' hv (Finset.not_mem_empty v)
      rw [hp] at h1 hgood2
      intro w hw
      rcases List.mem_cons.mp hw with rfl | hw2
      · obtain ⟨-, hC2⟩ :
            (∀ a ∈ s1', a ∉ (∅ : Finset V) → ∀ b, g.edgeB a b = true →
              b ∈ s1' ∧ b ∉ (∅ : Finset V)) ∧
            (∀ a ∈ s1', a ∉ (∅ : Finset V) → ¬ CycleAt g a) := hgood2
        exact hC2 w hvin (Finset.not_mem_empty w)
      · exact ih g s1' hwf (fun y hy => hvl y (List.mem_cons_of_mem _ hy))
          hgood2 h1 w hw2

/-- Claim C4: on a well-formed graph `check_cycles` returns `true`
exactly when the graph contains a directed cycle; in particular it
returns `true` on the doctest graph with edges A→B, B→A and `false` on
the doctest graph with edges A→B, A→C. -/
theorem check_cycles_iff_hasCycle (g : Graph V) (hwf : g.WF) :
    (check_cycles g = true ↔ HasCycle g) ∧
    check_cycles gCyc = true ∧ check_cycles gNoCyc = false := by
  refine ⟨⟨?_, ?_⟩, by decide, by decide⟩
  · intro h
    exact ccAux_true_hasCycle g.vertexList g ∅ h
  · intro hcyc
    by_contra hne
    have hfalse : check_cycles g = false := by simpa using hne
    obtain ⟨u, hu⟩ := hcyc
    have humem : u ∈ g.vertexList := by
      obtain ⟨c, hlen, hch, hhead, -⟩ := hu
      obtain ⟨rest0, rfl⟩ := head_eq_cons hhead
      cases rest0 with
      | nil => simp at hlen
      | cons n1 c2 =>
        have hedge : g.edgeB u n1 = true := (List.chain'_cons.mp hch).1
        rw [Graph.edgeB] at hedge
        cases hg : g.getConns u with
        | none =>
          rw [hg] at hedge
          simp at hedge
        | some ns =>
          rw [Graph.getConns] at hg
          by_cases hvert : g.hasVert u = true
          · simpa [Graph.hasVert] using hvert
          · rw [if_neg hvert] at hg
            cases hg
    have hgood0 : GoodPair g ∅ ∅ := by
      refine ⟨?_, ?_⟩
      · intro a ha
        exact absurd ha (Finset.not_mem_empty a)
      · intro a ha
        exact absurd ha (Finset.not_mem_empty a)
    exact ccAux_false g.vertexList g ∅ hwf (fun y hy => hy) hgood0 hfalse
      u humem hu

theorem check_cycles_iff_hasCycle_witness :
    gCyc.WF ∧
    ((check_cycles gCyc = true ↔ HasCycle gCyc) ∧
      check_cycles gCyc = true ∧ check_cycles gNoCyc = false) :=
  ⟨by decide, check_cycles_iff_hasCycle gCyc (by decide)⟩

/-! ### Claim C1: the distances computed by `Dijkstra` -/

/-- Claim C1 (counterexample): `Dijkstra` crashes on a graph containing
a vertex literally named `"0"`.  Relaxing that vertex calls
`editHeap("0", ...)`, whose linear scan matches the index-0 sentinel
`(0, "0")` and deletes it; the corrupted bookkeeping then makes `delMin`
read the missing index 1 (IndexError, modelled as `err`). -/
theorem Dijkstra_zero_vertex_cex : Dijkstra gZero "A" = DRes.err := by
  decide

theorem lookupD_setD_self : ∀ (dist : List (String × ℕ∞)) (k : String)
    (x : ℕ∞), lookupD (setD dist k x) k = x := by
  intro dist
  induction dist with
  | nil =>
    intro k x
    simp [setD, lookupD]
  | cons p rest ih =>
    intro k x
    rw [setD]
    by_cases hk : p.1 = k
    · rw [if_pos hk]
      simp [lookupD]
    · rw [if_neg hk]
      rw [lookupD, if_neg hk]
      exact ih k x

theorem lookupD_setD_ne : ∀ (dist : List (String × ℕ∞)) (k q : String)
    (x : ℕ∞), q ≠ k → lookupD (setD dist k x) q = lookupD dist q := by
  intro dist
  induction dist with
  | nil =>
    intro k q x hqk
    simp [setD, lookupD, Ne.symm hqk]
  | cons p rest ih =>
    intro k q x hqk
    rw [setD]
    by_cases hk : p.1 = k
    · rw [if_pos hk]
      rw [lookupD, lookupD, if_neg (fun h => hqk h.symm),
        if_neg (by rw [hk]; exact fun h => hqk h.symm)]
    · rw [if_neg hk]
      rw [lookupD, lookupD]
      by_cases hq : p.1 = q
      · rw [if_pos hq, if_pos hq]
      · rw [if_neg hq, if_neg hq]
        exact ih k q x hqk

theorem setD_map_fst_mem : ∀ (dist : List (String × ℕ∞)) (k : String)
    (x : ℕ∞), k ∈ dist.map Prod.fst →
    (setD dist k x).map Prod.fst = dist.map Prod.fst := by
  intro dist
  induction dist with
  | nil =>
    intro k x hk
    simp at hk
  | cons p rest ih =>
    intro k x hk
    rw [setD]
    by_cases hpk : p.1 = k
    · rw [if_pos hpk]
      simp [hpk]
    · rw [if_neg hpk]
      simp only [List.map_cons]
      rw [ih k x ?_]
      rcases (by simpa using hk : k = p.1 ∨ k ∈ rest.map Prod.fst) with
        heq | hmem
      · exact absurd heq.symm hpk
      · exact hmem

theorem setD_map_fst_new : ∀ (dist : List (String × ℕ∞)) (k : String)
    (x : ℕ∞), k ∉ dist.map Prod.fst →
    (setD dist k x).map Prod.fst = dist.map Prod.fst ++ [k] := by
  intro dist
  induction dist with
  | nil =>
    intro k x _
    simp [setD]
  | cons p rest ih =>
    intro k x hk
    rw [setD]
    have hpk : p.1 ≠ k := by
      intro h
      exact hk (by simp [h])
    rw [if_neg hpk]
    simp only [List.map_cons, List.cons_append]
    rw [ih k x (fun h => hk (by simp [h]))]

theorem lookupD_ne_top_mem : ∀ (dist : List (String × ℕ∞)) (v : String),
    lookupD dist v ≠ ⊤ → v ∈ dist.map Prod.fst := by
  intro dist
  induction dist with
  | nil =>
    intro v hv
    exact absurd rfl hv
  | cons p rest ih =>
    intro v hv
    rw [lookupD] at hv
    by_cases hp : p.1 = v
    · simp [hp]
    · rw [if_neg hp] at hv
      simp only [List.map_cons, List.mem_cons]
      exact Or.inr (ih v hv)

theorem lookupConns_some : ∀ (conns : List (V × List V)) (u : V),
    u ∈ conns.map Prod.fst → ∃ ns, lookupConns conns u = some ns := by
  intro conns
  induction conns with
  | nil =>
    intro u hu
    simp at hu
  | cons p rest ih =>
    intro u hu
    rw [lookupConns]
    by_cases hp : u = p.1
    · rw [if_pos hp]
      exact ⟨p.2, rfl⟩
    · rw [if_neg hp]
      rcases (by simpa using hu : u = p.1 ∨ u ∈ rest.map Prod.fst) with
        heq | hmem
      · exact absurd heq hp
      · exact ih u hmem

theorem getConns_some (g : Graph V) (hwf : g.WF) {u : V}
    (hu : u ∈ g.vertexList) :
    ∃ ns, g.getConns u = some ns ∧ ∀ w, g.edgeB u w = true ↔ w ∈ ns := by
  obtain ⟨hkeys, -, -⟩ :
      g.connections.map Prod.fst = g.vertexList ∧ g.vertexList.Nodup ∧
      ∀ p ∈ g.connections, (∀ x ∈ p.2, x ∈ g.vertexList) ∧ p.2.Nodup := hwf
  have huv : g.hasVert u = true := by simp [Graph.hasVert, hu]
  obtain ⟨ns, hns⟩ := lookupConns_some g.connections u (by rw [hkeys]; exact hu)
  have hgc : g.getConns u = some ns := by
    rw [Graph.getConns, if_pos huv]
    exact hns
  refine ⟨ns, hgc, ?_⟩
  intro w
  rw [Graph.edgeB, hgc]
  simp

theorem enat_add_one_lt_ne_top {p q : ℕ∞} (h : p + 1 < q) : p ≠ ⊤ := by
  intro hp
  rw [hp] at h
  rw [top_add] at h
  exact absurd h (not_top_lt)

theorem enat_not_add_one_lt_self (p : ℕ∞) : ¬ (p + 1 < p) := by
  intro h
  exact absurd (lt_of_le_of_lt le_self_add h) (lt_irrefl p)

theorem chain_mem_vertexList (g : Graph V) (hwf : g.WF) :
    ∀ (c : List V) (a : V), IsChain g (a :: c) → a ∈ g.vertexList →
    ∀ x ∈ a :: c, x ∈ g.vertexList := by
  intro c
  induction c with
  | nil =>
    intro a _ ha x hx
    obtain rfl : x = a := by simpa using hx
    exact ha
  | cons b c2 ih =>
    intro a hch ha x hx
    obtain ⟨hedge, hch2⟩ := List.chain'_cons.mp hch
    have hb : b ∈ g.vertexList :=
      mem_getConns_target g hwf ((edgeB_iff g a b).mp hedge)
    rcases List.mem_cons.mp hx with rfl | hx2
    · exact ha
    · exact ih b hch2 hb x hx2

theorem chainFT_length_le (g : Graph V) (hwf : g.WF) {s v : V}
    (hs : s ∈ g.vertexList) {c : List V} (hc : ChainFT g s v c) :
    c.length ≤ g.vertexList.length := by
  obtain ⟨hch, hhead, -, hnd⟩ :
      IsChain g c ∧ c.head? = some s ∧ c.getLast? = some v ∧ c.Nodup := hc
  obtain ⟨t, rfl⟩ := head_eq_cons hhead
  have hsub : ∀ x ∈ s :: t, x ∈ g.vertexList :=
    chain_mem_vertexList g hwf t s hch hs
  exact List.Subperm.length_le (hnd.subperm hsub)

theorem dist_le_chain (g : Graph String) (dist : List (String × ℕ∞))
    (hwf : g.WF) (hrel : ∀ a ∈ g.vertexList, Relaxed g dist a) :
    ∀ (c : List String) (a v : String) (k : ℕ), IsChain g (a :: c) →
    a ∈ g.vertexList → lookupD dist a ≤ (k : ℕ∞) →
    (a :: c).getLast? = some v →
    lookupD dist v ≤ ((k + c.length : ℕ) : ℕ∞) := by
  intro c
  induction c with
  | nil =>
    intro a v k _ _ hka hlast
    obtain rfl : a = v := by simpa using hlast
    simpa using hka
  | cons b c2 ih =>
    intro a v k hch ha hka hlast
    obtain ⟨hedge, hch2⟩ := List.chain'_cons.mp hch
    have hb : b ∈ g.vertexList :=
      mem_getConns_target g hwf ((edgeB_iff g a b).mp hedge)
    have hrb : lookupD dist b ≤ ((k + 1 : ℕ) : ℕ∞) := by
      calc lookupD dist b ≤ lookupD dist a + 1 := hrel a ha b hedge
        _ ≤ (k : ℕ∞) + 1 := add_le_add_right hka 1
        _ = ((k + 1 : ℕ) : ℕ∞) := by push_cast; rfl
    rw [List.getLast?_cons_cons] at hlast
    have hres := ih b v (k + 1) hch2 hb hrb hlast
    have h2 : k + 1 + c2.length = k + (b :: c2).length := by
      simp only [List.length_cons]
      omega
    rw [← h2]
    exact hres

theorem capD_top (n : ℕ) : capD ⊤ n = n := by
  rw [capD, WithTop.untop'_top]
  exact min_self n

theorem capD_coe (k n : ℕ) : capD (k : ℕ∞) n = min k n := rfl

theorem capD_le (d : ℕ∞) (n : ℕ) : capD d n ≤ n := min_le_right _ _

theorem map_sum_lt_of_point (l : List String) (f f2 : String → ℕ)
    (w : String) (hw : w ∈ l) (hnd : l.Nodup) (hlt : f2 w < f w)
    (heq : ∀ v ∈ l, v ≠ w → f2 v = f v) :
    (l.map f2).sum < (l.map f).sum := by
  obtain ⟨l1, l2, rfl⟩ := List.append_of_mem hw
  obtain ⟨h1, h2, hdisj⟩ := List.nodup_append.mp hnd
  have hw1 : w ∉ l1 := fun h => hdisj h (List.mem_cons_self _ _)
  have hw2 : w ∉ l2 := (List.nodup_cons.mp h2).1
  rw [List.map_append, List.map_append, List.map_cons, List.map_cons,
    List.sum_append, List.sum_append, List.sum_cons, List.sum_cons]
  have he1 : l1.map f2 = l1.map f :=
    List.map_congr_left
      (fun v hv => heq v (by simp [hv]) (fun h => hw1 (h ▸ hv)))
  have he2 : l2.map f2 = l2.map f :=
    List.map_congr_left
      (fun v hv => heq v (by simp [hv]) (fun h => hw2 (h ▸ hv)))
  rw [he1, he2]
  omega

theorem Phi_setD_lt (g : Graph String) (dist : List (String × ℕ∞))
    (hnd : g.vertexList.Nodup) (w : String) (hw : w ∈ g.vertexList)
    (m : ℕ) (hm : m + 1 ≤ g.vertexList.length)
    (hlt : (m : ℕ∞) < lookupD dist w)
    (hold : lookupD dist w ≠ ⊤ → ∃ k : ℕ, lookupD dist w = (k : ℕ∞) ∧
      k + 1 ≤ g.vertexList.length) :
    Phi g (setD dist w (m : ℕ∞)) + 1 ≤ Phi g dist := by
  have hmain := map_sum_lt_of_point g.vertexList
    (fun v => capD (lookupD dist v) g.vertexList.length)
    (fun v => capD (lookupD (setD dist w (m : ℕ∞)) v) g.vertexList.length)
    w hw hnd ?_ ?_
  · show Phi g (setD dist w (m : ℕ∞)) + 1 ≤ Phi g dist
    have hA : Phi g (setD dist w (m : ℕ∞)) <  Phi g dist := hmain
    omega
  · show capD (lookupD (setD dist w (m : ℕ∞)) w) g.vertexList.length <
      capD (lookupD dist w) g.vertexList.length
    rw [lookupD_setD_self]
    rw [capD_coe, Nat.min_eq_left (by omega)]
    by_cases htop : lookupD dist w = ⊤
    · rw [htop, capD_top]
      omega
    · obtain ⟨k, hk, hkn⟩ := hold htop
      rw [hk, capD_coe, Nat.min_eq_left (by omega)]
      rw [hk] at hlt
      exact_mod_cast hlt
  · intro v _ hvw
    show capD (lookupD (setD dist w (m : ℕ∞)) v) g.vertexList.length =
      capD (lookupD dist v) g.vertexList.length
    rw [lookupD_setD_ne dist w v (m : ℕ∞) hvw]

theorem mem_of_getLast?_eq : ∀ (l : List V) (a : V),
    l.getLast? = some a → a ∈ l := by
  intro l
  induction l with
  | nil =>
    intro a h
    cases h
  | cons b t ih =>
    intro a h
    cases t with
    | nil =>
      obtain rfl : b = a := by simpa using h
      exact List.mem_cons_self _ _
    | cons c t2 =>
      rw [List.getLast?_cons_cons] at h
      exact List.mem_cons_of_mem _ (ih a h)

theorem editHeap_inv (g : Graph String) (dist : List (String × ℕ∞))
    (pq : BinaryHeap) (name : String) (x : ℕ∞)
    (hname0 : name ≠ "0") (hnamev : name ∈ g.vertexList)
    (hsz : sizeOK pq) (hhead : pq.heapList[0]? = some dEntry)
    (hnd : (pq.heapList.tail.map Prod.snd).Nodup)
    (hmem : ∀ e ∈ pq.heapList.tail, e.2 ∈ g.vertexList)
    (hsync : ∀ e ∈ pq.heapList.tail, e.1 = lookupD dist e.2) :
    sizeOK (pq.editHeap name (x, name)) ∧
    (pq.editHeap name (x, name)).heapList[0]? = some dEntry ∧
    ((pq.editHeap name (x, name)).heapList.tail.map Prod.snd).Nodup ∧
    (∀ e ∈ (pq.editHeap name (x, name)).heapList.tail,
      e.2 ∈ g.vertexList) ∧
    (∀ e ∈ (pq.editHeap name (x, name)).heapList.tail,
      e.1 = lookupD (setD dist name x) e.2) ∧
    (pq.editHeap name (x, name)).heapList.tail.length ≤
      pq.heapList.tail.length + 1 ∧
    (∀ a : String,
      a ∈ (pq.editHeap name (x, name)).heapList.tail.map Prod.snd →
      a = name ∨ a ∈ pq.heapList.tail.map Prod.snd) ∧
    (∀ a : String,
      a ∉ (pq.editHeap name (x, name)).heapList.tail.map Prod.snd →
      a ∉ pq.heapList.tail.map Prod.snd) ∧
    name ∈ (pq.editHeap name (x, name)).heapList.tail.map Prod.snd := by
  obtain ⟨hsz2, hhead2, hbranch⟩ :=
    editHeap_shape pq name (x, name) hsz hhead hname0
  rcases hbranch with ⟨hall, hperm⟩ | ⟨e0, rest, hename, he0mem, hpold, hpnew⟩
  · have hpnames : List.Perm
        ((pq.editHeap name (x, name)).heapList.tail.map Prod.snd)
        (name :: pq.heapList.tail.map Prod.snd) := hperm.map Prod.snd
    have hnin : name ∉ pq.heapList.tail.map Prod.snd := by
      intro hin
      obtain ⟨e, he, he2⟩ := List.mem_map.mp hin
      exact hall e he he2
    refine ⟨hsz2, hhead2, ?_, ?_, ?_, ?_, ?_, ?_,
      hpnames.symm.subset (List.mem_cons_self _ _)⟩
    · exact hpnames.nodup_iff.mpr (List.nodup_cons.mpr ⟨hnin, hnd⟩)
    · intro e he
      rcases List.mem_cons.mp (hperm.subset he) with rfl | he2
      · exact hnamev
      · exact hmem e he2
    · intro e he
      rcases List.mem_cons.mp (hperm.subset he) with rfl | he2
      · rw [lookupD_setD_self]
      · have hne : e.2 ≠ name := hall e he2
        rw [lookupD_setD_ne dist name e.2 x hne]
        exact hsync e he2
    · rw [hperm.length_eq]
      simp
    · intro a ha
      rcases List.mem_cons.mp (hpnames.subset ha) with rfl | ha2
      · exact Or.inl rfl
      · exact Or.inr ha2
    · intro a ha hin
      exact ha (hpnames.symm.subset (List.mem_cons_of_mem _ hin))
  · have holdnames : List.Perm (pq.heapList.tail.map Prod.snd)
        (name :: rest.map Prod.snd) := by
      have := hpold.map Prod.snd
      rw [List.map_cons, hename] at this
      exact this
    have hnewnames : List.Perm
        ((pq.editHeap name (x, name)).heapList.tail.map Prod.snd)
        (name :: rest.map Prod.snd) := by
      have := hpnew.map Prod.snd
      rw [List.map_cons] at this
      exact this
    have hnodup2 : (name :: rest.map Prod.snd).Nodup :=
      holdnames.nodup_iff.mp hnd
    have hnamenotin : name ∉ rest.map Prod.snd :=
      (List.nodup_cons.mp hnodup2).1
    have hrestsub : ∀ e ∈ rest, e ∈ pq.heapList.tail :=
      fun e he => hpold.symm.subset (List.mem_cons_of_mem _ he)
    refine ⟨hsz2, hhead2, ?_, ?_, ?_, ?_, ?_, ?_,
      hnewnames.symm.subset (List.mem_cons_self _ _)⟩
    · exact hnewnames.nodup_iff.mpr hnodup2
    · intro e he
      rcases List.mem_cons.mp (hpnew.subset he) with rfl | he2
      · exact hnamev
      · exact hmem e (hrestsub e he2)
    · intro e he
      rcases List.mem_cons.mp (hpnew.subset he) with rfl | he2
      · rw [lookupD_setD_self]
      · have hne : e.2 ≠ name := by
          intro heq
          exact hnamenotin (heq ▸ List.mem_map_of_mem Prod.snd he2)
        rw [lookupD_setD_ne dist name e.2 x hne]
        exact hsync e (hrestsub e he2)
    · rw [hpnew.length_eq, hpold.length_eq]
      simp
    · intro a ha
      rcases List.mem_cons.mp (hnewnames.subset ha) with rfl | ha2
      · exact Or.inl rfl
      · exact Or.inr (holdnames.symm.subset (List.mem_cons_of_mem _ ha2))
    · intro a ha hin
      rcases List.mem_cons.mp (holdnames.subset hin) with rfl | ha2
      · exact ha (hnewnames.symm.subset (List.mem_cons_self _ _))
      · exact ha (hnewnames.symm.subset (List.mem_cons_of_mem _ ha2))

theorem getD_eq_getElem2 {α : Type} (d : α) (l : List α) {i : ℕ}
    (h : i < l.length) : l.getD i d = l[i] := by
  rw [List.getD_eq_getElem?_getD, List.getElem?_eq_getElem h]
  rfl

theorem getD_append_left2 {α : Type} (d : α) (l l2 : List α) (m : ℕ)
    (h : m < l.length) : (l ++ l2).getD m d = l.getD m d := by
  rw [List.getD_eq_getElem?_getD, List.getD_eq_getElem?_getD,
    List.getElem?_append_left h]

theorem getD_append_len {α : Type} (d : α) (l : List α) (x : α) :
    (l ++ [x]).getD l.length d = x := by
  rw [List.getD_eq_getElem?_getD, List.getElem?_append_right (le_refl _)]
  simp

theorem relaxFold_spec (g : Graph String) (s : String) (hwf : g.WF)
    (hs : s ∈ g.vertexList) (h0 : "0" ∉ g.vertexList) (p : ℕ∞)
    (u : String) :
    ∀ (rest : List String) (dist : List (String × ℕ∞)) (pq : BinaryHeap),
    (∀ w ∈ rest, g.edgeB u w = true) →
    DInv g s dist pq →
    (∀ a ∈ g.vertexList, a ∉ pq.heapList.tail.map Prod.snd → a ≠ u →
      Relaxed g dist a) →
    u ∉ pq.heapList.tail.map Prod.snd →
    lookupD dist u = p →
    DInv g s (relaxFold (p, u) rest dist pq).1
      (relaxFold (p, u) rest dist pq).2 ∧
    (∀ a ∈ g.vertexList,
      a ∉ (relaxFold (p, u) rest dist pq).2.heapList.tail.map Prod.snd →
      a ≠ u → Relaxed g (relaxFold (p, u) rest dist pq).1 a) ∧
    u ∉ (relaxFold (p, u) rest dist pq).2.heapList.tail.map Prod.snd ∧
    lookupD (relaxFold (p, u) rest dist pq).1 u = p ∧
    (∀ w ∈ rest, lookupD (relaxFold (p, u) rest dist pq).1 w ≤ p + 1) ∧
    Mq g (relaxFold (p, u) rest dist pq).1
      (relaxFold (p, u) rest dist pq).2 ≤ Mq g dist pq ∧
    (∀ v, lookupD (relaxFold (p, u) rest dist pq).1 v ≤
      lookupD dist v) := by
  intro rest
  induction rest with
  | nil =>
    intro dist pq _ hinv hstab huout hup
    refine ⟨hinv, fun a ha h1 h2 => hstab a ha h1 h2, huout, hup, ?_,
      le_refl _, fun v => le_refl _⟩
    intro w hw
    exact absurd hw (List.not_mem_nil w)
  | cons w rest2 ih =>
    intro dist pq hedges hinv hstab huout hup
    obtain ⟨hsz, hhead, hnd, hvmem, hsync, hkeys, hs0, hreal⟩ :
        sizeOK pq ∧ pq.heapList[0]? = some dEntry ∧
        (pq.heapList.tail.map Prod.snd).Nodup ∧
        (∀ e ∈ pq.heapList.tail, e.2 ∈ g.vertexList) ∧
        (∀ e ∈ pq.heapList.tail, e.1 = lookupD dist e.2) ∧
        dist.map Prod.fst = g.vertexList ∧
        lookupD dist s = 0 ∧
        (∀ v, lookupD dist v ≠ ⊤ →
          ∃ c, ChainFT g s v c ∧ (c.length : ℕ∞) = lookupD dist v + 1 ∧
            PrefixLabeled dist c) := hinv
    by_cases hcond : p + 1 < lookupD dist w
    · have hstep : relaxFold (p, u) (w :: rest2) dist pq =
          relaxFold (p, u) rest2 (setD dist w (p + 1))
            (pq.editHeap w (p + 1, w)) := by
        simp only [relaxFold]
        rw [if_pos hcond]
      rw [hstep]
      have hwedge : g.edgeB u w = true := hedges w (List.mem_cons_self _ _)
      have hwv : w ∈ g.vertexList :=
        mem_getConns_target g hwf ((edgeB_iff g u w).mp hwedge)
      have hw0 : w ≠ "0" := fun heq => h0 (heq ▸ hwv)
      have hptop : p ≠ ⊤ := enat_add_one_lt_ne_top hcond
      have hwu : w ≠ u := by
        intro heq
        rw [heq, hup] at hcond
        exact enat_not_add_one_lt_self p hcond
      have hws : w ≠ s := by
        intro heq
        rw [heq, hs0] at hcond
        exact absurd hcond (not_lt.mpr (zero_le _))
      obtain ⟨k, hk⟩ : ∃ k : ℕ, (k : ℕ∞) = p :=
        WithTop.ne_top_iff_exists.mp hptop
      have hpu_ne : lookupD dist u ≠ ⊤ := by
        rw [hup]
        exact hptop
      obtain ⟨cu, hcu_ft, hcu_len, hcu_pl⟩ := hreal u hpu_ne
      rw [hup] at hcu_len
      have hcu_len2 : cu.length = k + 1 := by
        rw [← hk] at hcu_len
        exact_mod_cast hcu_len
      have hw_notin_cu : w ∉ cu := by
        intro hin
        obtain ⟨i, hi, hget⟩ := List.getElem_of_mem hin
        have hle := hcu_pl i hi
        rw [getD_eq_getElem2 "" cu hi, hget] at hle
        have hik : i ≤ k := by omega
        have hle2 : lookupD dist w ≤ (k : ℕ∞) :=
          le_trans hle (by exact_mod_cast hik)
        rw [hk] at hle2
        exact enat_not_add_one_lt_self p (lt_of_lt_of_le hcond hle2)
      obtain ⟨hcu_ch, hcu_head, hcu_last, hcu_nd⟩ :
          IsChain g cu ∧ cu.head? = some s ∧ cu.getLast? = some u ∧
          cu.Nodup := hcu_ft
      obtain ⟨t_u, hcu_eq⟩ := head_eq_cons hcu_head
      have hcw_ft : ChainFT g s w (cu ++ [w]) := by
        refine ⟨?_, ?_, ?_, ?_⟩
        · refine List.chain'_append.mpr
            ⟨hcu_ch, List.chain'_singleton w, ?_⟩
          intro x hx y hy
          rw [hcu_last] at hx
          obtain rfl : u = x := by simpa using hx
          obtain rfl : w = y := by simpa using hy
          exact hwedge
        · rw [hcu_eq]
          rfl
        · rw [getLast?_append_cons cu w []]
          rfl
        · refine List.nodup_append.mpr
            ⟨hcu_nd, List.nodup_singleton w, ?_⟩
          intro a ha ha2
          obtain rfl : a = w := by simpa using ha2
          exact hw_notin_cu ha
      have hcw_len : (cu ++ [w]).length = k + 2 := by
        simp only [List.length_append, List.length_cons, List.length_nil,
          hcu_len2]
      have hcw_le : (cu ++ [w]).length ≤ g.vertexList.length :=
        chainFT_length_le g hwf hs hcw_ft
      have hpoint : ∀ y, lookupD (setD dist w (p + 1)) y ≤
          lookupD dist y := by
        intro y
        by_cases hyw : y = w
        · subst hyw
          rw [lookupD_setD_self]
          exact le_of_lt hcond
        · rw [lookupD_setD_ne dist w y (p + 1) hyw]
      obtain ⟨hsz2, hhead2, hnd2, hvmem2, hsync2, hlen2, hin2, hout2,
        hwin2⟩ :=
        editHeap_inv g dist pq w (p + 1) hw0 hwv hsz hhead hnd hvmem hsync
      have hinv2 : DInv g s (setD dist w (p + 1))
          (pq.editHeap w (p + 1, w)) := by
        refine ⟨hsz2, hhead2, hnd2, hvmem2, hsync2, ?_, ?_, ?_⟩
        · rw [setD_map_fst_mem dist w (p + 1) (by rw [hkeys]; exact hwv)]
          exact hkeys
        · rw [lookupD_setD_ne dist w s (p + 1) (Ne.symm hws)]
          exact hs0
        · intro v hv
          by_cases hvw : v = w
          · rw [hvw]
            refine ⟨cu ++ [w], hcw_ft, ?_, ?_⟩
            · rw [lookupD_setD_self, hcw_len, ← hk]
              push_cast
              ring
            · intro i hi
              rw [hcw_len] at hi
              by_cases hi2 : i < cu.length
              · rw [getD_append_left2 "" cu [w] i hi2]
                exact le_trans (hpoint (cu.getD i "")) (hcu_pl i hi2)
              · have hieq : i = cu.length := by omega
                subst hieq
                rw [getD_append_len "" cu w, lookupD_setD_self, hcu_len2,
                  ← hk]
                push_cast
                exact le_refl _
          · rw [lookupD_setD_ne dist w v (p + 1) hvw] at hv ⊢
            obtain ⟨cv, hcv_ft, hcv_len, hcv_pl⟩ := hreal v hv
            refine ⟨cv, hcv_ft, hcv_len, ?_⟩
            intro i hi
            exact le_trans (hpoint (cv.getD i "")) (hcv_pl i hi)
      have hstab2 : ∀ a ∈ g.vertexList,
          a ∉ (pq.editHeap w (p + 1, w)).heapList.tail.map Prod.snd →
          a ≠ u → Relaxed g (setD dist w (p + 1)) a := by
        intro a ha hanot hau
        have hanot0 : a ∉ pq.heapList.tail.map Prod.snd := hout2 a hanot
        have haw : a ≠ w := by
          intro heq
          rw [heq] at hanot
          exact hanot hwin2
        exact fun w2 hw2 => le_trans (hpoint w2) (by
          rw [lookupD_setD_ne dist w a (p + 1) haw]
          exact hstab a ha hanot0 hau w2 hw2)
      have huout2 : u ∉
          (pq.editHeap w (p + 1, w)).heapList.tail.map Prod.snd := by
        intro hin
        rcases hin2 u hin with heq | hmem2
        · exact hwu heq.symm
        · exact huout hmem2
      have hup2 : lookupD (setD dist w (p + 1)) u = p := by
        rw [lookupD_setD_ne dist w u (p + 1) (Ne.symm hwu)]
        exact hup
      have hMq : Mq g (setD dist w (p + 1)) (pq.editHeap w (p + 1, w)) ≤
          Mq g dist pq := by
        have hphi : Phi g (setD dist w (p + 1)) + 1 ≤ Phi g dist := by
          have hp1 : p + 1 = ((k + 1 : ℕ) : ℕ∞) := by
            rw [← hk]
            push_cast
            ring
          rw [hp1]
          refine Phi_setD_lt g dist hwf.2.1 w hwv (k + 1) (by omega) ?_ ?_
          · rw [← hp1]
            exact hcond
          · intro hwtop
            obtain ⟨cv, hcv_ft, hcv_len, -⟩ := hreal w hwtop
            obtain ⟨k2, hk2⟩ : ∃ k2 : ℕ, (k2 : ℕ∞) = lookupD dist w :=
              WithTop.ne_top_iff_exists.mp hwtop
            refine ⟨k2, hk2.symm, ?_⟩
            have hcv_le : cv.length ≤ g.vertexList.length :=
              chainFT_length_le g hwf hs hcv_ft
            have hcv_len2 : cv.length = k2 + 1 := by
              rw [← hk2] at hcv_len
              exact_mod_cast hcv_len
            omega
        have hlen3 : (pq.editHeap w (p + 1, w)).heapList.tail.length ≤
            pq.heapList.tail.length + 1 := hlen2
        rw [Mq, Mq]
        have hA : Phi g (setD dist w (p + 1)) *
            (g.vertexList.length + 1) + (g.vertexList.length + 1) ≤
            Phi g dist * (g.vertexList.length + 1) := by
          calc Phi g (setD dist w (p + 1)) * (g.vertexList.length + 1) +
              (g.vertexList.length + 1) =
              (Phi g (setD dist w (p + 1)) + 1) *
                (g.vertexList.length + 1) := by ring
            _ ≤ Phi g dist * (g.vertexList.length + 1) :=
              Nat.mul_le_mul_right _ hphi
        omega
      obtain ⟨c1, c2, c3, c4, c5, c6, c7⟩ := ih (setD dist w (p + 1))
        (pq.editHeap w (p + 1, w))
        (fun y hy => hedges y (List.mem_cons_of_mem _ hy))
        hinv2 hstab2 huout2 hup2
      refine ⟨c1, c2, c3, c4, ?_, le_trans c6 hMq, ?_⟩
      · intro w2 hw2
        rcases List.mem_cons.mp hw2 with rfl | hw3
        · exact le_trans (c7 w2) (by rw [lookupD_setD_self])
        · exact c5 w2 hw3
      · intro v
        exact le_trans (c7 v) (hpoint v)
    · have hstep : relaxFold (p, u) (w :: rest2) dist pq =
          relaxFold (p, u) rest2 dist pq := by
        simp only [relaxFold]
        rw [if_neg hcond]
      rw [hstep]
      obtain ⟨c1, c2, c3, c4, c5, c6, c7⟩ := ih dist pq
        (fun y hy => hedges y (List.mem_cons_of_mem _ hy))
        ⟨hsz, hhead, hnd, hvmem, hsync, hkeys, hs0, hreal⟩ hstab huout hup
      refine ⟨c1, c2, c3, c4, ?_, c6, c7⟩
      intro w2 hw2
      rcases List.mem_cons.mp hw2 with rfl | hw3
      · exact le_trans (c7 w2) (not_lt.mp hcond)
      · exact c5 w2 hw3

theorem dijkstraLoop_spec : ∀ (fuel : ℕ) (g : Graph String) (s : String)
    (dist : List (String × ℕ∞)) (pq : BinaryHeap),
    g.WF → s ∈ g.vertexList → "0" ∉ g.vertexList →
    DInv g s dist pq → StabOut g dist pq →
    Mq g dist pq + 1 ≤ fuel →
    ∃ d, dijkstraLoop g fuel dist pq = .ok d ∧
      d.map Prod.fst = g.vertexList ∧ lookupD d s = 0 ∧
      (∀ v, lookupD d v ≠ ⊤ →
        ∃ c, ChainFT g s v c ∧ (c.length : ℕ∞) = lookupD d v + 1) ∧
      ∀ a ∈ g.vertexList, Relaxed g d a := by
  intro fuel
  induction fuel with
  | zero =>
    intro g s dist pq _ _ _ _ _ hmeas
    omega
  | succ fuel ih =>
    intro g s dist pq hwf hs h0 hinv hstab hmeas
    obtain ⟨hsz, hhead, hnd, hvmem, hsync, hkeys, hs0, hreal⟩ :
        sizeOK pq ∧ pq.heapList[0]? = some dEntry ∧
        (pq.heapList.tail.map Prod.snd).Nodup ∧
        (∀ e ∈ pq.heapList.tail, e.2 ∈ g.vertexList) ∧
        (∀ e ∈ pq.heapList.tail, e.1 = lookupD dist e.2) ∧
        dist.map Prod.fst = g.vertexList ∧
        lookupD dist s = 0 ∧
        (∀ v, lookupD dist v ≠ ⊤ →
          ∃ c, ChainFT g s v c ∧ (c.length : ℕ∞) = lookupD dist v + 1 ∧
            PrefixLabeled dist c) := hinv
    by_cases hemp : pq.isEmpty
    · have hloop : dijkstraLoop g (fuel + 1) dist pq = .ok dist := by
        rw [dijkstraLoop, if_pos hemp]
      refine ⟨dist, hloop, hkeys, hs0, ?_, ?_⟩
      · intro v hv
        obtain ⟨c, h1, h2, -⟩ := hreal v hv
        exact ⟨c, h1, h2⟩
      · intro a ha
        have hlist : pq.heapList = [dEntry] := by
          rw [BinaryHeap.isEmpty] at hemp
          exact of_decide_eq_true hemp
        have htl : pq.heapList.tail = [] := by
          rw [hlist]
          rfl
        apply hstab a ha
        rw [htl]
        simp
    · have hlistne : pq.heapList ≠ [dEntry] := by
        intro heq
        exact hemp (by rw [BinaryHeap.isEmpty]; exact decide_eq_true heq)
      obtain ⟨t, hl⟩ : ∃ t, pq.heapList = dEntry :: t := by
        rcases hl0 : pq.heapList with _ | ⟨a0, t0⟩
        · rw [hl0] at hhead
          cases hhead
        · rw [hl0] at hhead
          simp only [List.getElem?_cons_zero, Option.some.injEq] at hhead
          exact ⟨t0, by rw [hhead]⟩
      have htne : t ≠ [] := fun h => hlistne (by rw [hl, h])
      have hlen2 : 2 ≤ pq.heapList.length := by
        have h1 : 0 < t.length := List.length_pos.mpr htne
        rw [hl]
        simp only [List.length_cons]
        omega
      rcases hdm : pq.delMin with _ | ⟨cur, pq2⟩
      · rw [BinaryHeap.delMin, if_pos hlen2] at hdm
        exact Option.noConfusion hdm
      · obtain ⟨hsz2, hlen2b, hhead2, hcur_eq, hperm⟩ :=
          delMin_shape pq cur pq2 hsz hdm
        have hcur_mem : cur ∈ pq.heapList.tail :=
          hperm.symm.subset (List.mem_cons_self _ _)
        have hu_v : cur.2 ∈ g.vertexList := hvmem cur hcur_mem
        have hp_sync : cur.1 = lookupD dist cur.2 := hsync cur hcur_mem
        have hnames : List.Perm (pq.heapList.tail.map Prod.snd)
            (cur.2 :: pq2.heapList.tail.map Prod.snd) := by
          have h1 := hperm.map Prod.snd
          rw [List.map_cons] at h1
          exact h1
        have hnd_cons : (cur.2 :: pq2.heapList.tail.map Prod.snd).Nodup :=
          hnames.nodup_iff.mp hnd
        have hu_out : cur.2 ∉ pq2.heapList.tail.map Prod.snd :=
          (List.nodup_cons.mp hnd_cons).1
        have hnd2 : (pq2.heapList.tail.map Prod.snd).Nodup :=
          (List.nodup_cons.mp hnd_cons).2
        have hsub2 : ∀ e ∈ pq2.heapList.tail, e ∈ pq.heapList.tail :=
          fun e he => hperm.symm.subset (List.mem_cons_of_mem _ he)
        have hinv2 : DInv g s dist pq2 :=
          ⟨hsz2, hhead2.trans hhead, hnd2,
            fun e he => hvmem e (hsub2 e he),
            fun e he => hsync e (hsub2 e he), hkeys, hs0, hreal⟩
        have hstab2 : ∀ a ∈ g.vertexList,
            a ∉ pq2.heapList.tail.map Prod.snd → a ≠ cur.2 →
            Relaxed g dist a := by
          intro a ha hout hau
          apply hstab a ha
          intro hin
          rcases List.mem_cons.mp (hnames.subset hin) with heq | h2
          · exact hau heq
          · exact hout h2
        obtain ⟨ns, hns, hedgeiff⟩ := getConns_some g hwf hu_v
        have hedges : ∀ w ∈ ns, g.edgeB cur.2 w = true :=
          fun w hw => (hedgeiff w).mpr hw
        have hloop : dijkstraLoop g (fuel + 1) dist pq =
            dijkstraLoop g fuel (relaxFold cur ns dist pq2).1
              (relaxFold cur ns dist pq2).2 := by
          rw [dijkstraLoop, if_neg hemp, hdm]
          show (match g.getConns cur.2 with
            | none => DRes.err
            | some ns2 =>
              dijkstraLoop g fuel (relaxFold cur ns2 dist pq2).1
                (relaxFold cur ns2 dist pq2).2) = _
          rw [hns]
        rw [hloop]
        obtain ⟨hinv3, hstab3, huout3, hup3, hbound3, hMq3, hmono3⟩ :=
          relaxFold_spec g s hwf hs h0 cur.1 cur.2 ns dist pq2 hedges
            hinv2 hstab2 hu_out hp_sync.symm
        have hstab4 : StabOut g (relaxFold cur ns dist pq2).1
            (relaxFold cur ns dist pq2).2 := by
          intro a ha hout
          by_cases hau : a = cur.2
          · subst hau
            intro w hw
            have hwns : w ∈ ns := (hedgeiff w).mp hw
            have h1 : lookupD (relaxFold cur ns dist pq2).1 w ≤
                cur.1 + 1 := hbound3 w hwns
            rw [hup3]
            exact h1
          · exact hstab3 a ha hout hau
        have hMq2 : Mq g dist pq2 + 1 ≤ Mq g dist pq := by
          rw [Mq, Mq]
          have h1 : pq.heapList.tail.length =
              pq2.heapList.tail.length + 1 := by
            rw [hperm.length_eq]
            simp
          omega
        have hMq3b : Mq g (relaxFold cur ns dist pq2).1
            (relaxFold cur ns dist pq2).2 ≤ Mq g dist pq2 := hMq3
        exact ih g s (relaxFold cur ns dist pq2).1
          (relaxFold cur ns dist pq2).2 hwf hs h0 hinv3 hstab4 (by omega)

theorem initStep_fst (source : String)
    (st : List (String × ℕ∞) × BinaryHeap) (node : String) :
    (initStep source st node).1 =
      setD st.1 node (if node ≠ source then ⊤ else 0) := rfl

theorem initStep_snd (source : String)
    (st : List (String × ℕ∞) × BinaryHeap) (node : String) :
    (initStep source st node).2 =
      st.2.insert ((if node ≠ source then ⊤ else 0 : ℕ∞), node) := rfl

theorem dijkstraInit_eq (g : Graph String) (source : String) :
    dijkstraInit g source =
      g.vertexList.foldl (initStep source) ([], emptyHeap) := rfl

theorem initFold_inv (s : String) :
    ∀ (l K : List String) (st : List (String × ℕ∞) × BinaryHeap),
    l.Nodup → (∀ x ∈ l, x ∉ K) →
    st.1.map Prod.fst = K →
    (∀ v ∈ K, lookupD st.1 v = if v ≠ s then (⊤ : ℕ∞) else 0) →
    (∀ v, v ∉ K → lookupD st.1 v = ⊤) →
    sizeOK st.2 →
    st.2.heapList[0]? = some dEntry →
    List.Perm (st.2.heapList.tail.map Prod.snd) K →
    (∀ e ∈ st.2.heapList.tail, e.1 = lookupD st.1 e.2) →
    (l.foldl (initStep s) st).1.map Prod.fst = K ++ l ∧
    (∀ v ∈ K ++ l, lookupD (l.foldl (initStep s) st).1 v =
      if v ≠ s then (⊤ : ℕ∞) else 0) ∧
    (∀ v, v ∉ K ++ l → lookupD (l.foldl (initStep s) st).1 v = ⊤) ∧
    sizeOK (l.foldl (initStep s) st).2 ∧
    (l.foldl (initStep s) st).2.heapList[0]? = some dEntry ∧
    List.Perm ((l.foldl (initStep s) st).2.heapList.tail.map Prod.snd)
      (K ++ l) ∧
    (∀ e ∈ (l.foldl (initStep s) st).2.heapList.tail,
      e.1 = lookupD (l.foldl (initStep s) st).1 e.2) := by
  intro l
  induction l with
  | nil =>
    intro K st _ _ h1 h2 h3 h4 h5 h6 h7
    simp only [List.foldl_nil, List.append_nil]
    exact ⟨h1, h2, h3, h4, h5, h6, h7⟩
  | cons node rest ih =>
    intro K st hnd hfresh h1 h2 h3 h4 h5 h6 h7
    rw [List.foldl_cons]
    have hnodeK : node ∉ K := hfresh node (List.mem_cons_self _ _)
    have hne : st.2.heapList ≠ [] := by
      intro h
      rw [h] at h5
      cases h5
    obtain ⟨hszI, hlenI, hheadI, htailI⟩ := insert_shape st.2
      ((if node ≠ s then ⊤ else 0 : ℕ∞), node) h4 hne
    have hKconv : (K ++ [node]) ++ rest = K ++ node :: rest := by simp
    have hres := ih (K ++ [node]) (initStep s st node)
      ((List.nodup_cons.mp hnd).2)
      (fun x hx => by
        intro hmem
        rcases List.mem_append.mp hmem with hxk | hxn
        · exact hfresh x (List.mem_cons_of_mem _ hx) hxk
        · obtain rfl : x = node := by simpa using hxn
          exact (List.nodup_cons.mp hnd).1 hx)
      (by
        rw [initStep_fst, setD_map_fst_new st.1 node _ (by
          rw [h1]
          exact hnodeK), h1])
      (by
        intro v hv
        rw [initStep_fst]
        rcases List.mem_append.mp hv with hvk | hvn
        · have hvnode : v ≠ node := fun heq => hnodeK (heq ▸ hvk)
          rw [lookupD_setD_ne st.1 node v _ hvnode]
          exact h2 v hvk
        · obtain rfl : v = node := by simpa using hvn
          rw [lookupD_setD_self])
      (by
        intro v hv
        rw [initStep_fst]
        have hvnode : v ≠ node := fun heq => hv (heq ▸ (by simp))
        rw [lookupD_setD_ne st.1 node v _ hvnode]
        exact h3 v (fun hk => hv (List.mem_append_left _ hk)))
      (by rw [initStep_snd]; exact hszI)
      (by
        rw [initStep_snd, hheadI]
        exact h5)
      (by
        rw [initStep_snd]
        refine (htailI.map Prod.snd).trans ?_
        rw [List.map_cons]
        refine (List.Perm.cons node h6).trans ?_
        exact (List.perm_append_singleton node K).symm)
      (by
        intro e he
        rw [initStep_snd] at he
        rw [initStep_fst]
        rcases List.mem_cons.mp (htailI.subset he) with rfl | he2
        · rw [lookupD_setD_self]
        · have hen : e.2 ∈ K := h6.subset (List.mem_map_of_mem Prod.snd he2)
          have hvnode : e.2 ≠ node := fun heq => hnodeK (heq ▸ hen)
          rw [lookupD_setD_ne st.1 node e.2 _ hvnode]
          exact h7 e he2)
    rw [hKconv] at hres
    exact hres

theorem map_sum_le (l : List String) (f : String → ℕ) (n : ℕ)
    (h : ∀ x ∈ l, f x ≤ n) : (l.map f).sum ≤ l.length * n := by
  induction l with
  | nil => simp
  | cons a rest ih =>
    simp only [List.map_cons, List.sum_cons, List.length_cons]
    have h1 := h a (List.mem_cons_self _ _)
    have h2 := ih (fun x hx => h x (List.mem_cons_of_mem _ hx))
    have h3 : (rest.length + 1) * n = rest.length * n + n := by ring
    omega

theorem dijkstraInit_spec (g : Graph String) (s : String) (hwf : g.WF)
    (hs : s ∈ g.vertexList) :
    DInv g s (dijkstraInit g s).1 (dijkstraInit g s).2 ∧
    StabOut g (dijkstraInit g s).1 (dijkstraInit g s).2 ∧
    Mq g (dijkstraInit g s).1 (dijkstraInit g s).2 + 1 ≤ dijkstraFuel g := by
  obtain ⟨-, hnodup, -⟩ :
      g.connections.map Prod.fst = g.vertexList ∧ g.vertexList.Nodup ∧
      ∀ p ∈ g.connections, (∀ x ∈ p.2, x ∈ g.vertexList) ∧ p.2.Nodup := hwf
  rw [dijkstraInit_eq]
  obtain ⟨h1, h2, h3, h4, h5, h6, h7⟩ := initFold_inv s g.vertexList []
    ([], emptyHeap) hnodup (fun x _ hx => absurd hx (List.not_mem_nil x))
    rfl (fun v hv => absurd hv (List.not_mem_nil v)) (fun v _ => rfl)
    (by decide) rfl (List.Perm.refl []) (fun e he =>
      absurd he (List.not_mem_nil e))
  rw [List.nil_append] at h1 h2 h3 h6
  have hlook : ∀ v, lookupD
      (g.vertexList.foldl (initStep s) ([], emptyHeap)).1 v =
      if v ∈ g.vertexList then (if v ≠ s then (⊤ : ℕ∞) else 0) else ⊤ := by
    intro v
    by_cases hv : v ∈ g.vertexList
    · rw [if_pos hv]
      exact h2 v hv
    · rw [if_neg hv]
      exact h3 v hv
  refine ⟨⟨h4, h5, ?_, ?_, h7, h1, ?_, ?_⟩, ?_, ?_⟩
  · exact h6.nodup_iff.mpr hnodup
  · intro e he
    exact h6.subset (List.mem_map_of_mem Prod.snd he)
  · rw [h2 s hs]
    simp
  · intro v hv
    rw [hlook v] at hv ⊢
    by_cases hvmem : v ∈ g.vertexList
    · rw [if_pos hvmem] at hv ⊢
      by_cases hvs : v = s
      · subst hvs
        rw [if_neg (by simp)] at hv ⊢
        refine ⟨[v], ⟨List.chain'_singleton v, rfl, rfl,
          List.nodup_singleton v⟩, by simp, ?_⟩
        intro i hi
        have hi0 : i = 0 := by
          simp only [List.length_cons, List.length_nil] at hi
          omega
        subst hi0
        show lookupD _ (([v] : List String).getD 0 "") ≤ _
        have : (([v] : List String).getD 0 "") = v := rfl
        rw [this, hlook v, if_pos hvmem, if_neg (by simp)]
        simp
      · rw [if_pos hvs] at hv
        exact absurd rfl hv
    · rw [if_neg hvmem] at hv
      exact absurd rfl hv
  · intro a ha hout
    exact absurd (h6.symm.subset ha) hout
  · rw [Mq, dijkstraFuel]
    have hPhi : Phi g (g.vertexList.foldl (initStep s) ([], emptyHeap)).1 ≤
        g.vertexList.length * g.vertexList.length := by
      rw [Phi]
      exact map_sum_le g.vertexList _ g.vertexList.length
        (fun x _ => capD_le _ _)
    have htail : (g.vertexList.foldl (initStep s)
        ([], emptyHeap)).2.heapList.tail.length = g.vertexList.length := by
      have := h6.length_eq
      rw [List.length_map] at this
      exact this
    have hmul : Phi g (g.vertexList.foldl (initStep s) ([], emptyHeap)).1 *
        (g.vertexList.length + 1) ≤
        g.vertexList.length * g.vertexList.length *
          (g.vertexList.length + 1) :=
      Nat.mul_le_mul_right _ hPhi
    omega

/-- Claim C1 (amended): on a well-formed graph with no vertex literally
named `"0"` and a source `s` in the graph, `Dijkstra` terminates
normally and its dictionary is keyed by the vertex list, maps `s` to
`0`, maps a vertex to `⊤` (`float('inf')`) exactly when no directed
path from `s` reaches it, and maps it to a finite `n` exactly when the
minimum edge count over directed paths from `s` to it is `n`. -/
theorem Dijkstra_correct (g : Graph String) (s : String) (hwf : g.WF)
    (hs : s ∈ g.vertexList) (h0 : "0" ∉ g.vertexList) :
    ∃ d, Dijkstra g s = DRes.ok d ∧
      d.map Prod.fst = g.vertexList ∧ lookupD d s = 0 ∧
      ∀ v ∈ g.vertexList,
        (lookupD d v = ⊤ ↔ ¬ ∃ c, ChainFT g s v c) ∧
        ∀ n : ℕ, lookupD d v = (n : ℕ∞) →
          (∃ c, ChainFT g s v c ∧ c.length = n + 1) ∧
          ∀ c, ChainFT g s v c → n + 1 ≤ c.length := by
  obtain ⟨hinv, hstab, hfuel⟩ := dijkstraInit_spec g s hwf hs
  obtain ⟨d, hloop, hkeys, hs0, hreal, hrel⟩ :=
    dijkstraLoop_spec (dijkstraFuel g) g s (dijkstraInit g s).1
      (dijkstraInit g s).2 hwf hs h0 hinv hstab hfuel
  refine ⟨d, hloop, hkeys, hs0, ?_⟩
  intro v hv
  constructor
  · constructor
    · intro htop hex
      obtain ⟨c, hc⟩ := hex
      obtain ⟨hch, hhead, hlast, -⟩ :
          IsChain g c ∧ c.head? = some s ∧ c.getLast? = some v ∧
          c.Nodup := hc
      obtain ⟨t, rfl⟩ := head_eq_cons hhead
      have hle := dist_le_chain g d hwf hrel t s v 0 hch hs
        (by rw [hs0]; simp) hlast
      rw [htop] at hle
      exact absurd hle (by simp)
    · intro hnoc
      by_contra hne
      obtain ⟨c, hcft, -⟩ := hreal v hne
      exact hnoc ⟨c, hcft⟩
  · intro n hn
    have hne : lookupD d v ≠ ⊤ := by
      rw [hn]
      simp
    obtain ⟨c, hcft, hclen⟩ := hreal v hne
    rw [hn] at hclen
    have hclen2 : c.length = n + 1 := by exact_mod_cast hclen
    refine ⟨⟨c, hcft, hclen2⟩, ?_⟩
    intro c2 hc2
    obtain ⟨hch2, hhead2, hlast2, -⟩ :
        IsChain g c2 ∧ c2.head? = some s ∧ c2.getLast? = some v ∧
        c2.Nodup := hc2
    obtain ⟨t2, rfl⟩ := head_eq_cons hhead2
    have hle := dist_le_chain g d hwf hrel t2 s v 0 hch2 hs
      (by rw [hs0]; simp) hlast2
    rw [hn] at hle
    have hle2 : n ≤ 0 + t2.length := by exact_mod_cast hle
    simp only [List.length_cons]
    omega

theorem Dijkstra_correct_witness :
    (gEx.WF ∧ "A" ∈ gEx.vertexList ∧ "0" ∉ gEx.vertexList) ∧
    (∃ d, Dijkstra gEx "A" = DRes.ok d ∧
      d.map Prod.fst = gEx.vertexList ∧ lookupD d "A" = 0 ∧
      ∀ v ∈ gEx.vertexList,
        (lookupD d v = ⊤ ↔ ¬ ∃ c, ChainFT gEx "A" v c) ∧
        ∀ n : ℕ, lookupD d v = (n : ℕ∞) →
          (∃ c, ChainFT gEx "A" v c ∧ c.length = n + 1) ∧
          ∀ c, ChainFT gEx "A" v c → n + 1 ≤ c.length) :=
  ⟨⟨by decide, by decide, by decide⟩,
    Dijkstra_correct gEx "A" (by decide) (by decide) (by decide)⟩

end GQ
